import Mathlib

/-!
Advising Assistance Program: course containers.

A verification development for the two course containers of the program,
`RedBlackTree` (RedBlackTree.cpp) and `HashTable` (HashTable.cpp), the record
type `Course` (Course.cpp), the loader (FileLoader.cpp) and the key pools and
search loops of the benchmark (Benchmark.cpp).

Conventions of the embedding

* A C++ `char` is a byte, `Fin 256`; a `std::string` is a list of bytes.
  `operator<` and `operator==` of `std::string` are the lexicographic order on
  bytes and equality of lists. `::toupper` is taken in the "C" locale.
* A red-black tree is an inductive binary tree. The `parent` pointers of the
  source are the chain of ancestors of a node: a node below the root is
  addressed by the list of its ancestors (`Frame`s), nearest first, each
  recording on which side the chain continues and what hangs on the other side.
* The hash table keeps the two parallel vectors and the bucket count of the
  source. Vector indexing out of range and a remainder by zero are faults.
* A file is what `std::ifstream` makes of it: the lines `getline` delivers, or
  nothing when it cannot be opened. `std::getline` with a delimiter is modelled
  on the unread rest of a string stream. Line numbers and counts are natural
  numbers.
* Durations are not modelled. The output of a random generator is a parameter,
  and a distribution maps it into its range. In the mixed phase, where several
  distributions are called on one generator, the generator is a state and a
  distribution maps a state to a value and the next state; a `double` is a
  rational number.
* For the rotations the nodes also lie in a memory with their three pointers,
  addressed by numbers; `nullptr` is `none`.
-/

namespace Advising

/-! ## Strings -/

/-- A C++ `char`: one byte. -/
abbrev CChar := Fin 256

/-- A `std::string`: a sequence of bytes. -/
abbrev CString := List CChar

/-- The bytes of a string literal (code points are reduced to one byte). -/
def lit (s : String) : CString := s.toList.map (fun c => Fin.ofNat c.toNat)

/-- `::toupper` in the "C" locale: `a`..`z` go to `A`..`Z`, other bytes stay. -/
def toupper (c : CChar) : CChar :=
  if 97 ≤ c.val ∧ c.val ≤ 122 then Fin.ofNat (c.val - 32) else c

/-- `::tolower` in the "C" locale: `A`..`Z` go to `a`..`z`, other bytes stay. -/
def tolower (c : CChar) : CChar :=
  if 65 ≤ c.val ∧ c.val ≤ 90 then Fin.ofNat (c.val + 32) else c

/-- `operator<` of `std::string`: lexicographic comparison of the bytes, a
proper prefix being smaller. -/
def strLt : CString → CString → Bool
  | [], [] => false
  | [], _ :: _ => true
  | _ :: _, [] => false
  | a :: as, b :: bs => if a < b then true else if b < a then false else strLt as bs

/-- `ToUpperCopy` (RedBlackTree.cpp): `std::transform` with `::toupper`. -/
def ToUpperCopy (s : CString) : CString := s.map toupper

/-- The lowercase counterpart of `ToUpperCopy`, `lower(k)` of the specification. -/
def ToLowerCopy (s : CString) : CString := s.map tolower

/-! ## Course.cpp -/

/-- `struct Course` (Course.h). -/
structure Course where
  number : CString
  title : CString
  prerequisites : List CString
  deriving DecidableEq

/-- `Course::Course()`: the record returned by a failed lookup. -/
def Course.default : Course := { number := [], title := [], prerequisites := [] }

/-! ## RedBlackTree.cpp -/

/-- `enum Color { RED, BLACK }`. -/
inductive Color where
  | RED
  | BLACK
  deriving DecidableEq

/-- `RBTNode*`: a null pointer or a node with its payload, colour and the two
subtrees its `left` and `right` pointers lead to. -/
inductive RBTNode where
  | nil : RBTNode
  | node (data : Course) (color : Color) (left right : RBTNode) : RBTNode
  deriving DecidableEq

/-- The side of a parent on which a child hangs. -/
inductive Side where
  | left
  | right
  deriving DecidableEq

/-- An ancestor seen from below: its payload and colour, the side on which the
chain towards the node continues, and the subtree on its other side. -/
structure Frame where
  data : Course
  color : Color
  side : Side
  other : RBTNode
  deriving DecidableEq

/-- The ancestor node with subtree `t` hung on the side of the chain. -/
def Frame.plug (f : Frame) (t : RBTNode) : RBTNode :=
  match f.side with
  | Side.left => RBTNode.node f.data f.color t f.other
  | Side.right => RBTNode.node f.data f.color f.other t

/-- The whole tree: the subtree `t` with its ancestors, nearest first, put
back around it. -/
def zipUp (t : RBTNode) : List Frame → RBTNode
  | [] => t
  | f :: up => zipUp (f.plug t) up

/-- The object state of `class RedBlackTree`: the `root` pointer. -/
structure RedBlackTree where
  root : RBTNode
  deriving DecidableEq

namespace RedBlackTree

/-- `RedBlackTree::RedBlackTree()`: `root(nullptr)`. -/
def empty : RedBlackTree := { root := RBTNode.nil }

/-- `RedBlackTree::CompareKeys`. -/
def CompareKeys (a b : CString) : Int :=
  let A := ToUpperCopy a
  let B := ToUpperCopy b
  if strLt A B then -1
  else if strLt B A then 1
  else 0

/-- `RedBlackTree::Destroy(node)`: the payloads of the nodes in the order in
which they are deleted, left subtree, right subtree, then the node. -/
def Destroy : RBTNode → List Course
  | RBTNode.nil => []
  | RBTNode.node d _ l r => Destroy l ++ Destroy r ++ [d]

/-- `RedBlackTree::Clear`: every node is destroyed, `root = nullptr`. -/
def Clear (_t : RedBlackTree) : RedBlackTree := { root := RBTNode.nil }

/-- `RedBlackTree::LeftRotate(pivot)` on the subtree rooted at `pivot`; the
result is the subtree that takes the place of `pivot` under its parent (or as
`root`). Without a right child nothing changes. -/
def LeftRotate : RBTNode → RBTNode
  | RBTNode.node pd pc pl (RBTNode.node cd cc cl cr) =>
      RBTNode.node cd cc (RBTNode.node pd pc pl cl) cr
  | t => t

/-- `RedBlackTree::RightRotate(pivot)`, the mirror image of `LeftRotate`. -/
def RightRotate : RBTNode → RBTNode
  | RBTNode.node pd pc (RBTNode.node cd cc cl cr) pr =>
      RBTNode.node cd cc cl (RBTNode.node pd pc cr pr)
  | t => t

/-- `node->color = c` for a non-null `node`. -/
def setColor (c : Color) : RBTNode → RBTNode
  | RBTNode.nil => RBTNode.nil
  | RBTNode.node d _ l r => RBTNode.node d c l r

/-- `uncleNode && uncleNode->color == RED`. -/
def isRed : RBTNode → Bool
  | RBTNode.node _ Color.RED _ _ => true
  | _ => false

/-- The `while` loop of `InsertFixup`. `n` is the subtree rooted at `newNode`
(a node, `newNode` is never null), the list its ancestors; the result is the
whole tree when the loop is left. With no parent, a parent that is not RED, or
a RED parent without a grandparent (`break`) the tree is left as it is.

In the rotation branches `newNode->parent` has just been coloured BLACK and the
final rotation leaves it the parent of `newNode`, so the next test of the loop
condition fails: the loop is left with the rotated subtree in place. -/
def InsertFixup.loop : RBTNode → List Frame → RBTNode
  | n, [] => n
  | n, [p] => p.plug n
  | n, p :: g :: up =>
    if p.color ≠ Color.RED then zipUp n (p :: g :: up)
    else
      match g.side with
      | Side.left =>
        let uncleNode := g.other
        if isRed uncleNode then
          InsertFixup.loop
            (RBTNode.node g.data Color.RED
              ({ p with color := Color.BLACK }.plug n) (setColor Color.BLACK uncleNode))
            up
        else
          let parent := p.plug n
          let parent := if p.side = Side.right then LeftRotate parent else parent
          let parent := setColor Color.BLACK parent
          zipUp (RightRotate (RBTNode.node g.data Color.RED parent uncleNode)) up
      | Side.right =>
        let uncleNode := g.other
        if isRed uncleNode then
          InsertFixup.loop
            (RBTNode.node g.data Color.RED
              (setColor Color.BLACK uncleNode) ({ p with color := Color.BLACK }.plug n))
            up
        else
          let parent := p.plug n
          let parent := if p.side = Side.left then RightRotate parent else parent
          let parent := setColor Color.BLACK parent
          zipUp (LeftRotate (RBTNode.node g.data Color.RED uncleNode parent)) up

/-- One pass through the body of the `while` loop of `InsertFixup` in the state
`newNode` (the subtree rooted there) with its ancestors: `none` when the loop
is left (condition false, or `break`), otherwise the state the next test of the
condition finds. After the rotations `newNode` is the child, on the side away
from the former grandparent, of the node that has taken the grandparent's
place. -/
def InsertFixup.step : RBTNode → List Frame → Option (RBTNode × List Frame)
  | _, [] => none
  | _, [_] => none
  | n, p :: g :: up =>
    if p.color ≠ Color.RED then none
    else
      match g.side with
      | Side.left =>
        let uncleNode := g.other
        if isRed uncleNode then
          some (RBTNode.node g.data Color.RED
            ({ p with color := Color.BLACK }.plug n) (setColor Color.BLACK uncleNode), up)
        else
          let parent := p.plug n
          let parent := if p.side = Side.right then LeftRotate parent else parent
          let parent := setColor Color.BLACK parent
          match RightRotate (RBTNode.node g.data Color.RED parent uncleNode) with
          | RBTNode.node d c newNode r =>
            some (newNode, { data := d, color := c, side := Side.left, other := r } :: up)
          | RBTNode.nil => none
      | Side.right =>
        let uncleNode := g.other
        if isRed uncleNode then
          some (RBTNode.node g.data Color.RED
            (setColor Color.BLACK uncleNode) ({ p with color := Color.BLACK }.plug n), up)
        else
          let parent := p.plug n
          let parent := if p.side = Side.left then RightRotate parent else parent
          let parent := setColor Color.BLACK parent
          match LeftRotate (RBTNode.node g.data Color.RED uncleNode parent) with
          | RBTNode.node d c l newNode =>
            some (newNode, { data := d, color := c, side := Side.right, other := l } :: up)
          | RBTNode.nil => none

/-- The `while` loop of `InsertFixup` run for at most `fuel` tests of its
condition: the whole tree when the loop is left, `none` when the bound is
used up. -/
def InsertFixup.run : Nat → RBTNode → List Frame → Option RBTNode
  | 0, _, _ => none
  | fuel + 1, n, path =>
    match InsertFixup.step n path with
    | none => some (zipUp n path)
    | some (n', path') => InsertFixup.run fuel n' path'

/-- `RedBlackTree::InsertFixup`: the loop, then `if (root) root->color = BLACK`. -/
def InsertFixup (newNode : RBTNode) (ancestors : List Frame) : RBTNode :=
  setColor Color.BLACK (InsertFixup.loop newNode ancestors)

/-- The descent loop of `Insert` from `currentNode` with the ancestors passed
so far: `Sum.inl` the whole tree when a node with an equal key had its payload
replaced, `Sum.inr` the ancestors of the null child the descent ended at. -/
def Insert.descend (course : Course) : RBTNode → List Frame → Sum RBTNode (List Frame)
  | RBTNode.nil, path => Sum.inr path
  | RBTNode.node d c l r, path =>
    let cmp := CompareKeys course.number d.number
    if cmp = 0 then Sum.inl (zipUp (RBTNode.node course c l r) path)
    else if cmp < 0 then Insert.descend course l ({ data := d, color := c, side := Side.left, other := r } :: path)
    else Insert.descend course r ({ data := d, color := c, side := Side.right, other := l } :: path)

/-- The descent loop of `Insert` run for at most `fuel` tests of
`currentNode != nullptr`; `none` when the bound is used up. -/
def Insert.descendN (course : Course) :
    Nat → RBTNode → List Frame → Option (Sum RBTNode (List Frame))
  | 0, _, _ => none
  | _ + 1, RBTNode.nil, path => some (Sum.inr path)
  | fuel + 1, RBTNode.node d c l r, path =>
    let cmp := CompareKeys course.number d.number
    if cmp = 0 then some (Sum.inl (zipUp (RBTNode.node course c l r) path))
    else if cmp < 0 then
      Insert.descendN course fuel l ({ data := d, color := c, side := Side.left, other := r } :: path)
    else
      Insert.descendN course fuel r ({ data := d, color := c, side := Side.right, other := l } :: path)

/-- The frame of `parentNode` after `parentNode->left = newNode` or
`parentNode->right = newNode`, the side being chosen by a fresh comparison. -/
def Insert.attach (course : Course) (p : Frame) : Frame :=
  let children : RBTNode × RBTNode :=
    match p.side with
    | Side.left => (RBTNode.nil, p.other)
    | Side.right => (p.other, RBTNode.nil)
  if CompareKeys course.number p.data.number < 0 then
    { data := p.data, color := p.color, side := Side.left, other := children.2 }
  else
    { data := p.data, color := p.color, side := Side.right, other := children.1 }

/-- `RedBlackTree::Insert`. -/
def Insert (t : RedBlackTree) (course : Course) : RedBlackTree :=
  let newNode := RBTNode.node course Color.RED RBTNode.nil RBTNode.nil
  match Insert.descend course t.root [] with
  | Sum.inl root => { root := root }
  | Sum.inr [] => { root := InsertFixup newNode [] }
  | Sum.inr (parentNode :: up) =>
      { root := InsertFixup newNode (Insert.attach course parentNode :: up) }

/-- `RedBlackTree::Insert` with both of its loops run for at most `fuel` tests
of their conditions each; `none` when a bound is used up. -/
def Insert.run (fuel : Nat) (t : RedBlackTree) (course : Course) : Option RedBlackTree :=
  let newNode := RBTNode.node course Color.RED RBTNode.nil RBTNode.nil
  match Insert.descendN course fuel t.root [] with
  | none => none
  | some (Sum.inl root) => some { root := root }
  | some (Sum.inr []) =>
    (InsertFixup.run fuel newNode []).map (fun root => { root := setColor Color.BLACK root })
  | some (Sum.inr (parentNode :: up)) =>
    (InsertFixup.run fuel newNode (Insert.attach course parentNode :: up)).map
      (fun root => { root := setColor Color.BLACK root })

/-- The descent loop of `Search`; `courseNumber` is already uppercased. -/
def Search.loop (courseNumber : CString) : RBTNode → Course
  | RBTNode.nil => Course.default
  | RBTNode.node d _ l r =>
    let curKey := ToUpperCopy d.number
    if courseNumber = curKey then d
    else if strLt courseNumber curKey then Search.loop courseNumber l
    else Search.loop courseNumber r

/-- `RedBlackTree::Search`. -/
def Search (t : RedBlackTree) (courseNumber : CString) : Course :=
  Search.loop (ToUpperCopy courseNumber) t.root

/-- `RedBlackTree::InOrderApply`: the callback threads its state `σ`. -/
def InOrderApply {σ : Type} (fn : σ → Course → σ) : RBTNode → σ → σ
  | RBTNode.nil, s => s
  | RBTNode.node d _ l r, s => InOrderApply fn r (fn (InOrderApply fn l s) d)

/-- `RedBlackTree::ForEach`. -/
def ForEach {σ : Type} (t : RedBlackTree) (fn : σ → Course → σ) (s : σ) : σ :=
  InOrderApply fn t.root s

/-- The records `ForEach` hands to its callback, in the order of the calls. -/
def visited (t : RedBlackTree) : List Course :=
  t.ForEach (fun acc c => acc ++ [c]) []

/-- `RedBlackTree::CountNodes`. -/
def CountNodes : RBTNode → Nat
  | RBTNode.nil => 0
  | RBTNode.node _ _ l r => 1 + CountNodes l + CountNodes r

/-- `RedBlackTree::Size`. -/
def Size (t : RedBlackTree) : Nat := CountNodes t.root

/-- The tree after `Insert` of the records of `cs`, in order, into an empty tree. -/
def insertAll (cs : List Course) : RedBlackTree := cs.foldl Insert empty

end RedBlackTree

/-- A record with the given key and title and no prerequisites. -/
def mk (number title : String) : Course :=
  { number := lit number, title := lit title, prerequisites := [] }

/-! ## RedBlackTree.cpp: the rotations on the nodes in memory -/

/-- `struct RBTNode` as it lies in memory: the payload, the colour and the
three pointers. A pointer is the address of a node, `none` is `nullptr`. -/
structure Cell where
  data : Course
  color : Color
  parent : Option Nat
  left : Option Nat
  right : Option Nat
  deriving DecidableEq

/-- The nodes by address, and the `root` member of the `RedBlackTree`. -/
structure Memory where
  cell : Nat → Option Cell
  root : Option Nat

namespace Memory

/-- The memory with the node at address `a` overwritten by `c`. -/
def write (m : Memory) (a : Nat) (c : Cell) : Memory :=
  { m with cell := fun x => if x = a then some c else m.cell x }

/-- `p->parent`; there is no value when `p` is not the address of a node. -/
def parent (m : Memory) (p : Nat) : Option (Option Nat) := (m.cell p).map Cell.parent

/-- `p->left`. -/
def left (m : Memory) (p : Nat) : Option (Option Nat) := (m.cell p).map Cell.left

/-- `p->right`. -/
def right (m : Memory) (p : Nat) : Option (Option Nat) := (m.cell p).map Cell.right

/-- `p->parent = v`. -/
def setParent (m : Memory) (p : Nat) (v : Option Nat) : Option Memory :=
  (m.cell p).map (fun c => m.write p { c with parent := v })

/-- `p->left = v`. -/
def setLeft (m : Memory) (p : Nat) (v : Option Nat) : Option Memory :=
  (m.cell p).map (fun c => m.write p { c with left := v })

/-- `p->right = v`. -/
def setRight (m : Memory) (p : Nat) (v : Option Nat) : Option Memory :=
  (m.cell p).map (fun c => m.write p { c with right := v })

/-- `RedBlackTree::LeftRotate(pivot)`, statement by statement on the nodes in
memory. There is no result when a pointer that is dereferenced is not the
address of a node. -/
def LeftRotate (m : Memory) (pivot : Nat) : Option Memory := do
  let child ← m.right pivot
  match child with
  | none => pure m
  | some child =>
    -- Move child's left subtree into pivot's right slot
    let m ← m.setRight pivot (← m.left child)
    let m ← match ← m.left child with
      | none => pure m
      | some grandchild => m.setParent grandchild (some pivot)
    -- Link child to pivot's parent
    let m ← m.setParent child (← m.parent pivot)
    let m ← match ← m.parent pivot with
      | none => pure { m with root := some child }
      | some p =>
        if some pivot = (← m.left p) then m.setLeft p (some child)
        else m.setRight p (some child)
    -- Make pivot the left child of its former right child
    let m ← m.setLeft child (some pivot)
    m.setParent pivot (some child)

/-- `RedBlackTree::RightRotate(pivot)`, statement by statement on the nodes in
memory. -/
def RightRotate (m : Memory) (pivot : Nat) : Option Memory := do
  let child ← m.left pivot
  match child with
  | none => pure m
  | some child =>
    -- Move child's right subtree into pivot's left slot
    let m ← m.setLeft pivot (← m.right child)
    let m ← match ← m.right child with
      | none => pure m
      | some grandchild => m.setParent grandchild (some pivot)
    -- Link child to pivot's parent
    let m ← m.setParent child (← m.parent pivot)
    let m ← match ← m.parent pivot with
      | none => pure { m with root := some child }
      | some p =>
        if some pivot = (← m.left p) then m.setLeft p (some child)
        else m.setRight p (some child)
    -- Make pivot the right child of its former left child
    let m ← m.setRight child (some pivot)
    m.setParent pivot (some child)

end Memory

/-! ## HashTable.cpp -/

/-- What leaves the behaviour of the source undefined, and the exhaustion of
the iteration bound a loop is run with. -/
inductive Fault where
  | divisionByZero
  | outOfRange
  | loopBound
  deriving DecidableEq

deriving instance DecidableEq for Except

/-- The object state of `class HashTable`: the parallel vectors `table` and
`occupied`, and the bucket count `tableSize` (an `unsigned int`). -/
structure HashTable where
  table : List Course
  occupied : List Bool
  tableSize : Nat
  deriving DecidableEq

namespace HashTable

/-- `HashTable::HashTable(size)`: `size` default records, no slot occupied. -/
def Construct (size : Nat) : HashTable :=
  { table := List.replicate size Course.default
    occupied := List.replicate size false
    tableSize := size }

/-- `static_cast<int>(ch)`, `char` being a signed byte. -/
def charToInt (ch : CChar) : Int :=
  if ch.val < 128 then (ch.val : Int) else (ch.val : Int) - 256

/-- The value an `int` computation stores: the result reduced to 32 bits, two's
complement. -/
def wrapInt (x : Int) : Int := (x + 2 ^ 31) % 2 ^ 32 - 2 ^ 31

/-- The conversion of an `int` to `unsigned int`. -/
def toUnsigned (x : Int) : Nat := (x % 2 ^ 32).toNat

/-- The accumulation loop of `hash`: `sum += static_cast<int>(ch)`. -/
def hash.sum (key : CString) : Int :=
  key.foldl (fun sum ch => wrapInt (sum + charToInt ch)) 0

/-- `HashTable::hash`: `sum % tableSize`, computed in `unsigned int`. -/
def hash (t : HashTable) (key : CString) : Except Fault Nat :=
  if t.tableSize = 0 then Except.error Fault.divisionByZero
  else Except.ok (toUnsigned (hash.sum key) % t.tableSize)

/-- The probe loop of `Insert`, run for at most `fuel` tests of `occupied[key]`:
`some key` when the loop is left at a free slot, `none` when the probe came
back to `originalKey` (table full). -/
def Insert.loop (t : HashTable) (originalKey : Nat) : Nat → Nat → Except Fault (Option Nat)
  | 0, _ => Except.error Fault.loopBound
  | fuel + 1, key =>
    match t.occupied[key]? with
    | none => Except.error Fault.outOfRange
    | some false => Except.ok (some key)
    | some true =>
      let key := (key + 1) % 2 ^ 32 % t.tableSize
      if key = originalKey then Except.ok none
      else Insert.loop t originalKey fuel key

/-- `HashTable::Insert`: the new state and the lines written to `cout`. -/
def Insert (t : HashTable) (course : Course) : Except Fault (HashTable × List String) :=
  match t.hash course.number with
  | Except.error e => Except.error e
  | Except.ok originalKey =>
    match Insert.loop t originalKey t.tableSize originalKey with
    | Except.error e => Except.error e
    | Except.ok none => Except.ok (t, ["Error: Hash table is full."])
    | Except.ok (some key) =>
      if key < t.table.length ∧ key < t.occupied.length then
        Except.ok ({ t with table := t.table.set key course, occupied := t.occupied.set key true }, [])
      else Except.error Fault.outOfRange

/-- The probe loop of `Search`, run for at most `fuel` tests of `occupied[key]`;
`courseNumber` is already uppercased. -/
def Search.loop (t : HashTable) (courseNumber : CString) (originalKey : Nat) :
    Nat → Nat → Except Fault Course
  | 0, _ => Except.error Fault.loopBound
  | fuel + 1, key =>
    match t.occupied[key]? with
    | none => Except.error Fault.outOfRange
    | some false => Except.ok Course.default
    | some true =>
      match t.table[key]? with
      | none => Except.error Fault.outOfRange
      | some c =>
        if c.number = courseNumber then Except.ok c
        else
          let key := (key + 1) % 2 ^ 32 % t.tableSize
          if key = originalKey then Except.ok Course.default
          else Search.loop t courseNumber originalKey fuel key

/-- `HashTable::Search`. -/
def Search (t : HashTable) (courseNumber : CString) : Except Fault Course :=
  let courseNumber := courseNumber.map toupper
  match t.hash courseNumber with
  | Except.error e => Except.error e
  | Except.ok originalKey => Search.loop t courseNumber originalKey t.tableSize originalKey

/-- `HashTable::Resize`: both vectors are cleared and resized. -/
def Resize (_t : HashTable) (newSize : Nat) : HashTable :=
  { table := List.replicate newSize Course.default
    occupied := List.replicate newSize false
    tableSize := newSize }

/-- The loop of `HashTable::ForEach` over the `n` indices from `i` on; the
callback threads its state `σ`. -/
def ForEach.loop {σ : Type} (t : HashTable) (fn : σ → Course → σ) : Nat → Nat → σ → Except Fault σ
  | 0, _, s => Except.ok s
  | n + 1, i, s =>
    match t.occupied[i]? with
    | none => Except.error Fault.outOfRange
    | some false => ForEach.loop t fn n (i + 1) s
    | some true =>
      match t.table[i]? with
      | none => Except.error Fault.outOfRange
      | some c => ForEach.loop t fn n (i + 1) (fn s c)

/-- `HashTable::ForEach`. -/
def ForEach {σ : Type} (t : HashTable) (fn : σ → Course → σ) (s : σ) : Except Fault σ :=
  ForEach.loop t fn t.tableSize 0 s

/-- `HashTable::Capacity`. -/
def Capacity (t : HashTable) : Nat := t.tableSize

/-- The loop of `HashTable::Size` over the `n` indices from `i` on. -/
def Size.loop (t : HashTable) : Nat → Nat → Nat → Except Fault Nat
  | 0, _, n => Except.ok n
  | k + 1, i, n =>
    match t.occupied[i]? with
    | none => Except.error Fault.outOfRange
    | some false => Size.loop t k (i + 1) n
    | some true => Size.loop t k (i + 1) (n + 1)

/-- `HashTable::Size`. -/
def Size (t : HashTable) : Except Fault Nat := Size.loop t t.tableSize 0 0

/-- The table after `Insert` of the records of `cs`, in order, and the lines
written to `cout` on the way. -/
def insertAll (t : HashTable) : List Course → Except Fault (HashTable × List String)
  | [] => Except.ok (t, [])
  | c :: cs =>
    match t.Insert c with
    | Except.error e => Except.error e
    | Except.ok (t', out) =>
      match insertAll t' cs with
      | Except.error e => Except.error e
      | Except.ok (t'', out') => Except.ok (t'', out ++ out')

end HashTable

/-! ## FileLoader.cpp -/

/-- The comma, the field delimiter of the course file. -/
def comma : CChar := 44

/-- `std::getline(is, str, delim)` on the unread rest of a stream: `none` when
no character can be extracted (the call fails), otherwise the characters up to
the first `delim` or the end of the stream, and what is left unread after the
extracted delimiter. -/
def getline (delim : CChar) : CString → Option (CString × CString)
  | [] => none
  | ch :: rest =>
    if ch = delim then some ([], rest)
    else
      match getline delim rest with
      | none => some ([ch], [])
      | some (str, unread) => some (ch :: str, unread)

/-- A file as `std::ifstream` sees it: `none` when it cannot be opened,
otherwise the lines the successive calls `getline(file, line)` deliver. -/
abbrev FileContent := Option (List CString)

/-- The loop `while (getline(ss, token, ','))` of `loadCourses` collecting the
non-empty tokens, run for at most `fuel` calls of `getline`. -/
def loadCourses.prerequisites : Nat → CString → List CString → List CString
  | 0, _, prerequisites => prerequisites
  | fuel + 1, ss, prerequisites =>
    match getline comma ss with
    | none => prerequisites
    | some (token, ss) =>
      loadCourses.prerequisites fuel ss
        (if token ≠ [] then prerequisites ++ [token] else prerequisites)

/-- What the body of the reading loop of `loadCourses` does with a line: go on
without a word, warn and go on, or insert a record. -/
inductive loadCourses.Outcome where
  | skipped
  | warned
  | course (c : Course)
  deriving DecidableEq

/-- The body of the reading loop of `loadCourses` up to the call of `Insert`;
the two overloads have the same text. Each call of `getline` extracts at least
one character, so `ss.length + 1` calls exhaust the stream. -/
def loadCourses.line (line : CString) : loadCourses.Outcome :=
  if line = [] then loadCourses.Outcome.skipped
  else
    match getline comma line with
    | none => loadCourses.Outcome.skipped
    | some (courseNumber, ss) =>
      match getline comma ss with
      | none => loadCourses.Outcome.skipped
      | some (courseName, ss) =>
        if courseNumber = [] ∨ courseName = [] then loadCourses.Outcome.warned
        else
          loadCourses.Outcome.course
            { number := courseNumber
              title := courseName
              prerequisites := loadCourses.prerequisites (ss.length + 1) ss [] }

/-- The warning `loadCourses` writes for line `lineNumber`. -/
def loadCourses.warning (lineNumber : Nat) : String :=
  "Warning: Line " ++ toString lineNumber ++ " skipped due to incorrect formatting."

/-- The reading loop of `loadCourses(HashTable&, fileName)`: the lines still to
read, the value of `lineNumber`, and the lines written to `cout` so far. -/
def HashTable.loadCourses.loop (courseTable : HashTable) :
    List CString → Nat → List String → Except Fault (HashTable × List String)
  | [], _, out => Except.ok (courseTable, out)
  | line :: rest, lineNumber, out =>
    let lineNumber := lineNumber + 1
    match loadCourses.line line with
    | loadCourses.Outcome.skipped => HashTable.loadCourses.loop courseTable rest lineNumber out
    | loadCourses.Outcome.warned =>
      HashTable.loadCourses.loop courseTable rest lineNumber
        (out ++ [loadCourses.warning lineNumber])
    | loadCourses.Outcome.course c =>
      match courseTable.Insert c with
      | Except.error e => Except.error e
      | Except.ok (courseTable, written) =>
        HashTable.loadCourses.loop courseTable rest lineNumber (out ++ written)

/-- `loadCourses(HashTable&, fileName)`: the table after loading and the lines
written to `cout`. -/
def HashTable.loadCourses (courseTable : HashTable) (fileName : String) (file : FileContent) :
    Except Fault (HashTable × List String) :=
  match file with
  | none => Except.ok (courseTable, ["Error: Could not open file: " ++ fileName])
  | some lines =>
    match HashTable.loadCourses.loop courseTable lines 0 [] with
    | Except.error e => Except.error e
    | Except.ok (courseTable, out) =>
      Except.ok (courseTable, out ++ ["Courses loaded successfully (HashTable)."])

/-- The reading loop of `loadCourses(RedBlackTree&, fileName)`. -/
def RedBlackTree.loadCourses.loop (tree : RedBlackTree) :
    List CString → Nat → List String → RedBlackTree × List String
  | [], _, out => (tree, out)
  | line :: rest, lineNumber, out =>
    let lineNumber := lineNumber + 1
    match loadCourses.line line with
    | loadCourses.Outcome.skipped => RedBlackTree.loadCourses.loop tree rest lineNumber out
    | loadCourses.Outcome.warned =>
      RedBlackTree.loadCourses.loop tree rest lineNumber (out ++ [loadCourses.warning lineNumber])
    | loadCourses.Outcome.course c =>
      RedBlackTree.loadCourses.loop (tree.Insert c) rest lineNumber out

/-- `loadCourses(RedBlackTree&, fileName)`: the tree after loading and the
lines written to `cout`. -/
def RedBlackTree.loadCourses (tree : RedBlackTree) (fileName : String) (file : FileContent) :
    RedBlackTree × List String :=
  match file with
  | none => (tree, ["Error: Could not open file: " ++ fileName])
  | some lines =>
    let (tree, out) := RedBlackTree.loadCourses.loop tree lines 0 []
    (tree, out ++ ["Courses loaded successfully (RBT)."])

/-! ## Benchmark.cpp -/

namespace Benchmark

/-- `s.rfind(str, pos)` of `std::string`: the highest position `x ≤ pos` at
which `str` occurs in `s`, `none` for `npos`. -/
def rfind (s str : CString) (pos : Nat) : Option Nat :=
  (List.range (pos + 1)).reverse.find? (fun x => (s.drop x).take str.length = str)

/-- The callback of `MeasurePrefixCountMs`: `if (c.number.rfind(prefix, 0) == 0) ++count`. -/
def MeasurePrefixCountMs.visit (pfx : CString) (count : Nat) (c : Course) : Nat :=
  if rfind c.number pfx 0 = some 0 then count + 1 else count

/-- `MeasurePrefixCountMs(forEachFn, prefix)`: the second component of the
result, the count; the first is a duration. `forEachFn` hands the callback, with
the initial state of what it captures, to the `ForEach` of a container. -/
def MeasurePrefixCountMs {ρ : Type} (forEachFn : (Nat → Course → Nat) → Nat → ρ)
    (pfx : CString) : ρ :=
  forEachFn (MeasurePrefixCountMs.visit pfx) 0

/-- The reading loop of `LoadCourseNumbersOnly`. -/
def LoadCourseNumbersOnly.loop : List CString → List CString → List CString
  | [], out => out
  | line :: rest, out =>
    if line = [] then LoadCourseNumbersOnly.loop rest out
    else
      match getline comma line with
      | none => LoadCourseNumbersOnly.loop rest out
      | some (number, _) =>
        if number ≠ [] then LoadCourseNumbersOnly.loop rest (out ++ [number])
        else LoadCourseNumbersOnly.loop rest out

/-- `LoadCourseNumbersOnly(filePath)`; a file that cannot be opened delivers no
line. -/
def LoadCourseNumbersOnly (file : FileContent) : List CString :=
  match file with
  | none => []
  | some lines => LoadCourseNumbersOnly.loop lines []

/-- The vector `hitKeys` of `RunHashTableBenchmark` and `RunRBTBenchmark` after
`if (!hitKeys.empty() && hitKeys.size() > searchTrials) hitKeys.resize(searchTrials)`. -/
def hitKeys (file : FileContent) (searchTrials : Nat) : List CString :=
  let hitKeys := LoadCourseNumbersOnly file
  if hitKeys ≠ [] ∧ hitKeys.length > searchTrials then hitKeys.take searchTrials
  else hitKeys

/-- The vector `missKeys`: `hitKeys[i] + "_MISS"` for each index `i`. -/
def missKeys (hitKeys : List CString) : List CString :=
  hitKeys.map (fun key => key ++ lit "_MISS")

/-- `poolSize = keys.empty() ? 1 : keys.size()`. -/
def poolSize (keys : List CString) : Nat :=
  if keys = [] then 1 else keys.length

/-- The value `uniform_int_distribution<size_t>(a, b)` makes of the output
`raw` of the generator: some value from `a` to `b`. -/
def uniformInt (a b raw : Nat) : Nat := a + raw % (b - a + 1)

/-- The timed loop of the hit phase and of the miss phase over the trials `i`,
`i + 1`, ... (`n` of them): `key = keys[dist(rng)]`, then `Search(key)`; the
results are returned in order. `rng i` is the output of the generator for trial
`i`. Indexing the vector out of range is a fault. -/
def searchPhase (search : CString → Except Fault Course) (keys : List CString)
    (rng : Nat → Nat) : Nat → Nat → Except Fault (List Course)
  | 0, _ => Except.ok []
  | n + 1, i =>
    match keys[uniformInt 0 (poolSize keys - 1) (rng i)]? with
    | none => Except.error Fault.outOfRange
    | some key =>
      match search key with
      | Except.error e => Except.error e
      | Except.ok sink =>
        match searchPhase search keys rng n (i + 1) with
        | Except.error e => Except.error e
        | Except.ok sinks => Except.ok (sink :: sinks)

/-- The timed loop of the mixed phase over `n` trials. The generator `rngMixed`
is a state of some type `G`, and a distribution called on it gives a value and
leaves it in a new state: `coinFlip g` stands for `coinFlip(rngMixed)`, the
values of `double` taken as rationals, and `indexDist a b g` for a
`uniform_int_distribution<size_t>(a, b)` called on `rngMixed`. The result tells
for every trial whether the hit branch was taken, and what `Search` returned.
Indexing a vector out of range is a fault. -/
def mixedPhase {G : Type} (coinFlip : G → ℚ × G) (indexDist : Nat → Nat → G → Nat × G)
    (search : CString → Except Fault Course) (hitKeys missKeys : List CString)
    (mixedHitRatio : ℚ) : Nat → G → Except Fault (List (Bool × Course))
  | 0, _ => Except.ok []
  | n + 1, rngMixed =>
    let hitPoolSize := poolSize hitKeys
    let missPoolSize := poolSize missKeys
    let (x, rngMixed) := coinFlip rngMixed
    if x < mixedHitRatio then
      let (i, rngMixed) := indexDist 0 (hitPoolSize - 1) rngMixed
      match hitKeys[i]? with
      | none => Except.error Fault.outOfRange
      | some key =>
        match search key with
        | Except.error e => Except.error e
        | Except.ok sink =>
          match mixedPhase coinFlip indexDist search hitKeys missKeys mixedHitRatio n
              rngMixed with
          | Except.error e => Except.error e
          | Except.ok sinks => Except.ok ((true, sink) :: sinks)
    else
      let (i, rngMixed) := indexDist 0 (missPoolSize - 1) rngMixed
      match missKeys[i]? with
      | none => Except.error Fault.outOfRange
      | some key =>
        match search key with
        | Except.error e => Except.error e
        | Except.ok sink =>
          match mixedPhase coinFlip indexDist search hitKeys missKeys mixedHitRatio n
              rngMixed with
          | Except.error e => Except.error e
          | Except.ok sinks => Except.ok ((false, sink) :: sinks)

end Benchmark

/-! ## Notions the properties are stated with -/

/-- The uppercased key of a record, the key the tree orders by. -/
def ukey (c : Course) : CString := ToUpperCopy c.number

/-- The records of a subtree, left to right. -/
def inorder : RBTNode → List Course
  | RBTNode.nil => []
  | RBTNode.node d _ l r => inorder l ++ d :: inorder r

/-- The records of the whole tree to the left of the subtree the ancestors
lead to. -/
def before : List Frame → List Course
  | [] => []
  | f :: up =>
    before up ++ (match f.side with
      | Side.left => []
      | Side.right => inorder f.other ++ [f.data])

/-- The records of the whole tree to the right of the subtree the ancestors
lead to. -/
def after : List Frame → List Course
  | [] => []
  | f :: up =>
    (match f.side with
      | Side.left => f.data :: inorder f.other
      | Side.right => []) ++ after up

/-- A list of records in strictly ascending order of uppercased keys. -/
def Sorted (l : List Course) : Prop :=
  l.Pairwise (fun a b => strLt (ukey a) (ukey b) = true)

/-- The first record of a list whose uppercased key is `k`, the default record
when there is none. -/
def lookup (k : CString) : List Course → Course
  | [] => Course.default
  | x :: xs => if ukey x = k then x else lookup k xs

/-- Insertion of a record into a key-ordered list: a record with the same
uppercased key is replaced, otherwise the record is put in before the first
record with a larger key. -/
def upsert (c : Course) : List Course → List Course
  | [] => [c]
  | x :: xs =>
    if strLt (ukey c) (ukey x) then c :: x :: xs
    else if ukey c = ukey x then c :: xs
    else x :: upsert c xs

/-- The records of the tree `Insert` builds, read off the outcome of the descent. -/
def descendInorder (course : Course) : Sum RBTNode (List Frame) → List Course
  | Sum.inl root => inorder root
  | Sum.inr path => before path ++ course :: after path

/-- The side recorded in a frame is the side a fresh comparison chooses. -/
def Consistent (course : Course) (f : Frame) : Prop :=
  f.side = Side.left ↔ RedBlackTree.CompareKeys course.number f.data.number < 0

/-- Whether no RED node of the subtree has a RED parent in it: a RED node has
no RED child. -/
def noRedRed : RBTNode → Bool
  | RBTNode.nil => true
  | RBTNode.node _ c l r =>
    (c != Color.RED || (!RedBlackTree.isRed l && !RedBlackTree.isRed r)) && noRedRed l && noRedRed r

/-- The number of BLACK nodes on each path from the root of the subtree to a
null child, one entry per path, left to right. -/
def blackCounts : RBTNode → List Nat
  | RBTNode.nil => [0]
  | RBTNode.node _ c l r =>
    (blackCounts l ++ blackCounts r).map (fun n => n + (if c = Color.BLACK then 1 else 0))

/-- The number of nodes on the longest path from the root of the subtree to a
null child. -/
def height : RBTNode → Nat
  | RBTNode.nil => 0
  | RBTNode.node _ _ l r => max (height l) (height r) + 1

/-- What a node of the given colour adds to the BLACK count of a path. -/
def inc : Color → Nat
  | Color.BLACK => 1
  | Color.RED => 0

/-- Every path from the root of the subtree to a null child has `h` BLACK nodes. -/
def Balanced : RBTNode → Nat → Prop
  | RBTNode.nil, h => h = 0
  | RBTNode.node _ c l r, h => ∃ k, h = k + inc c ∧ Balanced l k ∧ Balanced r k

/-- The nearest ancestor exists and is BLACK. -/
def blackTop : List Frame → Prop
  | [] => False
  | g :: _ => g.color = Color.BLACK

/-- The ancestors of a position whose subtree has `h` BLACK nodes on every
path: what hangs off the chain is balanced and free of RED-RED pairs, a RED
ancestor has a BLACK sibling subtree and a BLACK parent, and the BLACK counts
add up along the chain. -/
def PathOK : List Frame → Nat → Prop
  | [], _ => True
  | f :: up, h =>
    noRedRed f.other = true ∧ Balanced f.other h ∧
      (f.color = Color.RED → RedBlackTree.isRed f.other = false ∧ blackTop up) ∧
      PathOK up (h + inc f.color)

/-- The red-black invariants of a whole tree: BLACK root, no RED node with a
RED parent, equal BLACK counts. -/
def Valid (t : RBTNode) : Prop :=
  RedBlackTree.isRed t = false ∧ noRedRed t = true ∧ ∃ h, Balanced t h

/-- The invariant of the object state: both vectors have `tableSize` entries,
and `tableSize` is a positive `unsigned int`. -/
def HashTable.WF (t : HashTable) : Prop :=
  t.table.length = t.tableSize ∧ t.occupied.length = t.tableSize ∧
    0 < t.tableSize ∧ t.tableSize < 2 ^ 32

/-- Slot `k` is occupied and holds the record `r`. -/
def HashTable.Holds (t : HashTable) (k : Nat) (r : Course) : Prop :=
  t.occupied[k]? = some true ∧ t.table[k]? = some r

/-- The bucket index `hash` computes for `key` in a table of `c` buckets. -/
def HashTable.home (c : Nat) (key : CString) : Nat :=
  HashTable.toUnsigned (HashTable.hash.sum key) % c

/-- Every stored record is reached from its home slot along occupied slots:
slot `k` holds `r` only if `k` lies `m` probe steps after the home slot of
`r.number` and the `m` slots before it on the probe sequence are occupied. -/
def HashTable.Chain (t : HashTable) : Prop :=
  ∀ k r, t.Holds k r → ∃ m, m < t.tableSize ∧
    k = (HashTable.home t.tableSize r.number + m) % t.tableSize ∧
    ∀ i, i < m → t.occupied[(HashTable.home t.tableSize r.number + i) % t.tableSize]? = some true

/-- No two slots hold records with the same key. -/
def HashTable.Inj (t : HashTable) : Prop :=
  ∀ k₁ k₂ r₁ r₂, t.Holds k₁ r₁ → t.Holds k₂ r₂ → r₁.number = r₂.number → k₁ = k₂

/-- The state after the two stores of `Insert`: `table[k] = course` and
`occupied[k] = true`. -/
def HashTable.put (t : HashTable) (k : Nat) (course : Course) : HashTable :=
  { t with table := t.table.set k course, occupied := t.occupied.set k true }

/-- Both vectors of the table have `tableSize` entries. -/
def HashTable.Sized (t : HashTable) : Prop :=
  t.table.length = t.tableSize ∧ t.occupied.length = t.tableSize

/-- The indices of the occupied slots among the `n` slots from `i` on, ascending. -/
def HashTable.occupiedFrom (t : HashTable) (i n : Nat) : List Nat :=
  (List.range' i n).filter (fun j => t.occupied[j]? = some true)

/-- The indices of the occupied slots, ascending. -/
def HashTable.occupiedSlots (t : HashTable) : List Nat :=
  (List.range t.tableSize).filter (fun j => t.occupied[j]? = some true)

/-- The payloads of the occupied slots, in ascending order of the slot index. -/
def HashTable.payloads (t : HashTable) : List Course :=
  t.occupiedSlots.filterMap (fun j => t.table[j]?)

/-- The first comma-separated field of a line: the characters before its first
comma. -/
def firstField (line : CString) : CString :=
  line.takeWhile (fun ch => ch ≠ comma)

/-- The keys read from a source, in the words of the specification: the first
comma-separated field of each non-empty line with a non-empty first field, in
source order; a source that cannot be opened yields none. -/
def sourceKeys (file : FileContent) : List CString :=
  match file with
  | none => []
  | some lines => ((lines.filter (fun line => line ≠ [])).map firstField).filter (fun key => key ≠ [])

/-- The records `loadCourses` passes to `Insert`, in order. -/
def loadCourses.courses (lines : List CString) : List Course :=
  lines.filterMap (fun line =>
    match loadCourses.line line with
    | loadCourses.Outcome.course c => some c
    | _ => none)

/-- The links and colours of a subtree: the subtree with every payload replaced
by the default record. -/
def shape : RBTNode → RBTNode
  | RBTNode.nil => RBTNode.nil
  | RBTNode.node _ c l r => RBTNode.node Course.default c (shape l) (shape r)

/-! ### Trees in memory -/

/-- A tree with the address of each node: the nodes a tree occupies in
memory. -/
inductive Layout where
  | nil : Layout
  | node (addr : Nat) (data : Course) (color : Color) (left right : Layout) : Layout
  deriving DecidableEq

/-- The pointer to the root node of a laid-out tree. -/
def Layout.ptr : Layout → Option Nat
  | Layout.nil => none
  | Layout.node a _ _ _ _ => some a

/-- The tree of a layout, addresses forgotten. -/
def Layout.tree : Layout → RBTNode
  | Layout.nil => RBTNode.nil
  | Layout.node _ d c l r => RBTNode.node d c l.tree r.tree

/-- The addresses of the nodes of a layout. -/
def Layout.addrs : Layout → List Nat
  | Layout.nil => []
  | Layout.node a _ _ l r => a :: (l.addrs ++ r.addrs)

/-- The memory holds the laid-out tree below a node `par`: every node lies at
its address with its payload and colour, its `parent` pointer leads to the
node above and its `left` and `right` pointers to the roots of its subtrees. -/
def Stored (m : Memory) : Option Nat → Layout → Prop
  | _, Layout.nil => True
  | par, Layout.node a d c l r =>
      m.cell a = some { data := d, color := c, parent := par, left := l.ptr, right := r.ptr } ∧
        Stored m (some a) l ∧ Stored m (some a) r

/-- Whether the memory holds a layout can be computed. -/
instance Stored.instDecidable (m : Memory) :
    ∀ (par : Option Nat) (t : Layout), Decidable (Stored m par t)
  | _, Layout.nil => isTrue trivial
  | _, Layout.node a _ _ l r =>
    @instDecidableAnd _ _ inferInstance
      (@instDecidableAnd _ _ (Stored.instDecidable m (some a) l)
        (Stored.instDecidable m (some a) r))

/-- An ancestor in a layout, seen from below. -/
structure LFrame where
  addr : Nat
  data : Course
  color : Color
  side : Side
  other : Layout
  deriving DecidableEq

/-- The ancestor node with the laid-out subtree `t` hung on the side of the
chain. -/
def LFrame.plug (f : LFrame) (t : Layout) : Layout :=
  match f.side with
  | Side.left => Layout.node f.addr f.data f.color t f.other
  | Side.right => Layout.node f.addr f.data f.color f.other t

/-- The whole layout: the subtree `t` with its ancestors, nearest first, put
back around it. -/
def Layout.zipUp (t : Layout) : List LFrame → Layout
  | [] => t
  | f :: up => Layout.zipUp (f.plug t) up

/-- The ancestor of a layout as an ancestor of its tree. -/
def LFrame.frame (f : LFrame) : Frame :=
  { data := f.data, color := f.color, side := f.side, other := f.other.tree }

/-- The pointer of an ancestor node on the side of the chain. -/
def LFrame.child (f : LFrame) (c : Cell) : Option Nat :=
  match f.side with
  | Side.left => c.left
  | Side.right => c.right

/-- A well-formed tree in memory: `root` points to the root node of the layout,
every node of the layout is stored with the pointers of the layout, and no two
nodes share an address. -/
def Memory.Represents (m : Memory) (t : Layout) : Prop :=
  m.root = t.ptr ∧ Stored m none t ∧ t.addrs.Nodup

/-- The `parent` pointer of the subtree below the ancestors `path` in a tree
whose root has the parent pointer `top`. -/
def parentPtr (top : Option Nat) : List LFrame → Option Nat
  | [] => top
  | f :: _ => some f.addr

/-- The node of an ancestor in memory, with parent pointer `par` and the pointer
`sub` on the side of the chain. -/
def LFrame.cell (f : LFrame) (par sub : Option Nat) : Cell :=
  match f.side with
  | Side.left =>
    { data := f.data, color := f.color, parent := par, left := sub, right := f.other.ptr }
  | Side.right =>
    { data := f.data, color := f.color, parent := par, left := f.other.ptr, right := sub }

/-- The memory holds the ancestors `path` around a subtree whose root pointer
is `sub`. -/
def StoredAround (m : Memory) (top : Option Nat) : Option Nat → List LFrame → Prop
  | _, [] => True
  | sub, f :: up =>
      m.cell f.addr = some (f.cell (parentPtr top up) sub) ∧
        Stored m (some f.addr) f.other ∧ StoredAround m top (some f.addr) up

/-- The addresses of the ancestors and of the subtrees on their other sides. -/
def aroundAddrs : List LFrame → List Nat
  | [] => []
  | f :: up => f.addr :: (f.other.addrs ++ aroundAddrs up)

/-- The memory with the listed nodes at the listed addresses. -/
def Memory.ofList (cells : List (Nat × Cell)) (root : Option Nat) : Memory :=
  { cell := fun x => cells.lookup x, root := root }

/-! ### The mixed phase of the benchmark -/

namespace Benchmark

/-- The hit/miss decisions of `n` trials of the mixed phase, written as a
function of the distributions, the generator, the ratio and the sizes of the
two pools. -/
def mixedDecisions {G : Type} (coinFlip : G → ℚ × G) (indexDist : Nat → Nat → G → Nat × G)
    (mixedHitRatio : ℚ) (hitPoolSize missPoolSize : Nat) : Nat → G → List Bool
  | 0, _ => []
  | n + 1, g =>
    if (coinFlip g).1 < mixedHitRatio then
      true :: mixedDecisions coinFlip indexDist mixedHitRatio hitPoolSize missPoolSize n
        (indexDist 0 (hitPoolSize - 1) (coinFlip g).2).2
    else
      false :: mixedDecisions coinFlip indexDist mixedHitRatio hitPoolSize missPoolSize n
        (indexDist 0 (missPoolSize - 1) (coinFlip g).2).2

/-- A generator given by the stream `s` of its outputs, its state the number of
outputs taken so far, and a `uniform_real_distribution<double>(0.0, 1.0)` that
takes one 32-bit output. -/
def streamCoin (s : Nat → Nat) (g : Nat) : ℚ × Nat := ((s g : ℚ) / 2 ^ 32, g + 1)

/-- A `uniform_int_distribution<size_t>(a, b)` that takes one output of the
generator given by the stream `s`. -/
def streamIndex (s : Nat → Nat) (a b g : Nat) : Nat × Nat := (uniformInt a b (s g), g + 1)

end Benchmark

/-! ## The order on keys -/

theorem strLt_irrefl (a : CString) : strLt a a = false := by
  induction a with
  | nil => rfl
  | cons x xs ih => simp [strLt, ih]

theorem strLt_trans : ∀ (a b c : CString), strLt a b = true → strLt b c = true → strLt a c = true
  | [], [], _, h, _ => by simp [strLt] at h
  | [], _ :: _, [], _, h => by simp [strLt] at h
  | [], _ :: _, _ :: _, _, _ => by simp [strLt]
  | _ :: _, [], _, h, _ => by simp [strLt] at h
  | _ :: _, _ :: _, [], _, h => by simp [strLt] at h
  | x :: xs, y :: ys, z :: zs, h1, h2 => by
    have ih := strLt_trans xs ys zs
    simp only [strLt] at h1 h2 ⊢
    by_cases hxy : x < y
    · by_cases hyz : y < z
      · simp [lt_trans hxy hyz]
      · simp only [hyz, if_false] at h2
        by_cases hzy : z < y
        · simp [hzy] at h2
        · have : y = z := le_antisymm (not_lt.mp hzy) (not_lt.mp hyz)
          subst this
          simp [hxy]
    · simp only [hxy, if_false] at h1
      by_cases hyx : y < x
      · simp [hyx] at h1
      · have : x = y := le_antisymm (not_lt.mp hyx) (not_lt.mp hxy)
        subst this
        simp only [hyx, if_false] at h1
        by_cases hxz : x < z
        · simp [hxz]
        · simp only [hxz, if_false] at h2 ⊢
          by_cases hzx : z < x
          · simp [hzx] at h2
          · simp only [hzx, if_false] at h2 ⊢
            exact ih h1 h2

theorem strLt_asymm (a b : CString) (h : strLt a b = true) : strLt b a = false := by
  cases hba : strLt b a with
  | false => rfl
  | true =>
    have := strLt_trans a b a h hba
    rw [strLt_irrefl] at this
    exact this.symm

theorem strLt_total : ∀ (a b : CString), strLt a b = false → strLt b a = false → a = b
  | [], [], _, _ => rfl
  | [], _ :: _, h, _ => by simp [strLt] at h
  | _ :: _, [], _, h => by simp [strLt] at h
  | x :: xs, y :: ys, h1, h2 => by
    simp only [strLt] at h1 h2
    by_cases hxy : x < y
    · simp [hxy] at h1
    · by_cases hyx : y < x
      · simp [hyx] at h2
      · have : x = y := le_antisymm (not_lt.mp hyx) (not_lt.mp hxy)
        subst this
        simp only [hxy, if_false] at h1 h2
        rw [strLt_total xs ys h1 h2]

theorem strLt_ne (a b : CString) (h : strLt a b = true) : a ≠ b := by
  intro e
  subst e
  rw [strLt_irrefl] at h
  exact Bool.false_ne_true h

/-! ## In-order contents -/

theorem inorder_zipUp (t : RBTNode) (path : List Frame) :
    inorder (zipUp t path) = before path ++ inorder t ++ after path := by
  induction path generalizing t with
  | nil => simp [zipUp, before, after]
  | cons f up ih =>
    rw [zipUp, ih]
    cases hs : f.side <;> simp [Frame.plug, hs, before, after, inorder]

theorem inorder_zipUp_congr {t u : RBTNode} (h : inorder t = inorder u) (path : List Frame) :
    inorder (zipUp t path) = inorder (zipUp u path) := by
  rw [inorder_zipUp, inorder_zipUp, h]

namespace RedBlackTree

theorem inorder_LeftRotate (t : RBTNode) : inorder (LeftRotate t) = inorder t := by
  unfold LeftRotate
  split <;> simp [inorder]

theorem inorder_RightRotate (t : RBTNode) : inorder (RightRotate t) = inorder t := by
  unfold RightRotate
  split <;> simp [inorder]

theorem inorder_setColor (c : Color) (t : RBTNode) : inorder (setColor c t) = inorder t := by
  cases t <;> simp [setColor, inorder]

theorem inorder_loop (n : RBTNode) (path : List Frame) :
    inorder (InsertFixup.loop n path) = inorder (zipUp n path) := by
  induction n, path using InsertFixup.loop.induct with
  | case1 n => simp [InsertFixup.loop, zipUp]
  | case2 n p => simp [InsertFixup.loop, zipUp]
  | case3 n p g up h => simp [InsertFixup.loop, h]
  | case4 n p g up h hs u hu ih =>
    rw [InsertFixup.loop, if_neg h]
    simp only [hs]
    rw [if_pos hu, ih]
    simp only [zipUp]
    apply inorder_zipUp_congr
    cases hp : p.side <;> simp [Frame.plug, inorder, hs, hp, inorder_setColor, u]
  | case5 n p g up h hs u hu =>
    rw [InsertFixup.loop, if_neg h]
    simp only [hs]
    rw [if_neg hu]
    simp only [zipUp]
    apply inorder_zipUp_congr
    cases hp : p.side <;>
      simp [Frame.plug, inorder, hs, hp, inorder_setColor, inorder_RightRotate, inorder_LeftRotate]
  | case6 n p g up h hs u hu ih =>
    rw [InsertFixup.loop, if_neg h]
    simp only [hs]
    rw [if_pos hu, ih]
    simp only [zipUp]
    apply inorder_zipUp_congr
    cases hp : p.side <;> simp [Frame.plug, inorder, hs, hp, inorder_setColor, u]
  | case7 n p g up h hs u hu =>
    rw [InsertFixup.loop, if_neg h]
    simp only [hs]
    rw [if_neg hu]
    simp only [zipUp]
    apply inorder_zipUp_congr
    cases hp : p.side <;>
      simp [Frame.plug, inorder, hs, hp, inorder_setColor, inorder_RightRotate, inorder_LeftRotate]

theorem inorder_InsertFixup (n : RBTNode) (path : List Frame) :
    inorder (InsertFixup n path) = before path ++ inorder n ++ after path := by
  rw [InsertFixup, inorder_setColor, inorder_loop, inorder_zipUp]

/-! ### Key-ordered lists -/

theorem lookup_append_of_ne (k : CString) (l₁ l₂ : List Course)
    (h : ∀ x ∈ l₁, ukey x ≠ k) : lookup k (l₁ ++ l₂) = lookup k l₂ := by
  induction l₁ with
  | nil => rfl
  | cons x xs ih =>
    have hx : ukey x ≠ k := h x (List.mem_cons_self _ _)
    simp only [List.cons_append, lookup, if_neg hx]
    exact ih (fun y hy => h y (List.mem_cons_of_mem _ hy))

theorem lookup_of_ne (k : CString) (l : List Course)
    (h : ∀ x ∈ l, ukey x ≠ k) : lookup k l = Course.default := by
  have := lookup_append_of_ne k l [] h
  simpa [lookup] using this

theorem lookup_append_right_ne (k : CString) (l₁ l₂ : List Course)
    (h : ∀ x ∈ l₂, ukey x ≠ k) : lookup k (l₁ ++ l₂) = lookup k l₁ := by
  induction l₁ with
  | nil => simpa [lookup] using lookup_of_ne k l₂ h
  | cons x xs ih =>
    simp only [List.cons_append, lookup]
    split
    · rfl
    · exact ih

theorem mem_upsert {c y : Course} {l : List Course} (h : y ∈ upsert c l) : y = c ∨ y ∈ l := by
  induction l with
  | nil => simpa [upsert] using h
  | cons x xs ih =>
    simp only [upsert] at h
    split at h
    · simpa using h
    · split at h
      · rcases List.mem_cons.mp h with h | h
        · exact Or.inl h
        · exact Or.inr (List.mem_cons_of_mem _ h)
      · rcases List.mem_cons.mp h with h | h
        · exact Or.inr (h ▸ List.mem_cons_self _ _)
        · rcases ih h with h | h
          · exact Or.inl h
          · exact Or.inr (List.mem_cons_of_mem _ h)

theorem Sorted_upsert (c : Course) (l : List Course) (h : Sorted l) : Sorted (upsert c l) := by
  induction l with
  | nil => simp [upsert, Sorted]
  | cons x xs ih =>
    unfold Sorted at h
    rw [List.pairwise_cons] at h
    simp only [upsert]
    by_cases h1 : strLt (ukey c) (ukey x) = true
    · rw [if_pos h1]
      unfold Sorted
      rw [List.pairwise_cons, List.pairwise_cons]
      refine ⟨?_, h.1, h.2⟩
      intro y hy
      rcases List.mem_cons.mp hy with hy | hy
      · rw [hy]; exact h1
      · exact strLt_trans _ _ _ h1 (h.1 y hy)
    · rw [if_neg h1]
      by_cases h2 : ukey c = ukey x
      · rw [if_pos h2]
        unfold Sorted
        rw [List.pairwise_cons]
        refine ⟨?_, h.2⟩
        intro y hy
        rw [h2]
        exact h.1 y hy
      · rw [if_neg h2]
        have h3 : strLt (ukey x) (ukey c) = true := by
          cases h4 : strLt (ukey x) (ukey c) with
          | true => rfl
          | false =>
            exact absurd (strLt_total _ _ (by simpa using h1) h4) h2
        unfold Sorted
        rw [List.pairwise_cons]
        refine ⟨?_, ih h.2⟩
        intro y hy
        rcases mem_upsert hy with hy | hy
        · rw [hy]; exact h3
        · exact h.1 y hy

theorem lookup_upsert (k : CString) (c : Course) (l : List Course) :
    lookup k (upsert c l) = if ukey c = k then c else lookup k l := by
  induction l with
  | nil => simp [upsert, lookup]
  | cons x xs ih =>
    simp only [upsert]
    by_cases h1 : strLt (ukey c) (ukey x) = true
    · rw [if_pos h1]
      simp only [lookup]
    · rw [if_neg h1]
      by_cases h2 : ukey c = ukey x
      · rw [if_pos h2]
        simp only [lookup, h2]
        by_cases h5 : ukey x = k <;> simp [h5]
      · rw [if_neg h2]
        simp only [lookup, ih]
        by_cases h5 : ukey x = k
        · have : ukey c ≠ k := by rw [← h5]; exact h2
          simp [h5, this]
        · simp [h5]

theorem upsert_append_left (c d : Course) (l r : List Course)
    (h : strLt (ukey c) (ukey d) = true) :
    upsert c (l ++ d :: r) = upsert c l ++ d :: r := by
  induction l with
  | nil => simp [upsert, h]
  | cons x xs ih =>
    simp only [List.cons_append, upsert]
    split
    · rfl
    · split
      · rfl
      · exact congrArg (List.cons x) ih

theorem upsert_append_right (c : Course) (l r : List Course)
    (h : ∀ x ∈ l, strLt (ukey x) (ukey c) = true) :
    upsert c (l ++ r) = l ++ upsert c r := by
  induction l with
  | nil => rfl
  | cons x xs ih =>
    have hx := h x (List.mem_cons_self _ _)
    have h1 : ¬ strLt (ukey c) (ukey x) = true := by
      rw [strLt_asymm _ _ hx]; exact Bool.false_ne_true
    have h2 : ukey c ≠ ukey x := (strLt_ne _ _ hx).symm
    simp only [List.cons_append, upsert, if_neg h1, if_neg h2]
    exact congrArg (List.cons x) (ih (fun y hy => h y (List.mem_cons_of_mem _ hy)))

theorem length_upsert_of_mem (c : Course) (l : List Course) (hs : Sorted l)
    (h : ∃ x ∈ l, ukey x = ukey c) : (upsert c l).length = l.length := by
  induction l with
  | nil => simp at h
  | cons x xs ih =>
    unfold Sorted at hs
    rw [List.pairwise_cons] at hs
    simp only [upsert]
    by_cases h1 : strLt (ukey c) (ukey x) = true
    · exfalso
      obtain ⟨y, hy, hyc⟩ := h
      rcases List.mem_cons.mp hy with hy | hy
      · rw [← hyc, hy] at h1
        rw [strLt_irrefl] at h1
        exact Bool.false_ne_true h1
      · have := strLt_trans _ _ _ h1 (hs.1 y hy)
        rw [hyc, strLt_irrefl] at this
        exact Bool.false_ne_true this
    · rw [if_neg h1]
      by_cases h2 : ukey c = ukey x
      · rw [if_pos h2]; rfl
      · rw [if_neg h2]
        obtain ⟨y, hy, hyc⟩ := h
        rcases List.mem_cons.mp hy with hy | hy
        · exact absurd (hy ▸ hyc).symm h2
        · simp [ih hs.2 ⟨y, hy, hyc⟩]

theorem length_upsert_of_not_mem (c : Course) (l : List Course)
    (h : ∀ x ∈ l, ukey x ≠ ukey c) : (upsert c l).length = l.length + 1 := by
  induction l with
  | nil => rfl
  | cons x xs ih =>
    have h2 : ukey c ≠ ukey x := (h x (List.mem_cons_self _ _)).symm
    simp only [upsert, if_neg h2]
    split
    · rfl
    · simp [ih (fun y hy => h y (List.mem_cons_of_mem _ hy))]

/-! ### The descent of `Insert` -/

theorem CompareKeys_eq_zero (a b : CString) :
    CompareKeys a b = 0 ↔ ToUpperCopy a = ToUpperCopy b := by
  unfold CompareKeys
  constructor
  · intro h
    by_cases h1 : strLt (ToUpperCopy a) (ToUpperCopy b) = true
    · simp [h1] at h
    · by_cases h2 : strLt (ToUpperCopy b) (ToUpperCopy a) = true
      · simp [h1, h2] at h
      · exact strLt_total _ _ (by simpa using h1) (by simpa using h2)
  · intro h
    simp [h, strLt_irrefl]

theorem CompareKeys_neg (a b : CString) :
    CompareKeys a b < 0 ↔ strLt (ToUpperCopy a) (ToUpperCopy b) = true := by
  unfold CompareKeys
  by_cases h1 : strLt (ToUpperCopy a) (ToUpperCopy b) = true
  · simp [h1]
  · by_cases h2 : strLt (ToUpperCopy b) (ToUpperCopy a) = true <;> simp [h1, h2]

theorem CompareKeys_pos (a b : CString) (h0 : ¬ CompareKeys a b = 0) (h1 : ¬ CompareKeys a b < 0) :
    strLt (ToUpperCopy b) (ToUpperCopy a) = true := by
  rw [CompareKeys_eq_zero] at h0
  rw [CompareKeys_neg] at h1
  cases h2 : strLt (ToUpperCopy b) (ToUpperCopy a) with
  | true => rfl
  | false => exact absurd (strLt_total _ _ (by simpa using h1) h2) h0

theorem Sorted_append {l r : List Course} (h : Sorted (l ++ r)) : Sorted l ∧ Sorted r := by
  unfold Sorted at *
  rw [List.pairwise_append] at h
  exact ⟨h.1, h.2.1⟩

theorem descendInorder_descend (course : Course) (cur : RBTNode) (path : List Frame)
    (hs : Sorted (inorder cur)) :
    descendInorder course (Insert.descend course cur path)
      = before path ++ upsert course (inorder cur) ++ after path := by
  induction cur generalizing path with
  | nil => simp [Insert.descend, descendInorder, inorder, upsert]
  | node d c l r ihl ihr =>
    have hs' := hs
    unfold Sorted at hs'
    simp only [inorder] at hs'
    rw [List.pairwise_append, List.pairwise_cons] at hs'
    obtain ⟨hl, ⟨hdr, hr⟩, hlr⟩ := hs'
    have hld : ∀ x ∈ inorder l, strLt (ukey x) (ukey d) = true :=
      fun x hx => hlr x hx d (List.mem_cons_self _ _)
    simp only [Insert.descend]
    by_cases h0 : CompareKeys course.number d.number = 0
    · rw [if_pos h0]
      have hk : ukey course = ukey d := (CompareKeys_eq_zero _ _).mp h0
      simp only [descendInorder, inorder_zipUp, inorder]
      rw [upsert_append_right course (inorder l) _ (fun x hx => hk ▸ hld x hx)]
      simp [upsert, hk, strLt_irrefl]
    · rw [if_neg h0]
      by_cases h1 : CompareKeys course.number d.number < 0
      · rw [if_pos h1]
        have hk : strLt (ukey course) (ukey d) = true := (CompareKeys_neg _ _).mp h1
        rw [ihl _ hl]
        simp only [inorder]
        rw [upsert_append_left course d _ _ hk]
        simp [before, after]
      · rw [if_neg h1]
        have hk : strLt (ukey d) (ukey course) = true := CompareKeys_pos _ _ h0 h1
        rw [ihr _ hr]
        have hlc : ∀ x ∈ inorder l, strLt (ukey x) (ukey course) = true :=
          fun x hx => strLt_trans _ _ _ (hld x hx) hk
        simp only [inorder]
        rw [upsert_append_right course (inorder l) _ hlc]
        have h2 : ¬ strLt (ukey course) (ukey d) = true := by
          rw [strLt_asymm _ _ hk]; exact Bool.false_ne_true
        have h3 : ukey course ≠ ukey d := (strLt_ne _ _ hk).symm
        simp [before, after, upsert, h2, h3]

theorem attach_of_Consistent (course : Course) (f : Frame) (h : Consistent course f) :
    Insert.attach course f = f := by
  unfold Consistent at h
  unfold Insert.attach
  cases hs : f.side with
  | left =>
    rw [if_pos (h.mp hs)]
    cases f
    simp_all
  | right =>
    have : ¬ CompareKeys course.number f.data.number < 0 := by
      intro hc
      have := h.mpr hc
      rw [hs] at this
      exact Side.noConfusion this
    rw [if_neg this]
    cases f
    simp_all

theorem Consistent_descend (course : Course) (cur : RBTNode) (path path' : List Frame)
    (h : Insert.descend course cur path = Sum.inr path')
    (hp : ∀ f ∈ path, Consistent course f) : ∀ f ∈ path', Consistent course f := by
  induction cur generalizing path with
  | nil =>
    simp only [Insert.descend, Sum.inr.injEq] at h
    exact h ▸ hp
  | node d c l r ihl ihr =>
    simp only [Insert.descend] at h
    by_cases h0 : CompareKeys course.number d.number = 0
    · rw [if_pos h0] at h
      exact Sum.noConfusion h
    · rw [if_neg h0] at h
      by_cases h1 : CompareKeys course.number d.number < 0
      · rw [if_pos h1] at h
        refine ihl _ h ?_
        intro f hf
        rcases List.mem_cons.mp hf with hf | hf
        · subst hf
          simp [Consistent, h1]
        · exact hp f hf
      · rw [if_neg h1] at h
        refine ihr _ h ?_
        intro f hf
        rcases List.mem_cons.mp hf with hf | hf
        · subst hf
          simp [Consistent, h1]
        · exact hp f hf

theorem Insert_eq (t : RedBlackTree) (course : Course) :
    Insert t course =
      match Insert.descend course t.root [] with
      | Sum.inl root => { root := root }
      | Sum.inr path =>
          { root := InsertFixup (RBTNode.node course Color.RED RBTNode.nil RBTNode.nil) path } := by
  unfold Insert
  cases h : Insert.descend course t.root [] with
  | inl root => rfl
  | inr path =>
    cases path with
    | nil => rfl
    | cons p up =>
      have := Consistent_descend course t.root [] _ h (by simp) p (List.mem_cons_self _ _)
      simp only [attach_of_Consistent course p this]

theorem inorder_Insert (t : RedBlackTree) (course : Course) (hs : Sorted (inorder t.root)) :
    inorder (Insert t course).root = upsert course (inorder t.root) := by
  have h := descendInorder_descend course t.root [] hs
  rw [Insert_eq]
  cases hd : Insert.descend course t.root [] with
  | inl root =>
    rw [hd] at h
    simpa [descendInorder, before, after] using h
  | inr path =>
    rw [hd] at h
    simp only [inorder_InsertFixup, inorder]
    simpa [descendInorder, before, after] using h

theorem insertAll_append (cs : List Course) (c : Course) :
    insertAll (cs ++ [c]) = Insert (insertAll cs) c := by
  simp [insertAll]

theorem Sorted_insertAll (cs : List Course) : Sorted (inorder (insertAll cs).root) := by
  induction cs using List.reverseRecOn with
  | nil => simp [insertAll, empty, inorder, Sorted]
  | append_singleton cs c ih =>
    rw [insertAll_append, inorder_Insert _ _ ih]
    exact Sorted_upsert _ _ ih

/-! ### `Search`, `ForEach` and `Size` in terms of the in-order contents -/

theorem Search_loop_eq_lookup (k : CString) (t : RBTNode) (hs : Sorted (inorder t)) :
    Search.loop k t = lookup k (inorder t) := by
  induction t with
  | nil => rfl
  | node d c l r ihl ihr =>
    have hs' := hs
    unfold Sorted at hs'
    simp only [inorder] at hs'
    rw [List.pairwise_append, List.pairwise_cons] at hs'
    obtain ⟨hl, ⟨hdr, hr⟩, hlr⟩ := hs'
    have hld : ∀ x ∈ inorder l, strLt (ukey x) (ukey d) = true :=
      fun x hx => hlr x hx d (List.mem_cons_self _ _)
    simp only [Search.loop, inorder]
    by_cases h0 : k = ToUpperCopy d.number
    · rw [if_pos h0]
      rw [lookup_append_of_ne k _ _ (fun x hx => h0 ▸ strLt_ne _ _ (hld x hx))]
      simp [lookup, ukey, h0]
    · rw [if_neg h0]
      by_cases h1 : strLt k (ToUpperCopy d.number) = true
      · rw [if_pos h1, ihl hl]
        refine (lookup_append_right_ne k _ _ ?_).symm
        intro x hx
        rcases List.mem_cons.mp hx with hx | hx
        · rw [hx]; exact fun e => h0 e.symm
        · exact (strLt_ne _ _ (strLt_trans _ _ _ h1 (hdr x hx))).symm
      · rw [if_neg h1, ihr hr]
        have h2 : strLt (ukey d) k = true := by
          cases h3 : strLt (ukey d) k with
          | true => rfl
          | false => exact absurd (strLt_total _ _ (by simpa using h1) h3) h0
        rw [lookup_append_of_ne k _ _
          (fun x hx => strLt_ne _ _ (strLt_trans _ _ _ (hld x hx) h2))]
        have : ukey d ≠ k := strLt_ne _ _ h2
        simp [lookup, this]

theorem Search_Insert (t : RedBlackTree) (course : Course) (q : CString)
    (hs : Sorted (inorder t.root)) :
    Search (Insert t course) q
      = if ukey course = ToUpperCopy q then course else Search t q := by
  unfold Search
  rw [Search_loop_eq_lookup _ _ hs,
    Search_loop_eq_lookup _ _ (by rw [inorder_Insert _ _ hs]; exact Sorted_upsert _ _ hs),
    inorder_Insert _ _ hs, lookup_upsert]

theorem InOrderApply_eq_foldl {σ : Type} (fn : σ → Course → σ) (t : RBTNode) (s : σ) :
    InOrderApply fn t s = (inorder t).foldl fn s := by
  induction t generalizing s with
  | nil => rfl
  | node d c l r ihl ihr => simp [InOrderApply, inorder, ihl, ihr]

theorem visited_eq_inorder (t : RedBlackTree) : t.visited = inorder t.root := by
  unfold visited ForEach
  rw [InOrderApply_eq_foldl]
  generalize inorder t.root = l
  have : ∀ (acc : List Course), l.foldl (fun acc c => acc ++ [c]) acc = acc ++ l := by
    induction l with
    | nil => simp
    | cons x xs ih => intro acc; simp [ih]
  simpa using this []

theorem CountNodes_eq_length (t : RBTNode) : CountNodes t = (inorder t).length := by
  induction t with
  | nil => rfl
  | node d c l r ihl ihr => simp [CountNodes, inorder, ihl, ihr]; omega

theorem toupper_val (c : CChar) :
    (toupper c).val = if 97 ≤ c.val ∧ c.val ≤ 122 then c.val - 32 else c.val := by
  unfold toupper
  split
  · show (c.val - 32) % 256 = c.val - 32
    omega
  · rfl

theorem tolower_val (c : CChar) :
    (tolower c).val = if 65 ≤ c.val ∧ c.val ≤ 90 then c.val + 32 else c.val := by
  unfold tolower
  split
  · show (c.val + 32) % 256 = c.val + 32
    omega
  · rfl

theorem toupper_toupper (c : CChar) : toupper (toupper c) = toupper c := by
  apply Fin.ext
  rw [toupper_val (toupper c), toupper_val c]
  split_ifs <;> omega

theorem toupper_tolower (c : CChar) : toupper (tolower c) = toupper c := by
  apply Fin.ext
  rw [toupper_val (tolower c), tolower_val c, toupper_val c]
  split_ifs <;> omega

theorem ToUpperCopy_ToUpperCopy (s : CString) : ToUpperCopy (ToUpperCopy s) = ToUpperCopy s := by
  simp [ToUpperCopy, toupper_toupper]

theorem ToUpperCopy_ToLowerCopy (s : CString) : ToUpperCopy (ToLowerCopy s) = ToUpperCopy s := by
  simp [ToUpperCopy, ToLowerCopy, toupper_tolower]

/-! ### The red-black invariants -/

theorem Color_eq_black_of_ne_red {c : Color} (h : c ≠ Color.RED) : c = Color.BLACK := by
  cases c
  · exact absurd rfl h
  · rfl

theorem isRed_node (d : Course) (c : Color) (l r : RBTNode) :
    isRed (RBTNode.node d c l r) = true ↔ c = Color.RED := by
  cases c <;> simp [isRed]

theorem isRed_plug (f : Frame) (t : RBTNode) : isRed (f.plug t) = true ↔ f.color = Color.RED := by
  cases hs : f.side <;> simp [Frame.plug, hs, isRed_node]

theorem noRedRed_node (d : Course) (c : Color) (l r : RBTNode) :
    noRedRed (RBTNode.node d c l r) = true ↔
      (c = Color.RED → isRed l = false ∧ isRed r = false) ∧ noRedRed l = true ∧ noRedRed r = true := by
  cases c <;> simp [noRedRed, and_assoc]

theorem noRedRed_plug (f : Frame) (t : RBTNode) :
    noRedRed (f.plug t) = true ↔
      (f.color = Color.RED → isRed t = false ∧ isRed f.other = false) ∧
        noRedRed t = true ∧ noRedRed f.other = true := by
  cases hs : f.side <;> simp only [Frame.plug, hs, noRedRed_node]
  tauto

theorem Balanced_plug (f : Frame) (t : RBTNode) (h : Nat) :
    Balanced (f.plug t) h ↔ ∃ k, h = k + inc f.color ∧ Balanced t k ∧ Balanced f.other k := by
  cases hs : f.side <;> simp only [Frame.plug, hs, Balanced]
  constructor <;> rintro ⟨k, h1, h2, h3⟩ <;> exact ⟨k, h1, h3, h2⟩

theorem noRedRed_setColor_black (t : RBTNode) (h : noRedRed t = true) :
    noRedRed (setColor Color.BLACK t) = true := by
  cases t with
  | nil => rfl
  | node d c l r =>
    rw [noRedRed_node] at h
    simp only [setColor]
    rw [noRedRed_node]
    exact ⟨fun e => Color.noConfusion e, h.2⟩

theorem Balanced_setColor_black (t : RBTNode) (h : Nat) (hb : Balanced t h) :
    ∃ h', Balanced (setColor Color.BLACK t) h' := by
  cases t with
  | nil => exact ⟨h, hb⟩
  | node d c l r =>
    obtain ⟨k, _, hl, hr⟩ := hb
    exact ⟨k + inc Color.BLACK, k, rfl, hl, hr⟩

theorem isRed_setColor_black (t : RBTNode) : isRed (setColor Color.BLACK t) = false := by
  cases t <;> simp [setColor, isRed]

theorem Valid_setColor_black (t : RBTNode) (h : Nat) (h1 : noRedRed t = true) (h2 : Balanced t h) :
    Valid (setColor Color.BLACK t) :=
  ⟨isRed_setColor_black t, noRedRed_setColor_black t h1, Balanced_setColor_black t h h2⟩

theorem RB_zipUp (path : List Frame) : ∀ (t : RBTNode) (h : Nat), PathOK path h →
    noRedRed t = true → Balanced t h → (isRed t = true → path = [] ∨ blackTop path) →
    noRedRed (zipUp t path) = true ∧ ∃ H, Balanced (zipUp t path) H := by
  induction path with
  | nil => intro t h _ h1 h2 _; exact ⟨h1, h, h2⟩
  | cons f up ih =>
    intro t h hp h1 h2 h3
    obtain ⟨hp1, hp2, hp3, hp4⟩ := hp
    simp only [zipUp]
    refine ih (f.plug t) (h + inc f.color) hp4 ?_ ?_ ?_
    · rw [noRedRed_plug]
      refine ⟨?_, h1, hp1⟩
      intro hc
      refine ⟨?_, (hp3 hc).1⟩
      cases hr : isRed t with
      | false => rfl
      | true =>
        rcases h3 hr with h3 | h3
        · exact List.noConfusion h3
        · simp only [blackTop] at h3
          rw [hc] at h3
          exact Color.noConfusion h3
    · rw [Balanced_plug]
      exact ⟨h, rfl, h2, hp2⟩
    · intro hr
      rw [isRed_plug] at hr
      exact Or.inr (hp3 hr).2

theorem PathOK_of_zipUp (path : List Frame) : ∀ (t : RBTNode) (H : Nat),
    noRedRed (zipUp t path) = true → Balanced (zipUp t path) H → isRed (zipUp t path) = false →
    ∃ h, PathOK path h ∧ noRedRed t = true ∧ Balanced t h ∧ (isRed t = true → blackTop path) := by
  induction path with
  | nil =>
    intro t H h1 h2 h3
    refine ⟨H, trivial, h1, h2, ?_⟩
    intro hr
    simp only [zipUp] at h3
    rw [h3] at hr
    exact Bool.false_ne_true hr
  | cons f up ih =>
    intro t H h1 h2 h3
    simp only [zipUp] at h1 h2 h3
    obtain ⟨h', hp, hn, hb, htop⟩ := ih (f.plug t) H h1 h2 h3
    rw [noRedRed_plug] at hn
    rw [Balanced_plug] at hb
    obtain ⟨k, hk, hbt, hbo⟩ := hb
    refine ⟨k, ⟨hn.2.2, hbo, ?_, hk ▸ hp⟩, hn.2.1, hbt, ?_⟩
    · intro hc
      exact ⟨(hn.1 hc).2, htop ((isRed_plug f t).mpr hc)⟩
    · intro hr
      simp only [blackTop]
      apply Color_eq_black_of_ne_red
      intro hc
      have := (hn.1 hc).1
      rw [hr] at this
      exact Bool.noConfusion this

theorem Balanced_setColor_black_of_isRed (t : RBTNode) (h : Nat) (hr : isRed t = true)
    (hb : Balanced t h) : Balanced (setColor Color.BLACK t) (h + 1) := by
  cases t with
  | nil => simp [isRed] at hr
  | node d c l r =>
    rw [isRed_node] at hr
    subst hr
    obtain ⟨k, hk, hl, hr⟩ := hb
    exact ⟨k, by simpa [inc] using hk, hl, hr⟩

theorem isRed_node_red (d : Course) (l r : RBTNode) :
    isRed (RBTNode.node d Color.RED l r) = true := rfl

theorem isRed_node_black (d : Course) (l r : RBTNode) :
    isRed (RBTNode.node d Color.BLACK l r) = false := rfl

theorem rotate_left_ok (n : RBTNode) (p g : Frame) (h : Nat)
    (hn1 : isRed n = true) (hn2 : noRedRed n = true) (hn3 : Balanced n h)
    (hc : p.color = Color.RED)
    (hpo1 : noRedRed p.other = true) (hpo2 : Balanced p.other h) (hpo3 : isRed p.other = false)
    (hgo1 : noRedRed g.other = true) (hgo2 : Balanced g.other h) (hgo3 : isRed g.other = false) :
    let S := RightRotate (RBTNode.node g.data Color.RED
      (setColor Color.BLACK (if p.side = Side.right then LeftRotate (p.plug n) else p.plug n))
      g.other)
    isRed S = false ∧ noRedRed S = true ∧ Balanced S (h + 1) := by
  cases n with
  | nil => simp [isRed] at hn1
  | node nd nc nl nr =>
    rw [isRed_node] at hn1
    subst hn1
    rw [noRedRed_node] at hn2
    obtain ⟨⟨hnl, hnr⟩, hnl', hnr'⟩ := And.intro (hn2.1 rfl) hn2.2
    obtain ⟨k, hk, hl, hr⟩ := hn3
    simp only [inc, Nat.add_zero] at hk
    subst hk
    cases hp : p.side
    · simp [Frame.plug, hp, RightRotate, setColor, isRed_node_red, isRed_node_black, noRedRed_node, Balanced, inc, hc,
        hnl, hnr, hnl', hnr', hpo1, hpo2, hpo3, hgo1, hgo2, hgo3, hl, hr]
    · simp [Frame.plug, hp, RightRotate, LeftRotate, setColor, isRed_node_red, isRed_node_black, noRedRed_node, Balanced, inc, hc,
        hnl, hnr, hnl', hnr', hpo1, hpo2, hpo3, hgo1, hgo2, hgo3, hl, hr]

theorem rotate_right_ok (n : RBTNode) (p g : Frame) (h : Nat)
    (hn1 : isRed n = true) (hn2 : noRedRed n = true) (hn3 : Balanced n h)
    (hc : p.color = Color.RED)
    (hpo1 : noRedRed p.other = true) (hpo2 : Balanced p.other h) (hpo3 : isRed p.other = false)
    (hgo1 : noRedRed g.other = true) (hgo2 : Balanced g.other h) (hgo3 : isRed g.other = false) :
    let S := LeftRotate (RBTNode.node g.data Color.RED g.other
      (setColor Color.BLACK (if p.side = Side.left then RightRotate (p.plug n) else p.plug n)))
    isRed S = false ∧ noRedRed S = true ∧ Balanced S (h + 1) := by
  cases n with
  | nil => simp [isRed] at hn1
  | node nd nc nl nr =>
    rw [isRed_node] at hn1
    subst hn1
    rw [noRedRed_node] at hn2
    obtain ⟨⟨hnl, hnr⟩, hnl', hnr'⟩ := And.intro (hn2.1 rfl) hn2.2
    obtain ⟨k, hk, hl, hr⟩ := hn3
    simp only [inc, Nat.add_zero] at hk
    subst hk
    cases hp : p.side
    · simp [Frame.plug, hp, RightRotate, LeftRotate, setColor, isRed_node_red, isRed_node_black, noRedRed_node, Balanced, inc, hc,
        hnl, hnr, hnl', hnr', hpo1, hpo2, hpo3, hgo1, hgo2, hgo3, hl, hr]
    · simp [Frame.plug, hp, LeftRotate, setColor, isRed_node_red, isRed_node_black, noRedRed_node, Balanced, inc, hc,
        hnl, hnr, hnl', hnr', hpo1, hpo2, hpo3, hgo1, hgo2, hgo3, hl, hr]

theorem recolor_ok (n : RBTNode) (p g : Frame) (h : Nat)
    (hn2 : noRedRed n = true) (hn3 : Balanced n h)
    (hpo1 : noRedRed p.other = true) (hpo2 : Balanced p.other h)
    (hgo1 : noRedRed g.other = true) (hgo2 : Balanced g.other h) (hgo3 : isRed g.other = true) :
    let P := Frame.plug { p with color := Color.BLACK } n
    let U := setColor Color.BLACK g.other
    isRed P = false ∧ isRed U = false ∧ noRedRed P = true ∧ noRedRed U = true ∧
      Balanced P (h + 1) ∧ Balanced U (h + 1) := by
  refine ⟨?_, isRed_setColor_black _, ?_, noRedRed_setColor_black _ hgo1, ?_,
    Balanced_setColor_black_of_isRed _ _ hgo3 hgo2⟩
  · cases hs : p.side <;> simp [Frame.plug, hs, isRed_node_black]
  · rw [noRedRed_plug]
    exact ⟨fun e => Color.noConfusion e, hn2, hpo1⟩
  · rw [Balanced_plug]
    exact ⟨h, rfl, hn3, hpo2⟩

theorem RB_loop (n : RBTNode) (path : List Frame) : ∀ (h : Nat),
    isRed n = true → noRedRed n = true → Balanced n h → PathOK path h →
    noRedRed (InsertFixup.loop n path) = true ∧ ∃ H, Balanced (InsertFixup.loop n path) H := by
  induction n, path using InsertFixup.loop.induct with
  | case1 n =>
    intro h _ hn2 hn3 _
    exact ⟨hn2, h, hn3⟩
  | case2 n p =>
    intro h _ hn2 hn3 hp
    have hb : p.color = Color.BLACK :=
      Color_eq_black_of_ne_red (fun hc => (hp.2.2.1 hc).2)
    have := RB_zipUp [p] n h hp hn2 hn3 (fun _ => Or.inr hb)
    simpa [InsertFixup.loop, zipUp] using this
  | case3 n p g up hc =>
    intro h _ hn2 hn3 hp
    rw [InsertFixup.loop, if_pos hc]
    exact RB_zipUp _ n h hp hn2 hn3 (fun _ => Or.inr (Color_eq_black_of_ne_red hc))
  | case4 n p g up hc hs u hu ih =>
    intro h _ hn2 hn3 hp
    have hc : p.color = Color.RED := not_not.mp hc
    obtain ⟨hpo1, hpo2, hp3, hp4⟩ := hp
    obtain ⟨_, hgb⟩ := hp3 hc
    simp only [blackTop] at hgb
    rw [hc] at hp4
    obtain ⟨hgo1, hgo2, _, hg4⟩ := hp4
    rw [hgb] at hg4
    obtain ⟨r1, r2, r3, r4, r5, r6⟩ := recolor_ok n p g h hn2 hn3 hpo1 hpo2 hgo1 hgo2 hu
    rw [InsertFixup.loop, if_neg (not_not.mpr hc)]
    simp only [hs]
    rw [if_pos hu]
    refine ih (h + 1) (isRed_node_red _ _ _) ?_ ?_ hg4
    · rw [noRedRed_node]
      exact ⟨fun _ => ⟨r1, r2⟩, r3, r4⟩
    · exact ⟨h + 1, rfl, r5, r6⟩
  | case5 n p g up hc hs u hu =>
    intro h hn1 hn2 hn3 hp
    have hc : p.color = Color.RED := not_not.mp hc
    obtain ⟨hpo1, hpo2, hp3, hp4⟩ := hp
    obtain ⟨hpo3, hgb⟩ := hp3 hc
    simp only [blackTop] at hgb
    rw [hc] at hp4
    obtain ⟨hgo1, hgo2, _, hg4⟩ := hp4
    rw [hgb] at hg4
    have hgo3 : isRed g.other = false := by simpa using hu
    obtain ⟨r1, r2, r3⟩ := rotate_left_ok n p g h hn1 hn2 hn3 hc hpo1 hpo2 hpo3 hgo1 hgo2 hgo3
    rw [InsertFixup.loop, if_neg (not_not.mpr hc)]
    simp only [hs]
    rw [if_neg hu]
    exact RB_zipUp up _ (h + 1) hg4 r2 r3 (fun e => absurd e (by rw [r1]; exact Bool.false_ne_true))
  | case6 n p g up hc hs u hu ih =>
    intro h _ hn2 hn3 hp
    have hc : p.color = Color.RED := not_not.mp hc
    obtain ⟨hpo1, hpo2, hp3, hp4⟩ := hp
    obtain ⟨_, hgb⟩ := hp3 hc
    simp only [blackTop] at hgb
    rw [hc] at hp4
    obtain ⟨hgo1, hgo2, _, hg4⟩ := hp4
    rw [hgb] at hg4
    obtain ⟨r1, r2, r3, r4, r5, r6⟩ := recolor_ok n p g h hn2 hn3 hpo1 hpo2 hgo1 hgo2 hu
    rw [InsertFixup.loop, if_neg (not_not.mpr hc)]
    simp only [hs]
    rw [if_pos hu]
    refine ih (h + 1) (isRed_node_red _ _ _) ?_ ?_ hg4
    · rw [noRedRed_node]
      exact ⟨fun _ => ⟨r2, r1⟩, r4, r3⟩
    · exact ⟨h + 1, rfl, r6, r5⟩
  | case7 n p g up hc hs u hu =>
    intro h hn1 hn2 hn3 hp
    have hc : p.color = Color.RED := not_not.mp hc
    obtain ⟨hpo1, hpo2, hp3, hp4⟩ := hp
    obtain ⟨hpo3, hgb⟩ := hp3 hc
    simp only [blackTop] at hgb
    rw [hc] at hp4
    obtain ⟨hgo1, hgo2, _, hg4⟩ := hp4
    rw [hgb] at hg4
    have hgo3 : isRed g.other = false := by simpa using hu
    obtain ⟨r1, r2, r3⟩ := rotate_right_ok n p g h hn1 hn2 hn3 hc hpo1 hpo2 hpo3 hgo1 hgo2 hgo3
    rw [InsertFixup.loop, if_neg (not_not.mpr hc)]
    simp only [hs]
    rw [if_neg hu]
    exact RB_zipUp up _ (h + 1) hg4 r2 r3 (fun e => absurd e (by rw [r1]; exact Bool.false_ne_true))

theorem descend_inr (course : Course) (cur : RBTNode) (path path' : List Frame)
    (h : Insert.descend course cur path = Sum.inr path') :
    zipUp cur path = zipUp RBTNode.nil path' := by
  induction cur generalizing path with
  | nil =>
    simp only [Insert.descend, Sum.inr.injEq] at h
    rw [h]
  | node d c l r ihl ihr =>
    simp only [Insert.descend] at h
    split_ifs at h
    · rw [← ihl _ h]; rfl
    · rw [← ihr _ h]; rfl

theorem descend_inl (course : Course) (cur : RBTNode) (path : List Frame) (root : RBTNode)
    (h : Insert.descend course cur path = Sum.inl root) :
    ∃ d c l r path', zipUp cur path = zipUp (RBTNode.node d c l r) path' ∧
      root = zipUp (RBTNode.node course c l r) path' := by
  induction cur generalizing path with
  | nil => simp [Insert.descend] at h
  | node d c l r ihl ihr =>
    simp only [Insert.descend] at h
    split_ifs at h
    · simp only [Sum.inl.injEq] at h
      exact ⟨d, c, l, r, path, rfl, h.symm⟩
    · obtain ⟨d', c', l', r', path', h1, h2⟩ := ihl _ h
      exact ⟨d', c', l', r', path', h1, h2⟩
    · obtain ⟨d', c', l', r', path', h1, h2⟩ := ihr _ h
      exact ⟨d', c', l', r', path', h1, h2⟩

theorem isRed_zipUp_congr (path : List Frame) : ∀ (t u : RBTNode), isRed t = isRed u →
    isRed (zipUp t path) = isRed (zipUp u path) := by
  induction path with
  | nil => intro t u h; exact h
  | cons f up ih =>
    intro t u _
    simp only [zipUp]
    apply ih
    cases hs : f.side <;> cases hc : f.color <;> simp [Frame.plug, hs, hc, isRed]

theorem Valid_Insert (t : RedBlackTree) (course : Course) (hv : Valid t.root) :
    Valid (Insert t course).root := by
  obtain ⟨hv1, hv2, H, hv3⟩ := hv
  rw [Insert_eq]
  cases hd : Insert.descend course t.root [] with
  | inl root =>
    obtain ⟨d, c, l, r, path', h1, h2⟩ := descend_inl _ _ _ _ hd
    simp only [zipUp] at h1
    rw [h1] at hv1 hv2 hv3
    obtain ⟨h, hp, hn, hb, htop⟩ := PathOK_of_zipUp path' _ H hv2 hv3 hv1
    have hn' : noRedRed (RBTNode.node course c l r) = true := by
      rw [noRedRed_node] at hn ⊢; exact hn
    have hr : isRed (RBTNode.node course c l r) = isRed (RBTNode.node d c l r) := by
      cases c <;> rfl
    have := RB_zipUp path' (RBTNode.node course c l r) h hp hn' hb
      (fun e => Or.inr (htop (hr ▸ e)))
    show Valid root
    rw [h2]
    refine ⟨?_, this.1, this.2⟩
    rw [isRed_zipUp_congr path' _ _ hr]
    exact hv1
  | inr path =>
    have h1 := descend_inr _ _ _ _ hd
    simp only [zipUp] at h1
    rw [h1] at hv1 hv2 hv3
    obtain ⟨h, hp, _, hb, _⟩ := PathOK_of_zipUp path _ H hv2 hv3 hv1
    simp only [Balanced] at hb
    subst hb
    have := RB_loop (RBTNode.node course Color.RED RBTNode.nil RBTNode.nil) path 0
      rfl rfl ⟨0, rfl, rfl, rfl⟩ hp
    obtain ⟨h2, H', h3⟩ := this
    exact Valid_setColor_black _ H' h2 h3

theorem Valid_insertAll (cs : List Course) : Valid (insertAll cs).root := by
  induction cs using List.reverseRecOn with
  | nil => exact ⟨rfl, rfl, 0, rfl⟩
  | append_singleton cs c ih =>
    rw [insertAll_append]
    exact Valid_Insert _ _ ih

theorem blackCounts_of_Balanced (t : RBTNode) : ∀ (h : Nat), Balanced t h →
    ∀ a ∈ blackCounts t, a = h := by
  induction t with
  | nil =>
    intro h hb a ha
    simp only [Balanced] at hb
    simp only [blackCounts, List.mem_singleton] at ha
    rw [ha, hb]
  | node d c l r ihl ihr =>
    intro h hb a ha
    obtain ⟨k, hk, hl, hr⟩ := hb
    simp only [blackCounts, List.mem_map, List.mem_append] at ha
    obtain ⟨b, hb, rfl⟩ := ha
    have : b = k := by
      rcases hb with hb | hb
      · exact ihl k hl b hb
      · exact ihr k hr b hb
    rw [this, hk]
    cases c <;> simp [inc]

/-! ### Consequences for sequences of `Insert` -/

theorem Search_insertAll_append (cs : List Course) (c : Course) (q : CString) :
    Search (insertAll (cs ++ [c])) q
      = if ukey c = ToUpperCopy q then c else Search (insertAll cs) q := by
  rw [insertAll_append, Search_Insert _ _ _ (Sorted_insertAll cs)]

theorem keys_upsert (c : Course) (l : List Course) (k : CString) :
    (∃ x ∈ upsert c l, ukey x = k) ↔ (ukey c = k ∨ ∃ x ∈ l, ukey x = k) := by
  constructor
  · rintro ⟨x, hx, hk⟩
    rcases mem_upsert hx with h | h
    · exact Or.inl (h ▸ hk)
    · exact Or.inr ⟨x, h, hk⟩
  · induction l with
    | nil =>
      rintro (h | ⟨x, hx, _⟩)
      · exact ⟨c, by simp [upsert], h⟩
      · simp at hx
    | cons y ys ih =>
      intro h
      simp only [upsert]
      split_ifs with h1 h2
      · rcases h with h | ⟨x, hx, hk⟩
        · exact ⟨c, List.mem_cons_self _ _, h⟩
        · exact ⟨x, List.mem_cons_of_mem _ hx, hk⟩
      · rcases h with h | ⟨x, hx, hk⟩
        · exact ⟨c, List.mem_cons_self _ _, h⟩
        · rcases List.mem_cons.mp hx with hx | hx
          · exact ⟨c, List.mem_cons_self _ _, by rw [h2, ← hx, hk]⟩
          · exact ⟨x, List.mem_cons_of_mem _ hx, hk⟩
      · rcases h with h | ⟨x, hx, hk⟩
        · obtain ⟨z, hz, hzk⟩ := ih (Or.inl h)
          exact ⟨z, List.mem_cons_of_mem _ hz, hzk⟩
        · rcases List.mem_cons.mp hx with hx | hx
          · exact ⟨y, List.mem_cons_self _ _, by rw [← hx, hk]⟩
          · obtain ⟨z, hz, hzk⟩ := ih (Or.inr ⟨x, hx, hk⟩)
            exact ⟨z, List.mem_cons_of_mem _ hz, hzk⟩

theorem keys_insertAll (cs : List Course) (k : CString) :
    (∃ x ∈ inorder (insertAll cs).root, ukey x = k) ↔ ∃ y ∈ cs, ukey y = k := by
  induction cs using List.reverseRecOn with
  | nil => simp [insertAll, empty, inorder]
  | append_singleton cs c ih =>
    rw [insertAll_append, inorder_Insert _ _ (Sorted_insertAll cs), keys_upsert, ih]
    constructor
    · rintro (h | ⟨y, hy, hk⟩)
      · exact ⟨c, by simp, h⟩
      · exact ⟨y, by simp [hy], hk⟩
    · rintro ⟨y, hy, hk⟩
      rcases List.mem_append.mp hy with hy | hy
      · exact Or.inr ⟨y, hy, hk⟩
      · simp only [List.mem_singleton] at hy
        exact Or.inl (hy ▸ hk)

theorem Size_insertAll (cs : List Course) :
    (insertAll cs).Size = ((cs.map ukey).dedup).length := by
  have hs := Sorted_insertAll cs
  have hnd : ((inorder (insertAll cs).root).map ukey).Nodup := by
    unfold List.Nodup
    rw [List.pairwise_map]
    exact hs.imp (fun h => strLt_ne _ _ h)
  have hset : ((inorder (insertAll cs).root).map ukey).toFinset = (cs.map ukey).toFinset := by
    apply List.toFinset.ext
    intro k
    simp only [List.mem_map]
    exact keys_insertAll cs k
  rw [Size, CountNodes_eq_length, ← List.length_map (inorder (insertAll cs).root) ukey,
    ← hnd.dedup, ← List.card_toFinset, ← List.card_toFinset, hset]

theorem Insert_root_ne_nil (t : RedBlackTree) (c : Course) (hs : Sorted (inorder t.root)) :
    (Insert t c).root ≠ RBTNode.nil := by
  intro h
  have := inorder_Insert t c hs
  rw [h] at this
  have hl := congrArg List.length this
  cases hi : inorder t.root with
  | nil => rw [hi] at hl; simp [inorder, upsert] at hl
  | cons x xs =>
    rw [hi] at hl
    simp only [inorder, upsert, List.length_nil] at hl
    split_ifs at hl <;> simp at hl

/-! ### The stored records when the keys are distinct -/

theorem perm_upsert (c : Course) (l : List Course) (h : ∀ x ∈ l, ukey x ≠ ukey c) :
    (upsert c l).Perm (c :: l) := by
  induction l with
  | nil => exact List.Perm.refl _
  | cons x xs ih =>
    have h2 : ukey c ≠ ukey x := (h x (List.mem_cons_self _ _)).symm
    simp only [upsert, if_neg h2]
    split
    · exact List.Perm.refl _
    · exact ((ih (fun y hy => h y (List.mem_cons_of_mem _ hy))).cons x).trans (List.Perm.swap c x xs)

theorem perm_insertAll (cs : List Course) (hd : (cs.map ukey).Nodup) :
    (inorder (insertAll cs).root).Perm cs := by
  induction cs using List.reverseRecOn with
  | nil => exact List.Perm.refl _
  | append_singleton cs c ih =>
    rw [List.map_append, List.nodup_append] at hd
    obtain ⟨hd1, _, hd3⟩ := hd
    rw [insertAll_append, inorder_Insert _ _ (Sorted_insertAll cs)]
    have hnew : ∀ x ∈ inorder (insertAll cs).root, ukey x ≠ ukey c := by
      intro x hx e
      obtain ⟨y, hy, hk⟩ := (keys_insertAll cs (ukey c)).mp ⟨x, hx, e⟩
      exact hd3 (List.mem_map_of_mem ukey hy) (by simp [hk])
    exact (perm_upsert c _ hnew).trans
      (((ih hd1).cons c).trans (List.perm_append_singleton c cs).symm)

theorem length_Destroy (t : RBTNode) : (Destroy t).length = CountNodes t := by
  induction t with
  | nil => rfl
  | node d c l r ihl ihr => simp [Destroy, CountNodes, ihl, ihr]; omega

/-! ### `Insert` of a key that is stored -/

theorem shape_plug_congr (f : Frame) {t u : RBTNode} (h : shape t = shape u) :
    shape (f.plug t) = shape (f.plug u) := by
  cases hs : f.side <;> simp [Frame.plug, hs, shape, h]

theorem shape_zipUp_congr (path : List Frame) : ∀ {t u : RBTNode}, shape t = shape u →
    shape (zipUp t path) = shape (zipUp u path) := by
  induction path with
  | nil => intro t u h; exact h
  | cons f up ih => intro t u h; exact ih (shape_plug_congr f h)

theorem upsert_eq_map (c : Course) (l : List Course) (hs : Sorted l)
    (h : ∃ x ∈ l, ukey x = ukey c) :
    upsert c l = l.map (fun x => if ukey x = ukey c then c else x) := by
  induction l with
  | nil => simp at h
  | cons x xs ih =>
    unfold Sorted at hs
    rw [List.pairwise_cons] at hs
    simp only [upsert, List.map_cons]
    by_cases h1 : strLt (ukey c) (ukey x) = true
    · exfalso
      obtain ⟨y, hy, hyc⟩ := h
      rcases List.mem_cons.mp hy with hy | hy
      · rw [← hyc, hy, strLt_irrefl] at h1
        exact Bool.false_ne_true h1
      · have := strLt_trans _ _ _ h1 (hs.1 y hy)
        rw [hyc, strLt_irrefl] at this
        exact Bool.false_ne_true this
    · rw [if_neg h1]
      by_cases h2 : ukey c = ukey x
      · rw [if_pos h2, if_pos h2.symm]
        congr 1
        symm
        have : List.map (fun x => if ukey x = ukey c then c else x) xs
            = List.map id xs := by
          apply List.map_congr_left
          intro y hy
          have : ukey y ≠ ukey c := by
            rw [h2]
            exact (strLt_ne _ _ (hs.1 y hy)).symm
          simp [this]
        rw [this, List.map_id]
      · rw [if_neg h2, if_neg (fun e => h2 e.symm)]
        congr 1
        apply ih hs.2
        obtain ⟨y, hy, hyc⟩ := h
        rcases List.mem_cons.mp hy with hy | hy
        · exact absurd (hy ▸ hyc).symm h2
        · exact ⟨y, hy, hyc⟩

theorem descend_inl_of_mem (t : RBTNode) (course : Course) (hs : Sorted (inorder t))
    (h : ∃ x ∈ inorder t, ukey x = ukey course) :
    ∃ root, Insert.descend course t [] = Sum.inl root := by
  cases hd : Insert.descend course t [] with
  | inl root => exact ⟨root, rfl⟩
  | inr path =>
    exfalso
    have h1 := descendInorder_descend course t [] hs
    rw [hd] at h1
    simp only [descendInorder, before, after, List.nil_append, List.append_nil] at h1
    have h2 := descend_inr course t [] path hd
    simp only [zipUp] at h2
    have h3 := congrArg List.length h1
    rw [length_upsert_of_mem course _ hs h, h2, inorder_zipUp] at h3
    simp [inorder] at h3

theorem Insert_stored_key (t : RedBlackTree) (course : Course) (hs : Sorted (inorder t.root))
    (h : ∃ x ∈ inorder t.root, ukey x = ukey course) :
    shape (t.Insert course).root = shape t.root := by
  obtain ⟨root, hd⟩ := descend_inl_of_mem t.root course hs h
  obtain ⟨d, c, l, r, path, h1, h2⟩ := descend_inl course t.root [] root hd
  simp only [zipUp] at h1
  rw [Insert_eq, hd]
  show shape root = shape t.root
  rw [h1, h2]
  exact shape_zipUp_congr path rfl

/-! ### The loops of `Insert` run with a bound -/

theorem setColor_black_node (t : RBTNode) (h : t ≠ RBTNode.nil) :
    ∃ x a b, setColor Color.BLACK t = RBTNode.node x Color.BLACK a b := by
  cases t with
  | nil => exact absurd rfl h
  | node d c l r => exact ⟨d, l, r, rfl⟩

theorem plug_ne_nil (f : Frame) (t : RBTNode) : f.plug t ≠ RBTNode.nil := by
  cases hs : f.side <;> simp [Frame.plug, hs]

theorem LeftRotate_ne_nil (t : RBTNode) (h : t ≠ RBTNode.nil) : LeftRotate t ≠ RBTNode.nil := by
  unfold LeftRotate
  split
  · exact fun e => RBTNode.noConfusion e
  · exact h

theorem RightRotate_ne_nil (t : RBTNode) (h : t ≠ RBTNode.nil) :
    RightRotate t ≠ RBTNode.nil := by
  unfold RightRotate
  split
  · exact fun e => RBTNode.noConfusion e
  · exact h

theorem step_black_top (a : RBTNode) (f : Frame) (up : List Frame) (hf : f.color = Color.BLACK) :
    InsertFixup.step a (f :: up) = none ∧ InsertFixup.loop a (f :: up) = zipUp (f.plug a) up := by
  cases up with
  | nil => exact ⟨rfl, rfl⟩
  | cons g up' =>
    have hc : f.color ≠ Color.RED := by rw [hf]; exact fun e => Color.noConfusion e
    constructor
    · rw [InsertFixup.step, if_pos hc]
    · rw [InsertFixup.loop, if_pos hc]
      rfl

/-- What one pass through the loop body does: it leaves the loop with the tree
as it is, or it recolours and moves the repair point two levels up, or it
rotates and leaves the repair point with a BLACK parent, one level up, so that
the next test of the condition leaves the loop. -/
theorem step_spec (n : RBTNode) (path : List Frame) :
    (InsertFixup.step n path = none ∧ InsertFixup.loop n path = zipUp n path) ∨
    (∃ n' path', InsertFixup.step n path = some (n', path') ∧
      InsertFixup.loop n path = InsertFixup.loop n' path' ∧
      (path'.length + 2 = path.length ∨
        (path'.length + 1 = path.length ∧ blackTop path' ∧
          InsertFixup.step n' path' = none))) := by
  cases path with
  | nil => exact Or.inl ⟨rfl, rfl⟩
  | cons p rest =>
    cases rest with
    | nil => exact Or.inl ⟨rfl, rfl⟩
    | cons g up =>
      by_cases hc : p.color ≠ Color.RED
      · left
        exact ⟨by rw [InsertFixup.step, if_pos hc], by rw [InsertFixup.loop, if_pos hc]⟩
      · right
        cases hs : g.side with
        | left =>
          by_cases hu : isRed g.other = true
          · refine ⟨RBTNode.node g.data Color.RED
              ({ p with color := Color.BLACK }.plug n) (setColor Color.BLACK g.other), up,
              ?_, ?_, Or.inl (by simp)⟩
            · rw [InsertFixup.step, if_neg hc]
              simp only [hs]
              rw [if_pos hu]
            · rw [InsertFixup.loop, if_neg hc]
              simp only [hs]
              rw [if_pos hu]
          · have hP : (if p.side = Side.right then LeftRotate (p.plug n) else p.plug n)
                ≠ RBTNode.nil := by
              split_ifs
              · exact LeftRotate_ne_nil _ (plug_ne_nil p n)
              · exact plug_ne_nil p n
            obtain ⟨x, a, b, hx⟩ := setColor_black_node _ hP
            refine ⟨a, Frame.mk x Color.BLACK Side.left
              (RBTNode.node g.data Color.RED b g.other) :: up, ?_, ?_, Or.inr ?_⟩
            · rw [InsertFixup.step, if_neg hc]
              simp only [hs]
              rw [if_neg hu]
              simp only [hx, RightRotate]
            · rw [InsertFixup.loop, if_neg hc]
              simp only [hs]
              rw [if_neg hu]
              simp only [hx, RightRotate]
              rw [(step_black_top a _ up rfl).2]
              rfl
            · exact ⟨by simp, rfl, (step_black_top a _ up rfl).1⟩
        | right =>
          by_cases hu : isRed g.other = true
          · refine ⟨RBTNode.node g.data Color.RED
              (setColor Color.BLACK g.other) ({ p with color := Color.BLACK }.plug n), up,
              ?_, ?_, Or.inl (by simp)⟩
            · rw [InsertFixup.step, if_neg hc]
              simp only [hs]
              rw [if_pos hu]
            · rw [InsertFixup.loop, if_neg hc]
              simp only [hs]
              rw [if_pos hu]
          · have hP : (if p.side = Side.left then RightRotate (p.plug n) else p.plug n)
                ≠ RBTNode.nil := by
              split_ifs
              · exact RightRotate_ne_nil _ (plug_ne_nil p n)
              · exact plug_ne_nil p n
            obtain ⟨x, a, b, hx⟩ := setColor_black_node _ hP
            refine ⟨b, Frame.mk x Color.BLACK Side.right
              (RBTNode.node g.data Color.RED g.other a) :: up, ?_, ?_, Or.inr ?_⟩
            · rw [InsertFixup.step, if_neg hc]
              simp only [hs]
              rw [if_neg hu]
              simp only [hx, LeftRotate]
            · rw [InsertFixup.loop, if_neg hc]
              simp only [hs]
              rw [if_neg hu]
              simp only [hx, LeftRotate]
              rw [(step_black_top b _ up rfl).2]
              rfl
            · exact ⟨by simp, rfl, (step_black_top b _ up rfl).1⟩

theorem run_eq_loop : ∀ (fuel : Nat) (n : RBTNode) (path : List Frame),
    path.length < fuel → InsertFixup.run fuel n path = some (InsertFixup.loop n path) := by
  intro fuel
  induction fuel with
  | zero => intro n path h; omega
  | succ fuel ih =>
    intro n path h
    rcases step_spec n path with ⟨h1, h2⟩ | ⟨n', path', h1, h2, h3⟩
    · rw [InsertFixup.run, h1, h2]
    · rw [InsertFixup.run, h1, h2]
      apply ih
      rcases h3 with h3 | ⟨h3, _⟩ <;> omega

theorem descendN_eq_descend (course : Course) : ∀ (fuel : Nat) (cur : RBTNode)
    (path : List Frame), height cur < fuel →
    Insert.descendN course fuel cur path = some (Insert.descend course cur path) := by
  intro fuel
  induction fuel with
  | zero => intro cur path h; omega
  | succ fuel ih =>
    intro cur path h
    cases cur with
    | nil => rfl
    | node d c l r =>
      simp only [height] at h
      simp only [Insert.descendN, Insert.descend]
      split_ifs
      · rfl
      · exact ih l _ (by omega)
      · exact ih r _ (by omega)

theorem length_descend (course : Course) (cur : RBTNode) : ∀ (path path' : List Frame),
    Insert.descend course cur path = Sum.inr path' →
    path'.length ≤ path.length + height cur := by
  induction cur with
  | nil =>
    intro path path' h
    simp only [Insert.descend, Sum.inr.injEq] at h
    rw [← h]
    omega
  | node d c l r ihl ihr =>
    intro path path' h
    simp only [Insert.descend] at h
    simp only [height]
    split_ifs at h
    · have := ihl _ _ h
      simp only [List.length_cons] at this
      omega
    · have := ihr _ _ h
      simp only [List.length_cons] at this
      omega

theorem Insert_run_eq (fuel : Nat) (t : RedBlackTree) (course : Course)
    (h : height t.root < fuel) : Insert.run fuel t course = some (t.Insert course) := by
  unfold Insert.run Insert
  rw [descendN_eq_descend course fuel t.root [] h]
  cases hd : Insert.descend course t.root [] with
  | inl root => rfl
  | inr path =>
    have hl := length_descend course t.root [] path hd
    simp only [List.length_nil, Nat.zero_add] at hl
    cases path with
    | nil =>
      simp only
      rw [run_eq_loop fuel _ [] (by simp; omega)]
      rfl
    | cons p up =>
      simp only
      rw [run_eq_loop fuel _ _ (by simp only [List.length_cons] at hl ⊢; omega)]
      rfl

/-! ### The height of the tree, and lookups after distinct keys -/

theorem toupper_not_lower (ch : CChar) : ¬ (97 ≤ (toupper ch).val ∧ (toupper ch).val ≤ 122) := by
  rw [toupper_val]
  split <;> omega

theorem ToUpperCopy_no_lower (q : CString) :
    ∀ ch ∈ ToUpperCopy q, ¬ (97 ≤ ch.val ∧ ch.val ≤ 122) := by
  intro ch hch
  simp only [ToUpperCopy, List.mem_map] at hch
  obtain ⟨x, _, rfl⟩ := hch
  exact toupper_not_lower x

theorem pow_le_CountNodes (t : RBTNode) : ∀ (k : Nat), Balanced t k → 2 ^ k ≤ CountNodes t + 1 := by
  induction t with
  | nil =>
    intro k hb
    simp only [Balanced] at hb
    subst hb
    simp [CountNodes]
  | node d c l r ihl ihr =>
    intro k hb
    obtain ⟨k', hk, hl, hr⟩ := hb
    have h1 := ihl k' hl
    have h2 := ihr k' hr
    have h3 : 2 ^ k ≤ 2 ^ (k' + 1) := by
      apply Nat.pow_le_pow_right (by decide)
      cases c <;> simp [inc] at hk <;> omega
    rw [Nat.pow_succ] at h3
    simp only [CountNodes]
    omega

theorem height_le (t : RBTNode) : ∀ (k : Nat), noRedRed t = true → Balanced t k →
    height t ≤ 2 * k + (if isRed t = true then 1 else 0) := by
  induction t with
  | nil =>
    intro k _ _
    simp [height]
  | node d c l r ihl ihr =>
    intro k hn hb
    obtain ⟨k', hk, hl, hr⟩ := hb
    rw [noRedRed_node] at hn
    obtain ⟨hc, hnl, hnr⟩ := hn
    have h1 := ihl k' hnl hl
    have h2 := ihr k' hnr hr
    cases c with
    | RED =>
      obtain ⟨e1, e2⟩ := hc rfl
      simp only [e1, e2] at h1 h2
      simp only [inc] at hk
      simp only [height, isRed_node_red]
      simp at h1 h2 ⊢
      omega
    | BLACK =>
      simp only [inc] at hk
      simp only [height, isRed_node_black]
      have : height l ≤ 2 * k' + 1 := by split at h1 <;> omega
      have : height r ≤ 2 * k' + 1 := by split at h2 <;> omega
      simp
      omega

theorem height_bound (t : RBTNode) (hv : Valid t) :
    2 ^ ((height t + 1) / 2) ≤ CountNodes t + 1 := by
  obtain ⟨hr, hn, k, hb⟩ := hv
  have h1 := height_le t k hn hb
  rw [hr] at h1
  simp at h1
  have h2 := pow_le_CountNodes t k hb
  have h3 : 2 ^ ((height t + 1) / 2) ≤ 2 ^ k := Nat.pow_le_pow_right (by decide) (by omega)
  omega

theorem Search_insertAll_of_mem (cs : List Course) (hd : (cs.map ukey).Nodup) (r : Course)
    (hr : r ∈ cs) (q : CString) (hq : ukey r = ToUpperCopy q) :
    (insertAll cs).Search q = r := by
  induction cs using List.reverseRecOn with
  | nil => simp at hr
  | append_singleton cs c ih =>
    rw [Search_insertAll_append]
    rw [List.map_append, List.nodup_append] at hd
    obtain ⟨hd1, _, hd3⟩ := hd
    by_cases hc : ukey c = ToUpperCopy q
    · rw [if_pos hc]
      rcases List.mem_append.mp hr with h | h
      · exfalso
        apply hd3 (List.mem_map_of_mem ukey h)
        rw [hq, ← hc]
        simp
      · simp at h
        exact h.symm
    · rw [if_neg hc]
      rcases List.mem_append.mp hr with h | h
      · exact ih hd1 h
      · simp at h
        subst h
        exact absurd hq hc

theorem Search_insertAll_of_not_mem (cs : List Course) (q : CString)
    (hq : ∀ x ∈ cs, ukey x ≠ ToUpperCopy q) : (insertAll cs).Search q = Course.default := by
  induction cs using List.reverseRecOn with
  | nil => rfl
  | append_singleton cs c ih =>
    rw [Search_insertAll_append, if_neg (hq c (by simp))]
    exact ih (fun x hx => hq x (by simp [hx]))

end RedBlackTree

/-! ## The rotations on the nodes in memory -/

theorem layout_tree_zipUp (t : Layout) (path : List LFrame) :
    (Layout.zipUp t path).tree = zipUp t.tree (path.map LFrame.frame) := by
  induction path generalizing t with
  | nil => rfl
  | cons f up ih =>
    rw [Layout.zipUp, ih, List.map_cons, zipUp]
    congr 1
    cases hs : f.side <;> simp [LFrame.plug, LFrame.frame, Frame.plug, hs, Layout.tree]

theorem layout_ptr_plug (f : LFrame) (t : Layout) : (f.plug t).ptr = some f.addr := by
  cases hs : f.side <;> simp [LFrame.plug, hs, Layout.ptr]

theorem layout_ptr_zipUp_cons (t u : Layout) (f : LFrame) (up : List LFrame) :
    (Layout.zipUp t (f :: up)).ptr = (Layout.zipUp u (f :: up)).ptr := by
  induction up generalizing f t u with
  | nil => simp [Layout.zipUp, layout_ptr_plug]
  | cons g up ih =>
    rw [Layout.zipUp, Layout.zipUp]
    exact ih _ _ g

theorem layout_ptr_nil : Layout.nil.ptr = none := rfl

theorem layout_ptr_node (a : Nat) (d : Course) (c : Color) (l r : Layout) :
    (Layout.node a d c l r).ptr = some a := rfl

theorem layout_ptr_mem {t : Layout} {g : Nat} (h : t.ptr = some g) : g ∈ t.addrs := by
  cases t with
  | nil => simp [Layout.ptr] at h
  | node a d c l r =>
    simp only [Layout.ptr, Option.some.injEq] at h
    simp [Layout.addrs, h]

theorem parentPtr_mem {path : List LFrame} {p : Nat} (h : parentPtr none path = some p) :
    p ∈ aroundAddrs path := by
  cases path with
  | nil => simp [parentPtr] at h
  | cons f up =>
    simp only [parentPtr, Option.some.injEq] at h
    simp [aroundAddrs, h]

theorem layout_addrs_plug (f : LFrame) (t : Layout) :
    List.Perm (f.plug t).addrs (t.addrs ++ f.addr :: f.other.addrs) := by
  cases hs : f.side
  · simp only [LFrame.plug, hs, Layout.addrs]
    exact List.perm_middle.symm
  · simp only [LFrame.plug, hs, Layout.addrs]
    exact ((List.perm_append_comm).cons _).trans List.perm_middle.symm

theorem layout_addrs_zipUp (t : Layout) (path : List LFrame) :
    List.Perm (Layout.zipUp t path).addrs (t.addrs ++ aroundAddrs path) := by
  induction path generalizing t with
  | nil => simp [Layout.zipUp, aroundAddrs]
  | cons f up ih =>
    rw [Layout.zipUp]
    refine (ih _).trans ?_
    refine ((layout_addrs_plug f t).append_right _).trans ?_
    simp [aroundAddrs]

theorem Stored_plug (m : Memory) (par : Option Nat) (f : LFrame) (t : Layout) :
    Stored m par (f.plug t) ↔
      m.cell f.addr = some (f.cell par t.ptr) ∧ Stored m (some f.addr) t ∧
        Stored m (some f.addr) f.other := by
  cases hs : f.side <;> simp [LFrame.plug, LFrame.cell, hs, Stored]
  tauto

theorem Stored_zipUp (m : Memory) (top : Option Nat) (t : Layout) (path : List LFrame) :
    Stored m top (Layout.zipUp t path) ↔
      Stored m (parentPtr top path) t ∧ StoredAround m top t.ptr path := by
  induction path generalizing t with
  | nil => simp [Layout.zipUp, parentPtr, StoredAround]
  | cons f up ih =>
    rw [Layout.zipUp, ih, Stored_plug, layout_ptr_plug]
    simp only [parentPtr, StoredAround]
    tauto

theorem Stored_congr {m m2 : Memory} {t : Layout} (par : Option Nat)
    (h : ∀ x ∈ t.addrs, m2.cell x = m.cell x) (hs : Stored m par t) : Stored m2 par t := by
  induction t generalizing par with
  | nil => trivial
  | node a d c l r ihl ihr =>
    obtain ⟨h1, h2, h3⟩ := hs
    refine ⟨?_, ihl _ ?_ h2, ihr _ ?_ h3⟩
    · rw [h a (by simp [Layout.addrs]), h1]
    · intro x hx
      exact h x (by simp [Layout.addrs, hx])
    · intro x hx
      exact h x (by simp [Layout.addrs, hx])

theorem StoredAround_congr {m m2 : Memory} {path : List LFrame} (top sub : Option Nat)
    (h : ∀ x ∈ aroundAddrs path, m2.cell x = m.cell x) (hs : StoredAround m top sub path) :
    StoredAround m2 top sub path := by
  induction path generalizing sub with
  | nil => trivial
  | cons f up ih =>
    obtain ⟨h1, h2, h3⟩ := hs
    refine ⟨?_, Stored_congr _ ?_ h2, ih _ ?_ h3⟩
    · rw [h f.addr (by simp [aroundAddrs]), h1]
    · intro x hx
      exact h x (by simp [aroundAddrs, hx])
    · intro x hx
      exact h x (by simp [aroundAddrs, hx])

theorem Stored_reparent {m m2 : Memory} {t : Layout} (par par2 : Option Nat)
    (hs : Stored m par t) (hn : t.addrs.Nodup)
    (h1 : ∀ g, t.ptr = some g →
      m2.cell g = (m.cell g).map (fun c => { c with parent := par2 }))
    (h2 : ∀ x ∈ t.addrs, t.ptr ≠ some x → m2.cell x = m.cell x) : Stored m2 par2 t := by
  cases t with
  | nil => trivial
  | node a d c l r =>
    obtain ⟨e, sl, sr⟩ := hs
    simp only [Layout.addrs, List.nodup_cons, List.mem_append, not_or] at hn
    refine ⟨?_, Stored_congr _ ?_ sl, Stored_congr _ ?_ sr⟩
    · rw [h1 a rfl, e]
      rfl
    · intro x hx
      refine h2 x (by simp [Layout.addrs, hx]) ?_
      simp only [Layout.ptr, ne_eq, Option.some.injEq]
      rintro rfl
      exact hn.1.1 hx
    · intro x hx
      refine h2 x (by simp [Layout.addrs, hx]) ?_
      simp only [Layout.ptr, ne_eq, Option.some.injEq]
      rintro rfl
      exact hn.1.2 hx


theorem Represents_rotated_left (m m2 : Memory) (path : List LFrame) (a b : Nat)
    (pd cd : Course) (pc cc : Color) (pl cl cr : Layout)
    (h : m.Represents
      (Layout.zipUp (Layout.node a pd pc pl (Layout.node b cd cc cl cr)) path))
    (H1 : m2.cell a = some (Cell.mk pd pc (some b) pl.ptr cl.ptr))
    (H2 : m2.cell b = some (Cell.mk cd cc (parentPtr none path) (some a) cr.ptr))
    (H3 : ∀ g, cl.ptr = some g →
      m2.cell g = (m.cell g).map (fun c => { c with parent := some a }))
    (H4 : ∀ f up, path = f :: up →
      m2.cell f.addr = some (f.cell (parentPtr none up) (some b)))
    (H5 : ∀ x, x ≠ a → x ≠ b → cl.ptr ≠ some x → parentPtr none path ≠ some x →
      m2.cell x = m.cell x)
    (H6 : (path = [] → m2.root = some b) ∧ (path ≠ [] → m2.root = m.root)) :
    m2.Represents
      (Layout.zipUp (Layout.node b cd cc (Layout.node a pd pc pl cl) cr) path) := by
  obtain ⟨hr, hs, hn⟩ := h
  rw [Stored_zipUp] at hs
  obtain ⟨⟨ea, spl, eb, scl, scr⟩, sar⟩ := hs
  have hn2 := (layout_addrs_zipUp _ path).nodup_iff.mp hn
  have hn3 := hn2
  simp only [Layout.addrs, List.cons_append, List.nodup_cons, List.nodup_append, List.mem_append,
    List.mem_cons, not_or, List.disjoint_cons_left, List.disjoint_cons_right,
    List.disjoint_append_left, List.disjoint_append_right] at hn3
  obtain ⟨⟨⟨apl, ab, acl, acr⟩, aar⟩, ⟨npl, ⟨⟨bcl, bcr⟩, ncl, ncr, dclcr⟩, bpl, dplcl, dplcr⟩,
    nar, dplar, bar, dclar, dcrar⟩ := hn3
  refine ⟨?_, ?_, ?_⟩
  · cases path with
    | nil => exact H6.1 rfl
    | cons f up =>
      rw [layout_ptr_zipUp_cons _ (Layout.node a pd pc pl (Layout.node b cd cc cl cr)), ← hr]
      exact H6.2 (List.cons_ne_nil _ _)
  · rw [Stored_zipUp]
    refine ⟨⟨H2, ⟨H1, Stored_congr _ ?_ spl, Stored_reparent _ _ scl ncl H3 ?_⟩,
      Stored_congr _ ?_ scr⟩, ?_⟩
    · intro x hx
      exact H5 x (fun e => apl (e ▸ hx)) (fun e => bpl (e ▸ hx))
        (fun e => dplcl hx (layout_ptr_mem e)) (fun e => dplar hx (parentPtr_mem e))
    · intro x hx hne
      exact H5 x (fun e => acl (e ▸ hx)) (fun e => bcl (e ▸ hx)) hne
        (fun e => dclar hx (parentPtr_mem e))
    · intro x hx
      exact H5 x (fun e => acr (e ▸ hx)) (fun e => bcr (e ▸ hx))
        (fun e => dclcr (layout_ptr_mem e) hx) (fun e => dcrar hx (parentPtr_mem e))
    · cases path with
      | nil => trivial
      | cons f up =>
        obtain ⟨_, so, su⟩ := sar
        simp only [aroundAddrs, List.nodup_cons, List.nodup_append, List.mem_append, not_or,
          List.mem_cons, List.disjoint_cons_right, List.disjoint_append_right] at nar aar bar dclar
        refine ⟨H4 f up rfl, Stored_congr _ ?_ so, StoredAround_congr _ _ ?_ su⟩
        · intro x hx
          refine H5 x (fun e => aar.2.1 (e ▸ hx)) (fun e => bar.2.1 (e ▸ hx))
            (fun e => dclar.2.1 (layout_ptr_mem e) hx) ?_
          simp only [parentPtr, ne_eq, Option.some.injEq]
          rintro rfl
          exact nar.1.1 hx
        · intro x hx
          refine H5 x (fun e => aar.2.2 (e ▸ hx)) (fun e => bar.2.2 (e ▸ hx))
            (fun e => dclar.2.2 (layout_ptr_mem e) hx) ?_
          simp only [parentPtr, ne_eq, Option.some.injEq]
          rintro rfl
          exact nar.1.2 hx
  · refine (layout_addrs_zipUp _ path).nodup_iff.mpr ?_
    refine (List.Perm.nodup_iff (List.Perm.append_right _ ?_)).mp hn2
    simp only [Layout.addrs]
    refine ((List.perm_middle).cons a).trans ?_
    refine (List.Perm.swap b a _).trans ?_
    simp



theorem cell_write_self (m : Memory) (a : Nat) (c : Cell) : (m.write a c).cell a = some c := by
  simp [Memory.write]

theorem cell_write_of_ne (m : Memory) {a x : Nat} (c : Cell) (h : x ≠ a) :
    (m.write a c).cell x = m.cell x := by
  simp [Memory.write, h]

theorem root_write (m : Memory) (a : Nat) (c : Cell) : (m.write a c).root = m.root := rfl

set_option maxHeartbeats 4000000 in
theorem LeftRotate_eval (m : Memory) (a b : Nat) (ca cb : Cell)
    (ea : m.cell a = some ca) (eb : m.cell b = some cb) (hr : ca.right = some b) (hab : a ≠ b)
    (hg : ∀ g, cb.left = some g → g ≠ a ∧ g ≠ b ∧ ∃ cg, m.cell g = some cg)
    (hp : ∀ p, ca.parent = some p →
      p ≠ a ∧ p ≠ b ∧ cb.left ≠ some p ∧ ∃ cp, m.cell p = some cp) :
    ∃ m2, m.LeftRotate a = some m2 ∧
      m2.cell a = some { ca with parent := some b, right := cb.left } ∧
      m2.cell b = some { cb with parent := ca.parent, left := some a } ∧
      (∀ g, cb.left = some g →
        m2.cell g = (m.cell g).map (fun c => { c with parent := some a })) ∧
      (∀ p, ca.parent = some p →
        m2.cell p = (m.cell p).map (fun c =>
          if c.left = some a then { c with left := some b } else { c with right := some b })) ∧
      (∀ x, x ≠ a → x ≠ b → cb.left ≠ some x → ca.parent ≠ some x → m2.cell x = m.cell x) ∧
      m2.root = if ca.parent = none then some b else m.root := by
  obtain ⟨ad, ac, ap, al, ar⟩ := ca
  obtain ⟨bd, bc, bp, bg, br⟩ := cb
  simp only at hr hg hp
  subst hr
  have hba : b ≠ a := fun e => hab e.symm
  rcases bg with _ | g
  · rcases ap with _ | p
    · have hga : True := trivial
      have hgb : True := trivial
      have hag : True := trivial
      have hbg : True := trivial
      have eg : True := trivial
      have hpg : True := trivial
      have hgp : True := trivial
      have ep : True := trivial
      have hpa : True := trivial
      have hpb : True := trivial
      have hap : True := trivial
      have hbp : True := trivial
      have hl : True := trivial
      have hl2 : True := trivial
      generalize hL : m.LeftRotate a = res
      simp [Memory.LeftRotate, Memory.right, Memory.left, Memory.parent, Memory.setRight,
          Memory.setLeft, Memory.setParent, cell_write_self, cell_write_of_ne, root_write, ea, eb,
          hab, hba, hga, hgb, hag, hbg, eg, ep, hpa, hpb, hap, hbp, hpg, hgp, hl2] at hL
      subst hL
      refine ⟨_, rfl, ?_, ?_, ?_, ?_, ?_, ?_⟩
      · simp [cell_write_self, cell_write_of_ne, root_write, ea, eb,
          hab, hba, hga, hgb, hag, hbg, eg, ep, hpa, hpb, hap, hbp, hpg, hgp, hl, hl2]
      · simp [cell_write_self, cell_write_of_ne, root_write, ea, eb,
          hab, hba, hga, hgb, hag, hbg, eg, ep, hpa, hpb, hap, hbp, hpg, hgp, hl, hl2]
      · intro x hx
        simp only [Option.some.injEq, reduceCtorEq] at hx
        try subst hx
        try simp [cell_write_self, cell_write_of_ne, root_write, ea, eb,
          hab, hba, hga, hgb, hag, hbg, eg, ep, hpa, hpb, hap, hbp, hpg, hgp, hl, hl2]
      · intro x hx
        simp only [Option.some.injEq, reduceCtorEq] at hx
        try subst hx
        try simp [cell_write_self, cell_write_of_ne, root_write, ea, eb,
          hab, hba, hga, hgb, hag, hbg, eg, ep, hpa, hpb, hap, hbp, hpg, hgp, hl, hl2]
      · intro x h1 h2 h3 h4
        simp only [ne_eq, Option.some.injEq, reduceCtorEq, not_false_eq_true] at h3 h4
        have h3b : True ∧ (True → True) := ⟨trivial, fun _ => trivial⟩
        try replace h3b := Ne.symm h3
        have h4b : True ∧ (True → True) := ⟨trivial, fun _ => trivial⟩
        try replace h4b := Ne.symm h4
        simp [cell_write_of_ne, h1, h2, h3b, h4b]
      · simp [cell_write_self, cell_write_of_ne, root_write, ea, eb,
          hab, hba, hga, hgb, hag, hbg, eg, ep, hpa, hpb, hap, hbp, hpg, hgp, hl, hl2]
    · have hga : True := trivial
      have hgb : True := trivial
      have hag : True := trivial
      have hbg : True := trivial
      have eg : True := trivial
      have hpg : True := trivial
      have hgp : True := trivial
      obtain ⟨hpa, hpb, hpg0, cp, ep⟩ := hp p rfl
      have hap : a ≠ p := fun e => hpa e.symm
      have hbp : b ≠ p := fun e => hpb e.symm
      have hpg : True := trivial
      have hgp : True := trivial
      obtain ⟨xd, xc, xp, xl, xr⟩ := cp
      by_cases hl : xl = some a
      · subst hl
        have hl : True := trivial
        have hl2 : True := trivial
        generalize hL : m.LeftRotate a = res
        simp [Memory.LeftRotate, Memory.right, Memory.left, Memory.parent, Memory.setRight,
            Memory.setLeft, Memory.setParent, cell_write_self, cell_write_of_ne, root_write, ea, eb,
            hab, hba, hga, hgb, hag, hbg, eg, ep, hpa, hpb, hap, hbp, hpg, hgp, hl2] at hL
        subst hL
        refine ⟨_, rfl, ?_, ?_, ?_, ?_, ?_, ?_⟩
        · simp [cell_write_self, cell_write_of_ne, root_write, ea, eb,
            hab, hba, hga, hgb, hag, hbg, eg, ep, hpa, hpb, hap, hbp, hpg, hgp, hl, hl2]
        · simp [cell_write_self, cell_write_of_ne, root_write, ea, eb,
            hab, hba, hga, hgb, hag, hbg, eg, ep, hpa, hpb, hap, hbp, hpg, hgp, hl, hl2]
        · intro x hx
          simp only [Option.some.injEq, reduceCtorEq] at hx
          try subst hx
          try simp [cell_write_self, cell_write_of_ne, root_write, ea, eb,
            hab, hba, hga, hgb, hag, hbg, eg, ep, hpa, hpb, hap, hbp, hpg, hgp, hl, hl2]
        · intro x hx
          simp only [Option.some.injEq, reduceCtorEq] at hx
          try subst hx
          try simp [cell_write_self, cell_write_of_ne, root_write, ea, eb,
            hab, hba, hga, hgb, hag, hbg, eg, ep, hpa, hpb, hap, hbp, hpg, hgp, hl, hl2]
        · intro x h1 h2 h3 h4
          simp only [ne_eq, Option.some.injEq, reduceCtorEq, not_false_eq_true] at h3 h4
          have h3b : True ∧ (True → True) := ⟨trivial, fun _ => trivial⟩
          try replace h3b := Ne.symm h3
          have h4b : True ∧ (True → True) := ⟨trivial, fun _ => trivial⟩
          try replace h4b := Ne.symm h4
          simp [cell_write_of_ne, h1, h2, h3b, h4b]
        · simp [cell_write_self, cell_write_of_ne, root_write, ea, eb,
            hab, hba, hga, hgb, hag, hbg, eg, ep, hpa, hpb, hap, hbp, hpg, hgp, hl, hl2]
      · have hl2 : ¬ some a = xl := fun e => hl e.symm
        generalize hL : m.LeftRotate a = res
        simp [Memory.LeftRotate, Memory.right, Memory.left, Memory.parent, Memory.setRight,
            Memory.setLeft, Memory.setParent, cell_write_self, cell_write_of_ne, root_write, ea, eb,
            hab, hba, hga, hgb, hag, hbg, eg, ep, hpa, hpb, hap, hbp, hpg, hgp, hl2] at hL
        subst hL
        refine ⟨_, rfl, ?_, ?_, ?_, ?_, ?_, ?_⟩
        · simp [cell_write_self, cell_write_of_ne, root_write, ea, eb,
            hab, hba, hga, hgb, hag, hbg, eg, ep, hpa, hpb, hap, hbp, hpg, hgp, hl, hl2]
        · simp [cell_write_self, cell_write_of_ne, root_write, ea, eb,
            hab, hba, hga, hgb, hag, hbg, eg, ep, hpa, hpb, hap, hbp, hpg, hgp, hl, hl2]
        · intro x hx
          simp only [Option.some.injEq, reduceCtorEq] at hx
          try subst hx
          try simp [cell_write_self, cell_write_of_ne, root_write, ea, eb,
            hab, hba, hga, hgb, hag, hbg, eg, ep, hpa, hpb, hap, hbp, hpg, hgp, hl, hl2]
        · intro x hx
          simp only [Option.some.injEq, reduceCtorEq] at hx
          try subst hx
          try simp [cell_write_self, cell_write_of_ne, root_write, ea, eb,
            hab, hba, hga, hgb, hag, hbg, eg, ep, hpa, hpb, hap, hbp, hpg, hgp, hl, hl2]
        · intro x h1 h2 h3 h4
          simp only [ne_eq, Option.some.injEq, reduceCtorEq, not_false_eq_true] at h3 h4
          have h3b : True ∧ (True → True) := ⟨trivial, fun _ => trivial⟩
          try replace h3b := Ne.symm h3
          have h4b : True ∧ (True → True) := ⟨trivial, fun _ => trivial⟩
          try replace h4b := Ne.symm h4
          simp [cell_write_of_ne, h1, h2, h3b, h4b]
        · simp [cell_write_self, cell_write_of_ne, root_write, ea, eb,
            hab, hba, hga, hgb, hag, hbg, eg, ep, hpa, hpb, hap, hbp, hpg, hgp, hl, hl2]
  · rcases ap with _ | p
    · obtain ⟨hga, hgb, cg, eg⟩ := hg g rfl
      have hag : a ≠ g := fun e => hga e.symm
      have hbg : b ≠ g := fun e => hgb e.symm
      have hpg : True := trivial
      have hgp : True := trivial
      have ep : True := trivial
      have hpa : True := trivial
      have hpb : True := trivial
      have hap : True := trivial
      have hbp : True := trivial
      have hl : True := trivial
      have hl2 : True := trivial
      generalize hL : m.LeftRotate a = res
      simp [Memory.LeftRotate, Memory.right, Memory.left, Memory.parent, Memory.setRight,
          Memory.setLeft, Memory.setParent, cell_write_self, cell_write_of_ne, root_write, ea, eb,
          hab, hba, hga, hgb, hag, hbg, eg, ep, hpa, hpb, hap, hbp, hpg, hgp, hl2] at hL
      subst hL
      refine ⟨_, rfl, ?_, ?_, ?_, ?_, ?_, ?_⟩
      · simp [cell_write_self, cell_write_of_ne, root_write, ea, eb,
          hab, hba, hga, hgb, hag, hbg, eg, ep, hpa, hpb, hap, hbp, hpg, hgp, hl, hl2]
      · simp [cell_write_self, cell_write_of_ne, root_write, ea, eb,
          hab, hba, hga, hgb, hag, hbg, eg, ep, hpa, hpb, hap, hbp, hpg, hgp, hl, hl2]
      · intro x hx
        simp only [Option.some.injEq, reduceCtorEq] at hx
        try subst hx
        try simp [cell_write_self, cell_write_of_ne, root_write, ea, eb,
          hab, hba, hga, hgb, hag, hbg, eg, ep, hpa, hpb, hap, hbp, hpg, hgp, hl, hl2]
      · intro x hx
        simp only [Option.some.injEq, reduceCtorEq] at hx
        try subst hx
        try simp [cell_write_self, cell_write_of_ne, root_write, ea, eb,
          hab, hba, hga, hgb, hag, hbg, eg, ep, hpa, hpb, hap, hbp, hpg, hgp, hl, hl2]
      · intro x h1 h2 h3 h4
        simp only [ne_eq, Option.some.injEq, reduceCtorEq, not_false_eq_true] at h3 h4
        have h3b : True ∧ (True → True) := ⟨trivial, fun _ => trivial⟩
        try replace h3b := Ne.symm h3
        have h4b : True ∧ (True → True) := ⟨trivial, fun _ => trivial⟩
        try replace h4b := Ne.symm h4
        simp [cell_write_of_ne, h1, h2, h3b, h4b]
      · simp [cell_write_self, cell_write_of_ne, root_write, ea, eb,
          hab, hba, hga, hgb, hag, hbg, eg, ep, hpa, hpb, hap, hbp, hpg, hgp, hl, hl2]
    · obtain ⟨hga, hgb, cg, eg⟩ := hg g rfl
      have hag : a ≠ g := fun e => hga e.symm
      have hbg : b ≠ g := fun e => hgb e.symm
      obtain ⟨hpa, hpb, hpg0, cp, ep⟩ := hp p rfl
      have hap : a ≠ p := fun e => hpa e.symm
      have hbp : b ≠ p := fun e => hpb e.symm
      have hgp : g ≠ p := fun e => hpg0 (congrArg some e)
      have hpg : p ≠ g := fun e => hgp e.symm
      obtain ⟨xd, xc, xp, xl, xr⟩ := cp
      by_cases hl : xl = some a
      · subst hl
        have hl : True := trivial
        have hl2 : True := trivial
        generalize hL : m.LeftRotate a = res
        simp [Memory.LeftRotate, Memory.right, Memory.left, Memory.parent, Memory.setRight,
            Memory.setLeft, Memory.setParent, cell_write_self, cell_write_of_ne, root_write, ea, eb,
            hab, hba, hga, hgb, hag, hbg, eg, ep, hpa, hpb, hap, hbp, hpg, hgp, hl2] at hL
        subst hL
        refine ⟨_, rfl, ?_, ?_, ?_, ?_, ?_, ?_⟩
        · simp [cell_write_self, cell_write_of_ne, root_write, ea, eb,
            hab, hba, hga, hgb, hag, hbg, eg, ep, hpa, hpb, hap, hbp, hpg, hgp, hl, hl2]
        · simp [cell_write_self, cell_write_of_ne, root_write, ea, eb,
            hab, hba, hga, hgb, hag, hbg, eg, ep, hpa, hpb, hap, hbp, hpg, hgp, hl, hl2]
        · intro x hx
          simp only [Option.some.injEq, reduceCtorEq] at hx
          try subst hx
          try simp [cell_write_self, cell_write_of_ne, root_write, ea, eb,
            hab, hba, hga, hgb, hag, hbg, eg, ep, hpa, hpb, hap, hbp, hpg, hgp, hl, hl2]
        · intro x hx
          simp only [Option.some.injEq, reduceCtorEq] at hx
          try subst hx
          try simp [cell_write_self, cell_write_of_ne, root_write, ea, eb,
            hab, hba, hga, hgb, hag, hbg, eg, ep, hpa, hpb, hap, hbp, hpg, hgp, hl, hl2]
        · intro x h1 h2 h3 h4
          simp only [ne_eq, Option.some.injEq, reduceCtorEq, not_false_eq_true] at h3 h4
          have h3b : True ∧ (True → True) := ⟨trivial, fun _ => trivial⟩
          try replace h3b := Ne.symm h3
          have h4b : True ∧ (True → True) := ⟨trivial, fun _ => trivial⟩
          try replace h4b := Ne.symm h4
          simp [cell_write_of_ne, h1, h2, h3b, h4b]
        · simp [cell_write_self, cell_write_of_ne, root_write, ea, eb,
            hab, hba, hga, hgb, hag, hbg, eg, ep, hpa, hpb, hap, hbp, hpg, hgp, hl, hl2]
      · have hl2 : ¬ some a = xl := fun e => hl e.symm
        generalize hL : m.LeftRotate a = res
        simp [Memory.LeftRotate, Memory.right, Memory.left, Memory.parent, Memory.setRight,
            Memory.setLeft, Memory.setParent, cell_write_self, cell_write_of_ne, root_write, ea, eb,
            hab, hba, hga, hgb, hag, hbg, eg, ep, hpa, hpb, hap, hbp, hpg, hgp, hl2] at hL
        subst hL
        refine ⟨_, rfl, ?_, ?_, ?_, ?_, ?_, ?_⟩
        · simp [cell_write_self, cell_write_of_ne, root_write, ea, eb,
            hab, hba, hga, hgb, hag, hbg, eg, ep, hpa, hpb, hap, hbp, hpg, hgp, hl, hl2]
        · simp [cell_write_self, cell_write_of_ne, root_write, ea, eb,
            hab, hba, hga, hgb, hag, hbg, eg, ep, hpa, hpb, hap, hbp, hpg, hgp, hl, hl2]
        · intro x hx
          simp only [Option.some.injEq, reduceCtorEq] at hx
          try subst hx
          try simp [cell_write_self, cell_write_of_ne, root_write, ea, eb,
            hab, hba, hga, hgb, hag, hbg, eg, ep, hpa, hpb, hap, hbp, hpg, hgp, hl, hl2]
        · intro x hx
          simp only [Option.some.injEq, reduceCtorEq] at hx
          try subst hx
          try simp [cell_write_self, cell_write_of_ne, root_write, ea, eb,
            hab, hba, hga, hgb, hag, hbg, eg, ep, hpa, hpb, hap, hbp, hpg, hgp, hl, hl2]
        · intro x h1 h2 h3 h4
          simp only [ne_eq, Option.some.injEq, reduceCtorEq, not_false_eq_true] at h3 h4
          have h3b : True ∧ (True → True) := ⟨trivial, fun _ => trivial⟩
          try replace h3b := Ne.symm h3
          have h4b : True ∧ (True → True) := ⟨trivial, fun _ => trivial⟩
          try replace h4b := Ne.symm h4
          simp [cell_write_of_ne, h1, h2, h3b, h4b]
        · simp [cell_write_self, cell_write_of_ne, root_write, ea, eb,
            hab, hba, hga, hgb, hag, hbg, eg, ep, hpa, hpb, hap, hbp, hpg, hgp, hl, hl2]

set_option maxHeartbeats 4000000 in
theorem RightRotate_eval (m : Memory) (a b : Nat) (ca cb : Cell)
    (ea : m.cell a = some ca) (eb : m.cell b = some cb) (hr : ca.left = some b) (hab : a ≠ b)
    (hg : ∀ g, cb.right = some g → g ≠ a ∧ g ≠ b ∧ ∃ cg, m.cell g = some cg)
    (hp : ∀ p, ca.parent = some p →
      p ≠ a ∧ p ≠ b ∧ cb.right ≠ some p ∧ ∃ cp, m.cell p = some cp) :
    ∃ m2, m.RightRotate a = some m2 ∧
      m2.cell a = some { ca with parent := some b, left := cb.right } ∧
      m2.cell b = some { cb with parent := ca.parent, right := some a } ∧
      (∀ g, cb.right = some g →
        m2.cell g = (m.cell g).map (fun c => { c with parent := some a })) ∧
      (∀ p, ca.parent = some p →
        m2.cell p = (m.cell p).map (fun c =>
          if c.left = some a then { c with left := some b } else { c with right := some b })) ∧
      (∀ x, x ≠ a → x ≠ b → cb.right ≠ some x → ca.parent ≠ some x → m2.cell x = m.cell x) ∧
      m2.root = if ca.parent = none then some b else m.root := by
  obtain ⟨ad, ac, ap, al, ar⟩ := ca
  obtain ⟨bd, bc, bp, br, bg⟩ := cb
  simp only at hr hg hp
  subst hr
  have hba : b ≠ a := fun e => hab e.symm
  rcases bg with _ | g
  · rcases ap with _ | p
    · have hga : True := trivial
      have hgb : True := trivial
      have hag : True := trivial
      have hbg : True := trivial
      have eg : True := trivial
      have hpg : True := trivial
      have hgp : True := trivial
      have ep : True := trivial
      have hpa : True := trivial
      have hpb : True := trivial
      have hap : True := trivial
      have hbp : True := trivial
      have hl : True := trivial
      have hl2 : True := trivial
      generalize hL : m.RightRotate a = res
      simp [Memory.RightRotate, Memory.right, Memory.left, Memory.parent, Memory.setRight,
          Memory.setLeft, Memory.setParent, cell_write_self, cell_write_of_ne, root_write, ea, eb,
          hab, hba, hga, hgb, hag, hbg, eg, ep, hpa, hpb, hap, hbp, hpg, hgp, hl2] at hL
      subst hL
      refine ⟨_, rfl, ?_, ?_, ?_, ?_, ?_, ?_⟩
      · simp [cell_write_self, cell_write_of_ne, root_write, ea, eb,
          hab, hba, hga, hgb, hag, hbg, eg, ep, hpa, hpb, hap, hbp, hpg, hgp, hl, hl2]
      · simp [cell_write_self, cell_write_of_ne, root_write, ea, eb,
          hab, hba, hga, hgb, hag, hbg, eg, ep, hpa, hpb, hap, hbp, hpg, hgp, hl, hl2]
      · intro x hx
        simp only [Option.some.injEq, reduceCtorEq] at hx
        try subst hx
        try simp [cell_write_self, cell_write_of_ne, root_write, ea, eb,
          hab, hba, hga, hgb, hag, hbg, eg, ep, hpa, hpb, hap, hbp, hpg, hgp, hl, hl2]
      · intro x hx
        simp only [Option.some.injEq, reduceCtorEq] at hx
        try subst hx
        try simp [cell_write_self, cell_write_of_ne, root_write, ea, eb,
          hab, hba, hga, hgb, hag, hbg, eg, ep, hpa, hpb, hap, hbp, hpg, hgp, hl, hl2]
      · intro x h1 h2 h3 h4
        simp only [ne_eq, Option.some.injEq, reduceCtorEq, not_false_eq_true] at h3 h4
        have h3b : True ∧ (True → True) := ⟨trivial, fun _ => trivial⟩
        try replace h3b := Ne.symm h3
        have h4b : True ∧ (True → True) := ⟨trivial, fun _ => trivial⟩
        try replace h4b := Ne.symm h4
        simp [cell_write_of_ne, h1, h2, h3b, h4b]
      · simp [cell_write_self, cell_write_of_ne, root_write, ea, eb,
          hab, hba, hga, hgb, hag, hbg, eg, ep, hpa, hpb, hap, hbp, hpg, hgp, hl, hl2]
    · have hga : True := trivial
      have hgb : True := trivial
      have hag : True := trivial
      have hbg : True := trivial
      have eg : True := trivial
      have hpg : True := trivial
      have hgp : True := trivial
      obtain ⟨hpa, hpb, hpg0, cp, ep⟩ := hp p rfl
      have hap : a ≠ p := fun e => hpa e.symm
      have hbp : b ≠ p := fun e => hpb e.symm
      have hpg : True := trivial
      have hgp : True := trivial
      obtain ⟨xd, xc, xp, xl, xr⟩ := cp
      by_cases hl : xl = some a
      · subst hl
        have hl : True := trivial
        have hl2 : True := trivial
        generalize hL : m.RightRotate a = res
        simp [Memory.RightRotate, Memory.right, Memory.left, Memory.parent, Memory.setRight,
            Memory.setLeft, Memory.setParent, cell_write_self, cell_write_of_ne, root_write, ea, eb,
            hab, hba, hga, hgb, hag, hbg, eg, ep, hpa, hpb, hap, hbp, hpg, hgp, hl2] at hL
        subst hL
        refine ⟨_, rfl, ?_, ?_, ?_, ?_, ?_, ?_⟩
        · simp [cell_write_self, cell_write_of_ne, root_write, ea, eb,
            hab, hba, hga, hgb, hag, hbg, eg, ep, hpa, hpb, hap, hbp, hpg, hgp, hl, hl2]
        · simp [cell_write_self, cell_write_of_ne, root_write, ea, eb,
            hab, hba, hga, hgb, hag, hbg, eg, ep, hpa, hpb, hap, hbp, hpg, hgp, hl, hl2]
        · intro x hx
          simp only [Option.some.injEq, reduceCtorEq] at hx
          try subst hx
          try simp [cell_write_self, cell_write_of_ne, root_write, ea, eb,
            hab, hba, hga, hgb, hag, hbg, eg, ep, hpa, hpb, hap, hbp, hpg, hgp, hl, hl2]
        · intro x hx
          simp only [Option.some.injEq, reduceCtorEq] at hx
          try subst hx
          try simp [cell_write_self, cell_write_of_ne, root_write, ea, eb,
            hab, hba, hga, hgb, hag, hbg, eg, ep, hpa, hpb, hap, hbp, hpg, hgp, hl, hl2]
        · intro x h1 h2 h3 h4
          simp only [ne_eq, Option.some.injEq, reduceCtorEq, not_false_eq_true] at h3 h4
          have h3b : True ∧ (True → True) := ⟨trivial, fun _ => trivial⟩
          try replace h3b := Ne.symm h3
          have h4b : True ∧ (True → True) := ⟨trivial, fun _ => trivial⟩
          try replace h4b := Ne.symm h4
          simp [cell_write_of_ne, h1, h2, h3b, h4b]
        · simp [cell_write_self, cell_write_of_ne, root_write, ea, eb,
            hab, hba, hga, hgb, hag, hbg, eg, ep, hpa, hpb, hap, hbp, hpg, hgp, hl, hl2]
      · have hl2 : ¬ some a = xl := fun e => hl e.symm
        generalize hL : m.RightRotate a = res
        simp [Memory.RightRotate, Memory.right, Memory.left, Memory.parent, Memory.setRight,
            Memory.setLeft, Memory.setParent, cell_write_self, cell_write_of_ne, root_write, ea, eb,
            hab, hba, hga, hgb, hag, hbg, eg, ep, hpa, hpb, hap, hbp, hpg, hgp, hl2] at hL
        subst hL
        refine ⟨_, rfl, ?_, ?_, ?_, ?_, ?_, ?_⟩
        · simp [cell_write_self, cell_write_of_ne, root_write, ea, eb,
            hab, hba, hga, hgb, hag, hbg, eg, ep, hpa, hpb, hap, hbp, hpg, hgp, hl, hl2]
        · simp [cell_write_self, cell_write_of_ne, root_write, ea, eb,
            hab, hba, hga, hgb, hag, hbg, eg, ep, hpa, hpb, hap, hbp, hpg, hgp, hl, hl2]
        · intro x hx
          simp only [Option.some.injEq, reduceCtorEq] at hx
          try subst hx
          try simp [cell_write_self, cell_write_of_ne, root_write, ea, eb,
            hab, hba, hga, hgb, hag, hbg, eg, ep, hpa, hpb, hap, hbp, hpg, hgp, hl, hl2]
        · intro x hx
          simp only [Option.some.injEq, reduceCtorEq] at hx
          try subst hx
          try simp [cell_write_self, cell_write_of_ne, root_write, ea, eb,
            hab, hba, hga, hgb, hag, hbg, eg, ep, hpa, hpb, hap, hbp, hpg, hgp, hl, hl2]
        · intro x h1 h2 h3 h4
          simp only [ne_eq, Option.some.injEq, reduceCtorEq, not_false_eq_true] at h3 h4
          have h3b : True ∧ (True → True) := ⟨trivial, fun _ => trivial⟩
          try replace h3b := Ne.symm h3
          have h4b : True ∧ (True → True) := ⟨trivial, fun _ => trivial⟩
          try replace h4b := Ne.symm h4
          simp [cell_write_of_ne, h1, h2, h3b, h4b]
        · simp [cell_write_self, cell_write_of_ne, root_write, ea, eb,
            hab, hba, hga, hgb, hag, hbg, eg, ep, hpa, hpb, hap, hbp, hpg, hgp, hl, hl2]
  · rcases ap with _ | p
    · obtain ⟨hga, hgb, cg, eg⟩ := hg g rfl
      have hag : a ≠ g := fun e => hga e.symm
      have hbg : b ≠ g := fun e => hgb e.symm
      have hpg : True := trivial
      have hgp : True := trivial
      have ep : True := trivial
      have hpa : True := trivial
      have hpb : True := trivial
      have hap : True := trivial
      have hbp : True := trivial
      have hl : True := trivial
      have hl2 : True := trivial
      generalize hL : m.RightRotate a = res
      simp [Memory.RightRotate, Memory.right, Memory.left, Memory.parent, Memory.setRight,
          Memory.setLeft, Memory.setParent, cell_write_self, cell_write_of_ne, root_write, ea, eb,
          hab, hba, hga, hgb, hag, hbg, eg, ep, hpa, hpb, hap, hbp, hpg, hgp, hl2] at hL
      subst hL
      refine ⟨_, rfl, ?_, ?_, ?_, ?_, ?_, ?_⟩
      · simp [cell_write_self, cell_write_of_ne, root_write, ea, eb,
          hab, hba, hga, hgb, hag, hbg, eg, ep, hpa, hpb, hap, hbp, hpg, hgp, hl, hl2]
      · simp [cell_write_self, cell_write_of_ne, root_write, ea, eb,
          hab, hba, hga, hgb, hag, hbg, eg, ep, hpa, hpb, hap, hbp, hpg, hgp, hl, hl2]
      · intro x hx
        simp only [Option.some.injEq, reduceCtorEq] at hx
        try subst hx
        try simp [cell_write_self, cell_write_of_ne, root_write, ea, eb,
          hab, hba, hga, hgb, hag, hbg, eg, ep, hpa, hpb, hap, hbp, hpg, hgp, hl, hl2]
      · intro x hx
        simp only [Option.some.injEq, reduceCtorEq] at hx
        try subst hx
        try simp [cell_write_self, cell_write_of_ne, root_write, ea, eb,
          hab, hba, hga, hgb, hag, hbg, eg, ep, hpa, hpb, hap, hbp, hpg, hgp, hl, hl2]
      · intro x h1 h2 h3 h4
        simp only [ne_eq, Option.some.injEq, reduceCtorEq, not_false_eq_true] at h3 h4
        have h3b : True ∧ (True → True) := ⟨trivial, fun _ => trivial⟩
        try replace h3b := Ne.symm h3
        have h4b : True ∧ (True → True) := ⟨trivial, fun _ => trivial⟩
        try replace h4b := Ne.symm h4
        simp [cell_write_of_ne, h1, h2, h3b, h4b]
      · simp [cell_write_self, cell_write_of_ne, root_write, ea, eb,
          hab, hba, hga, hgb, hag, hbg, eg, ep, hpa, hpb, hap, hbp, hpg, hgp, hl, hl2]
    · obtain ⟨hga, hgb, cg, eg⟩ := hg g rfl
      have hag : a ≠ g := fun e => hga e.symm
      have hbg : b ≠ g := fun e => hgb e.symm
      obtain ⟨hpa, hpb, hpg0, cp, ep⟩ := hp p rfl
      have hap : a ≠ p := fun e => hpa e.symm
      have hbp : b ≠ p := fun e => hpb e.symm
      have hgp : g ≠ p := fun e => hpg0 (congrArg some e)
      have hpg : p ≠ g := fun e => hgp e.symm
      obtain ⟨xd, xc, xp, xl, xr⟩ := cp
      by_cases hl : xl = some a
      · subst hl
        have hl : True := trivial
        have hl2 : True := trivial
        generalize hL : m.RightRotate a = res
        simp [Memory.RightRotate, Memory.right, Memory.left, Memory.parent, Memory.setRight,
            Memory.setLeft, Memory.setParent, cell_write_self, cell_write_of_ne, root_write, ea, eb,
            hab, hba, hga, hgb, hag, hbg, eg, ep, hpa, hpb, hap, hbp, hpg, hgp, hl2] at hL
        subst hL
        refine ⟨_, rfl, ?_, ?_, ?_, ?_, ?_, ?_⟩
        · simp [cell_write_self, cell_write_of_ne, root_write, ea, eb,
            hab, hba, hga, hgb, hag, hbg, eg, ep, hpa, hpb, hap, hbp, hpg, hgp, hl, hl2]
        · simp [cell_write_self, cell_write_of_ne, root_write, ea, eb,
            hab, hba, hga, hgb, hag, hbg, eg, ep, hpa, hpb, hap, hbp, hpg, hgp, hl, hl2]
        · intro x hx
          simp only [Option.some.injEq, reduceCtorEq] at hx
          try subst hx
          try simp [cell_write_self, cell_write_of_ne, root_write, ea, eb,
            hab, hba, hga, hgb, hag, hbg, eg, ep, hpa, hpb, hap, hbp, hpg, hgp, hl, hl2]
        · intro x hx
          simp only [Option.some.injEq, reduceCtorEq] at hx
          try subst hx
          try simp [cell_write_self, cell_write_of_ne, root_write, ea, eb,
            hab, hba, hga, hgb, hag, hbg, eg, ep, hpa, hpb, hap, hbp, hpg, hgp, hl, hl2]
        · intro x h1 h2 h3 h4
          simp only [ne_eq, Option.some.injEq, reduceCtorEq, not_false_eq_true] at h3 h4
          have h3b : True ∧ (True → True) := ⟨trivial, fun _ => trivial⟩
          try replace h3b := Ne.symm h3
          have h4b : True ∧ (True → True) := ⟨trivial, fun _ => trivial⟩
          try replace h4b := Ne.symm h4
          simp [cell_write_of_ne, h1, h2, h3b, h4b]
        · simp [cell_write_self, cell_write_of_ne, root_write, ea, eb,
            hab, hba, hga, hgb, hag, hbg, eg, ep, hpa, hpb, hap, hbp, hpg, hgp, hl, hl2]
      · have hl2 : ¬ some a = xl := fun e => hl e.symm
        generalize hL : m.RightRotate a = res
        simp [Memory.RightRotate, Memory.right, Memory.left, Memory.parent, Memory.setRight,
            Memory.setLeft, Memory.setParent, cell_write_self, cell_write_of_ne, root_write, ea, eb,
            hab, hba, hga, hgb, hag, hbg, eg, ep, hpa, hpb, hap, hbp, hpg, hgp, hl2] at hL
        subst hL
        refine ⟨_, rfl, ?_, ?_, ?_, ?_, ?_, ?_⟩
        · simp [cell_write_self, cell_write_of_ne, root_write, ea, eb,
            hab, hba, hga, hgb, hag, hbg, eg, ep, hpa, hpb, hap, hbp, hpg, hgp, hl, hl2]
        · simp [cell_write_self, cell_write_of_ne, root_write, ea, eb,
            hab, hba, hga, hgb, hag, hbg, eg, ep, hpa, hpb, hap, hbp, hpg, hgp, hl, hl2]
        · intro x hx
          simp only [Option.some.injEq, reduceCtorEq] at hx
          try subst hx
          try simp [cell_write_self, cell_write_of_ne, root_write, ea, eb,
            hab, hba, hga, hgb, hag, hbg, eg, ep, hpa, hpb, hap, hbp, hpg, hgp, hl, hl2]
        · intro x hx
          simp only [Option.some.injEq, reduceCtorEq] at hx
          try subst hx
          try simp [cell_write_self, cell_write_of_ne, root_write, ea, eb,
            hab, hba, hga, hgb, hag, hbg, eg, ep, hpa, hpb, hap, hbp, hpg, hgp, hl, hl2]
        · intro x h1 h2 h3 h4
          simp only [ne_eq, Option.some.injEq, reduceCtorEq, not_false_eq_true] at h3 h4
          have h3b : True ∧ (True → True) := ⟨trivial, fun _ => trivial⟩
          try replace h3b := Ne.symm h3
          have h4b : True ∧ (True → True) := ⟨trivial, fun _ => trivial⟩
          try replace h4b := Ne.symm h4
          simp [cell_write_of_ne, h1, h2, h3b, h4b]
        · simp [cell_write_self, cell_write_of_ne, root_write, ea, eb,
            hab, hba, hga, hgb, hag, hbg, eg, ep, hpa, hpb, hap, hbp, hpg, hgp, hl, hl2]

theorem LeftRotate_spec (m : Memory) (path : List LFrame) (a b : Nat)
    (pd cd : Course) (pc cc : Color) (pl cl cr : Layout)
    (h : m.Represents
      (Layout.zipUp (Layout.node a pd pc pl (Layout.node b cd cc cl cr)) path)) :
    ∃ m2, m.LeftRotate a = some m2 ∧
      m2.Represents
        (Layout.zipUp (Layout.node b cd cc (Layout.node a pd pc pl cl) cr) path) := by
  have h0 := h
  obtain ⟨hr, hs, hn⟩ := h0
  rw [Stored_zipUp] at hs
  obtain ⟨⟨ea, spl, eb, scl, scr⟩, sar⟩ := hs
  have hn3 := (layout_addrs_zipUp _ path).nodup_iff.mp hn
  simp only [Layout.addrs, List.cons_append, List.nodup_cons, List.nodup_append, List.mem_append,
    List.mem_cons, not_or, List.disjoint_cons_left, List.disjoint_cons_right,
    List.disjoint_append_left, List.disjoint_append_right] at hn3
  obtain ⟨⟨⟨apl, ab, acl, acr⟩, aar⟩, ⟨npl, ⟨⟨bcl, bcr⟩, ncl, ncr, dclcr⟩, bpl, dplcl, dplcr⟩,
    nar, dplar, bar, dclar, dcrar⟩ := hn3
  have hg : ∀ g, cl.ptr = some g → g ≠ a ∧ g ≠ b ∧ ∃ cg, m.cell g = some cg := by
    intro g e
    refine ⟨fun e2 => acl (e2 ▸ layout_ptr_mem e), fun e2 => bcl (e2 ▸ layout_ptr_mem e), ?_⟩
    cases cl with
    | nil => simp [Layout.ptr] at e
    | node g2 gd gc gl gr =>
      simp only [Layout.ptr, Option.some.injEq] at e
      subst e
      exact ⟨_, scl.1⟩
  have hp : ∀ p, parentPtr none path = some p →
      p ≠ a ∧ p ≠ b ∧ cl.ptr ≠ some p ∧ ∃ cp, m.cell p = some cp := by
    intro p e
    refine ⟨fun e2 => aar (e2 ▸ parentPtr_mem e), fun e2 => bar (e2 ▸ parentPtr_mem e),
      fun e2 => dclar (layout_ptr_mem e2) (parentPtr_mem e), ?_⟩
    cases path with
    | nil => simp [parentPtr] at e
    | cons f up =>
      simp only [parentPtr, Option.some.injEq] at e
      subst e
      exact ⟨_, sar.1⟩
  obtain ⟨m2, hL, H1, H2, H3, H4, H5, H6⟩ := LeftRotate_eval m a b _ _ ea eb rfl ab hg hp
  refine ⟨m2, hL, Represents_rotated_left m m2 path a b pd cd pc cc pl cl cr h H1 H2 H3 ?_ H5 ?_⟩
  · intro f up e
    subst e
    rw [H4 f.addr rfl, sar.1]
    have hfo : ¬ f.other.ptr = some a := fun e2 => by
      apply aar
      simp [aroundAddrs, layout_ptr_mem e2]
    cases hs : f.side <;> simp [LFrame.cell, hs, hfo, layout_ptr_node]
  · rw [H6]
    cases path <;> simp [parentPtr]

theorem Represents_rotated_right (m m2 : Memory) (path : List LFrame) (a b : Nat)
    (pd cd : Course) (pc cc : Color) (pr cl cr : Layout)
    (h : m.Represents
      (Layout.zipUp (Layout.node a pd pc (Layout.node b cd cc cl cr) pr) path))
    (H1 : m2.cell a = some (Cell.mk pd pc (some b) cr.ptr pr.ptr))
    (H2 : m2.cell b = some (Cell.mk cd cc (parentPtr none path) cl.ptr (some a)))
    (H3 : ∀ g, cr.ptr = some g →
      m2.cell g = (m.cell g).map (fun c => { c with parent := some a }))
    (H4 : ∀ f up, path = f :: up →
      m2.cell f.addr = some (f.cell (parentPtr none up) (some b)))
    (H5 : ∀ x, x ≠ a → x ≠ b → cr.ptr ≠ some x → parentPtr none path ≠ some x →
      m2.cell x = m.cell x)
    (H6 : (path = [] → m2.root = some b) ∧ (path ≠ [] → m2.root = m.root)) :
    m2.Represents
      (Layout.zipUp (Layout.node b cd cc cl (Layout.node a pd pc cr pr)) path) := by
  obtain ⟨hr, hs, hn⟩ := h
  rw [Stored_zipUp] at hs
  obtain ⟨⟨ea, ⟨eb, scl, scr⟩, spr⟩, sar⟩ := hs
  have hn2 := (layout_addrs_zipUp _ path).nodup_iff.mp hn
  have hn3 := hn2
  simp only [Layout.addrs, List.cons_append, List.nodup_cons, List.nodup_append, List.mem_append,
    List.mem_cons, not_or, List.disjoint_cons_left, List.disjoint_cons_right,
    List.disjoint_append_left, List.disjoint_append_right] at hn3
  obtain ⟨⟨ab, ⟨⟨acl, acr⟩, apr⟩, aar⟩, ⟨⟨⟨bcl, bcr⟩, bpr⟩, bar⟩,
    ⟨⟨ncl, ncr, dclcr⟩, npr, dclpr, dcrpr⟩, nar, ⟨dclar, dcrar⟩, dprar⟩ := hn3
  refine ⟨?_, ?_, ?_⟩
  · cases path with
    | nil => exact H6.1 rfl
    | cons f up =>
      rw [layout_ptr_zipUp_cons _ (Layout.node a pd pc (Layout.node b cd cc cl cr) pr), ← hr]
      exact H6.2 (List.cons_ne_nil _ _)
  · rw [Stored_zipUp]
    refine ⟨⟨H2, Stored_congr _ ?_ scl, H1, Stored_reparent _ _ scr ncr H3 ?_,
      Stored_congr _ ?_ spr⟩, ?_⟩
    · intro x hx
      exact H5 x (fun e => acl (e ▸ hx)) (fun e => bcl (e ▸ hx))
        (fun e => dclcr hx (layout_ptr_mem e)) (fun e => dclar hx (parentPtr_mem e))
    · intro x hx hne
      exact H5 x (fun e => acr (e ▸ hx)) (fun e => bcr (e ▸ hx)) hne
        (fun e => dcrar hx (parentPtr_mem e))
    · intro x hx
      exact H5 x (fun e => apr (e ▸ hx)) (fun e => bpr (e ▸ hx))
        (fun e => dcrpr (layout_ptr_mem e) hx) (fun e => dprar hx (parentPtr_mem e))
    · cases path with
      | nil => trivial
      | cons f up =>
        obtain ⟨_, so, su⟩ := sar
        simp only [aroundAddrs, List.nodup_cons, List.nodup_append, List.mem_append, not_or,
          List.mem_cons, List.disjoint_cons_right, List.disjoint_append_right] at nar aar bar dcrar
        refine ⟨H4 f up rfl, Stored_congr _ ?_ so, StoredAround_congr _ _ ?_ su⟩
        · intro x hx
          refine H5 x (fun e => aar.2.1 (e ▸ hx)) (fun e => bar.2.1 (e ▸ hx))
            (fun e => dcrar.2.1 (layout_ptr_mem e) hx) ?_
          simp only [parentPtr, ne_eq, Option.some.injEq]
          rintro rfl
          exact nar.1.1 hx
        · intro x hx
          refine H5 x (fun e => aar.2.2 (e ▸ hx)) (fun e => bar.2.2 (e ▸ hx))
            (fun e => dcrar.2.2 (layout_ptr_mem e) hx) ?_
          simp only [parentPtr, ne_eq, Option.some.injEq]
          rintro rfl
          exact nar.1.2 hx
  · refine (layout_addrs_zipUp _ path).nodup_iff.mpr ?_
    refine (List.Perm.nodup_iff (List.Perm.append_right _ ?_)).mp hn2
    simp only [Layout.addrs, List.cons_append]
    refine (List.Perm.swap b a _).trans ?_
    refine List.Perm.cons b ?_
    rw [List.append_assoc]
    exact List.perm_middle.symm

theorem RightRotate_spec (m : Memory) (path : List LFrame) (a b : Nat)
    (pd cd : Course) (pc cc : Color) (pr cl cr : Layout)
    (h : m.Represents
      (Layout.zipUp (Layout.node a pd pc (Layout.node b cd cc cl cr) pr) path)) :
    ∃ m2, m.RightRotate a = some m2 ∧
      m2.Represents
        (Layout.zipUp (Layout.node b cd cc cl (Layout.node a pd pc cr pr)) path) := by
  have h0 := h
  obtain ⟨hr, hs, hn⟩ := h0
  rw [Stored_zipUp] at hs
  obtain ⟨⟨ea, ⟨eb, scl, scr⟩, spr⟩, sar⟩ := hs
  have hn3 := (layout_addrs_zipUp _ path).nodup_iff.mp hn
  simp only [Layout.addrs, List.cons_append, List.nodup_cons, List.nodup_append, List.mem_append,
    List.mem_cons, not_or, List.disjoint_cons_left, List.disjoint_cons_right,
    List.disjoint_append_left, List.disjoint_append_right] at hn3
  obtain ⟨⟨ab, ⟨⟨acl, acr⟩, apr⟩, aar⟩, ⟨⟨⟨bcl, bcr⟩, bpr⟩, bar⟩,
    ⟨⟨ncl, ncr, dclcr⟩, npr, dclpr, dcrpr⟩, nar, ⟨dclar, dcrar⟩, dprar⟩ := hn3
  have hg : ∀ g, cr.ptr = some g → g ≠ a ∧ g ≠ b ∧ ∃ cg, m.cell g = some cg := by
    intro g e
    refine ⟨fun e2 => acr (e2 ▸ layout_ptr_mem e), fun e2 => bcr (e2 ▸ layout_ptr_mem e), ?_⟩
    cases cr with
    | nil => simp [Layout.ptr] at e
    | node g2 gd gc gl gr =>
      simp only [Layout.ptr, Option.some.injEq] at e
      subst e
      exact ⟨_, scr.1⟩
  have hp : ∀ p, parentPtr none path = some p →
      p ≠ a ∧ p ≠ b ∧ cr.ptr ≠ some p ∧ ∃ cp, m.cell p = some cp := by
    intro p e
    refine ⟨fun e2 => aar (e2 ▸ parentPtr_mem e), fun e2 => bar (e2 ▸ parentPtr_mem e),
      fun e2 => dcrar (layout_ptr_mem e2) (parentPtr_mem e), ?_⟩
    cases path with
    | nil => simp [parentPtr] at e
    | cons f up =>
      simp only [parentPtr, Option.some.injEq] at e
      subst e
      exact ⟨_, sar.1⟩
  obtain ⟨m2, hL, H1, H2, H3, H4, H5, H6⟩ := RightRotate_eval m a b _ _ ea eb rfl ab hg hp
  refine ⟨m2, hL, Represents_rotated_right m m2 path a b pd cd pc cc pr cl cr h H1 H2 H3 ?_ H5 ?_⟩
  · intro f up e
    subst e
    rw [H4 f.addr rfl, sar.1]
    have hfo : ¬ f.other.ptr = some a := fun e2 => by
      apply aar
      simp [aroundAddrs, layout_ptr_mem e2]
    cases hs : f.side <;> simp [LFrame.cell, hs, hfo, layout_ptr_node]
  · rw [H6]
    cases path <;> simp [parentPtr]

theorem child_cell (f : LFrame) (par sub : Option Nat) : f.child (f.cell par sub) = sub := by
  cases hs : f.side <;> simp [LFrame.child, LFrame.cell, hs]

theorem Represents_position (m : Memory) (t : Layout) (path : List LFrame)
    (h : m.Represents (Layout.zipUp t path)) :
    (path = [] → m.root = t.ptr) ∧
      (∀ f up, path = f :: up → ∃ c, m.cell f.addr = some c ∧ f.child c = t.ptr) := by
  obtain ⟨hr, hs, _⟩ := h
  rw [Stored_zipUp] at hs
  constructor
  · rintro rfl
    exact hr
  · rintro f up rfl
    exact ⟨_, hs.2.1, child_cell _ _ _⟩

theorem LeftRotate_refines (m : Memory) (path : List LFrame) (a b : Nat)
    (pd cd : Course) (pc cc : Color) (x y z : Layout)
    (h : m.Represents
      (Layout.zipUp (Layout.node a pd pc x (Layout.node b cd cc y z)) path)) :
    ∃ m2, m.LeftRotate a = some m2 ∧
      m2.Represents (Layout.zipUp (Layout.node b cd cc (Layout.node a pd pc x y) z) path) ∧
      (Layout.zipUp (Layout.node b cd cc (Layout.node a pd pc x y) z) path).tree
        = zipUp (RedBlackTree.LeftRotate (Layout.node a pd pc x (Layout.node b cd cc y z)).tree)
            (path.map LFrame.frame) ∧
      inorder (Layout.zipUp (Layout.node b cd cc (Layout.node a pd pc x y) z) path).tree
        = inorder (Layout.zipUp (Layout.node a pd pc x (Layout.node b cd cc y z)) path).tree ∧
      (path = [] → m.root = some a ∧ m2.root = some b) ∧
      (∀ f up, path = f :: up → ∃ c c2, m.cell f.addr = some c ∧ f.child c = some a ∧
        m2.cell f.addr = some c2 ∧ f.child c2 = some b) := by
  obtain ⟨m2, hL, h2⟩ := LeftRotate_spec m path a b pd cd pc cc x y z h
  have p1 := Represents_position m _ path h
  have p2 := Represents_position m2 _ path h2
  refine ⟨m2, hL, h2, ?_, ?_, fun e => ⟨p1.1 e, p2.1 e⟩, ?_⟩
  · rw [layout_tree_zipUp]
    rfl
  · rw [layout_tree_zipUp, layout_tree_zipUp]
    apply inorder_zipUp_congr
    simp [Layout.tree, inorder]
  · intro f up e
    obtain ⟨c, hc1, hc2⟩ := p1.2 f up e
    obtain ⟨c2, hd1, hd2⟩ := p2.2 f up e
    exact ⟨c, c2, hc1, hc2, hd1, hd2⟩

theorem RightRotate_refines (m : Memory) (path : List LFrame) (a b : Nat)
    (pd cd : Course) (pc cc : Color) (x y z : Layout)
    (h : m.Represents
      (Layout.zipUp (Layout.node a pd pc (Layout.node b cd cc x y) z) path)) :
    ∃ m2, m.RightRotate a = some m2 ∧
      m2.Represents (Layout.zipUp (Layout.node b cd cc x (Layout.node a pd pc y z)) path) ∧
      (Layout.zipUp (Layout.node b cd cc x (Layout.node a pd pc y z)) path).tree
        = zipUp (RedBlackTree.RightRotate (Layout.node a pd pc (Layout.node b cd cc x y) z).tree)
            (path.map LFrame.frame) ∧
      inorder (Layout.zipUp (Layout.node b cd cc x (Layout.node a pd pc y z)) path).tree
        = inorder (Layout.zipUp (Layout.node a pd pc (Layout.node b cd cc x y) z) path).tree ∧
      (path = [] → m.root = some a ∧ m2.root = some b) ∧
      (∀ f up, path = f :: up → ∃ c c2, m.cell f.addr = some c ∧ f.child c = some a ∧
        m2.cell f.addr = some c2 ∧ f.child c2 = some b) := by
  obtain ⟨m2, hL, h2⟩ := RightRotate_spec m path a b pd cd pc cc z x y h
  have p1 := Represents_position m _ path h
  have p2 := Represents_position m2 _ path h2
  refine ⟨m2, hL, h2, ?_, ?_, fun e => ⟨p1.1 e, p2.1 e⟩, ?_⟩
  · rw [layout_tree_zipUp]
    rfl
  · rw [layout_tree_zipUp, layout_tree_zipUp]
    apply inorder_zipUp_congr
    simp [Layout.tree, inorder]
  · intro f up e
    obtain ⟨c, hc1, hc2⟩ := p1.2 f up e
    obtain ⟨c2, hd1, hd2⟩ := p2.2 f up e
    exact ⟨c, c2, hc1, hc2, hd1, hd2⟩

/-! ## The hash table -/

namespace HashTable

theorem mod_of_lt_two_mul (x c : Nat) (h : x < 2 * c) :
    x % c = if x < c then x else x - c := by
  split_ifs with h1
  · exact Nat.mod_eq_of_lt h1
  · rw [Nat.mod_eq_sub_mod (Nat.le_of_not_lt h1)]
    exact Nat.mod_eq_of_lt (by omega)

theorem probe_lt (c h j : Nat) (hc : 0 < c) : (h + j) % c < c := Nat.mod_lt _ hc

theorem probe_next (c h j : Nat) (hc2 : c < 2 ^ 32) (hh : h < c) (hj : j < c) :
    ((h + j) % c + 1) % 2 ^ 32 % c = (h + (j + 1)) % c := by
  have h1 : (h + j) % c < c := Nat.mod_lt _ (by omega)
  rw [Nat.mod_eq_of_lt (show (h + j) % c + 1 < 2 ^ 32 by omega)]
  rw [mod_of_lt_two_mul (h + j) c (by omega)] at h1 ⊢
  rw [mod_of_lt_two_mul (h + (j + 1)) c (by omega)]
  split_ifs at h1 ⊢ <;> first | omega | (rw [mod_of_lt_two_mul _ c (by omega)]; split_ifs <;> omega)

theorem probe_wrap (c h j : Nat) (hh : h < c) (hj : j < c) :
    (h + (j + 1)) % c = h ↔ j + 1 = c := by
  rw [mod_of_lt_two_mul (h + (j + 1)) c (by omega)]
  split_ifs <;> omega

theorem probe_inj (c h i j : Nat) (hh : h < c) (hi : i < c) (hj : j < c)
    (e : (h + i) % c = (h + j) % c) : i = j := by
  rw [mod_of_lt_two_mul (h + i) c (by omega), mod_of_lt_two_mul (h + j) c (by omega)] at e
  split_ifs at e <;> omega

theorem probe_surj (c h k : Nat) (hh : h < c) (hk : k < c) :
    ∃ i, i < c ∧ (h + i) % c = k := by
  by_cases hle : h ≤ k
  · exact ⟨k - h, by omega, by rw [mod_of_lt_two_mul _ c (by omega)]; split_ifs <;> omega⟩
  · exact ⟨k + c - h, by omega, by rw [mod_of_lt_two_mul _ c (by omega)]; split_ifs <;> omega⟩

theorem home_lt (c : Nat) (key : CString) (hc : 0 < c) : home c key < c := Nat.mod_lt _ hc

theorem hash_eq (t : HashTable) (key : CString) (hc : 0 < t.tableSize) :
    t.hash key = Except.ok (home t.tableSize key) := by
  unfold hash
  rw [if_neg (by omega)]
  rfl

theorem occupied_cases (t : HashTable) (hw : t.WF) (k : Nat) (hk : k < t.tableSize) :
    t.occupied[k]? = some true ∨ t.occupied[k]? = some false := by
  have : k < t.occupied.length := by rw [hw.2.1]; exact hk
  rw [List.getElem?_eq_getElem this]
  cases t.occupied[k] <;> simp

theorem table_some (t : HashTable) (hw : t.WF) (k : Nat) (hk : k < t.tableSize) :
    ∃ r, t.table[k]? = some r := by
  have : k < t.table.length := by rw [hw.1]; exact hk
  exact ⟨_, List.getElem?_eq_getElem this⟩

/-- The probe loop of `Insert` started `j` steps after the home slot `h`, with
fuel for the rest of the round: it stops at the first free slot of the probe
sequence, or reports a full round of occupied slots. -/
theorem Insert_loop_spec (t : HashTable) (hw : t.WF) (h : Nat) (hh : h < t.tableSize) :
    ∀ (fuel j : Nat), j < t.tableSize → t.tableSize ≤ fuel + j →
      (∃ j', j ≤ j' ∧ j' < t.tableSize ∧
          Insert.loop t h fuel ((h + j) % t.tableSize)
            = Except.ok (some ((h + j') % t.tableSize)) ∧
          t.occupied[(h + j') % t.tableSize]? = some false ∧
          ∀ i, j ≤ i → i < j' → t.occupied[(h + i) % t.tableSize]? = some true) ∨
      (Insert.loop t h fuel ((h + j) % t.tableSize) = Except.ok none ∧
          ∀ i, j ≤ i → i < t.tableSize → t.occupied[(h + i) % t.tableSize]? = some true) := by
  intro fuel
  induction fuel with
  | zero => intro j hj hf; omega
  | succ fuel ih =>
    intro j hj hf
    rcases occupied_cases t hw _ (probe_lt t.tableSize h j hw.2.2.1) with ho | ho
    · simp only [Insert.loop, ho, probe_next t.tableSize h j hw.2.2.2 hh hj]
      by_cases hwrap : (h + (j + 1)) % t.tableSize = h
      · rw [if_pos hwrap]
        right
        refine ⟨rfl, ?_⟩
        intro i hi1 hi2
        have : j + 1 = t.tableSize := (probe_wrap _ _ _ hh hj).mp hwrap
        have : i = j := by omega
        rw [this]; exact ho
      · rw [if_neg hwrap]
        have hj' : j + 1 < t.tableSize := by
          have := mt (probe_wrap _ _ _ hh hj).mpr hwrap
          omega
        rcases ih (j + 1) hj' (by omega) with ⟨j', h1, h2, h3, h4, h5⟩ | ⟨h3, h5⟩
        · left
          refine ⟨j', by omega, h2, h3, h4, ?_⟩
          intro i hi1 hi2
          by_cases hij : i = j
          · rw [hij]; exact ho
          · exact h5 i (by omega) hi2
        · right
          refine ⟨h3, ?_⟩
          intro i hi1 hi2
          by_cases hij : i = j
          · rw [hij]; exact ho
          · exact h5 i (by omega) hi2
    · left
      refine ⟨j, le_refl _, hj, ?_, ho, ?_⟩
      · simp only [Insert.loop, ho]
      · intro i hi1 hi2; omega

theorem Search_loop_absent (t : HashTable) (hw : t.WF) (q : CString) (h : Nat)
    (hh : h < t.tableSize) (habs : ∀ k r, t.Holds k r → r.number ≠ q) :
    ∀ (fuel j : Nat), j < t.tableSize → t.tableSize ≤ fuel + j →
      Search.loop t q h fuel ((h + j) % t.tableSize) = Except.ok Course.default := by
  intro fuel
  induction fuel with
  | zero => intro j hj hf; omega
  | succ fuel ih =>
    intro j hj hf
    have hlt := probe_lt t.tableSize h j hw.2.2.1
    rcases occupied_cases t hw _ hlt with ho | ho
    · obtain ⟨r, hr⟩ := table_some t hw _ hlt
      have hne : r.number ≠ q := habs _ r ⟨ho, hr⟩
      simp only [Search.loop, ho, hr, if_neg hne, probe_next t.tableSize h j hw.2.2.2 hh hj]
      by_cases hwrap : (h + (j + 1)) % t.tableSize = h
      · rw [if_pos hwrap]
      · rw [if_neg hwrap]
        have hj' : j + 1 < t.tableSize := by
          have := mt (probe_wrap _ _ _ hh hj).mpr hwrap
          omega
        exact ih (j + 1) hj' (by omega)
    · simp only [Search.loop, ho]

theorem Search_loop_found (t : HashTable) (hw : t.WF) (q : CString) (h : Nat)
    (hh : h < t.tableSize) (m : Nat) (hm : m < t.tableSize) (r : Course)
    (hr : t.Holds ((h + m) % t.tableSize) r) (hq : r.number = q)
    (hpre : ∀ i, i < m → ∃ r', t.Holds ((h + i) % t.tableSize) r' ∧ r'.number ≠ q) :
    ∀ (fuel j : Nat), j ≤ m → t.tableSize ≤ fuel + j →
      Search.loop t q h fuel ((h + j) % t.tableSize) = Except.ok r := by
  intro fuel
  induction fuel with
  | zero => intro j hj hf; omega
  | succ fuel ih =>
    intro j hj hf
    by_cases hjm : j = m
    · subst hjm
      simp only [Search.loop, hr.1, hr.2, if_pos hq]
    · obtain ⟨r', hr', hne⟩ := hpre j (by omega)
      have hjc : j < t.tableSize := by omega
      simp only [Search.loop, hr'.1, hr'.2, if_neg hne,
        probe_next t.tableSize h j hw.2.2.2 hh hjc]
      have hwrap : ¬ (h + (j + 1)) % t.tableSize = h := by
        rw [probe_wrap _ _ _ hh hjc]; omega
      rw [if_neg hwrap]
      exact ih (j + 1) (by omega) (by omega)

theorem Search_absent (t : HashTable) (hw : t.WF) (q : CString)
    (habs : ∀ k r, t.Holds k r → r.number ≠ ToUpperCopy q) :
    t.Search q = Except.ok Course.default := by
  unfold Search
  simp only [hash_eq t _ hw.2.2.1]
  have hh := home_lt t.tableSize (q.map toupper) hw.2.2.1
  have := Search_loop_absent t hw (q.map toupper) _ hh habs t.tableSize 0 hw.2.2.1 (by omega)
  rwa [Nat.add_zero, Nat.mod_eq_of_lt hh] at this

theorem Search_stored (t : HashTable) (hw : t.WF) (hch : t.Chain) (hinj : t.Inj)
    (k : Nat) (r : Course) (hr : t.Holds k r) (hu : ToUpperCopy r.number = r.number) :
    t.Search r.number = Except.ok r := by
  unfold Search
  have hu' : r.number.map toupper = r.number := hu
  simp only [hu', hash_eq t _ hw.2.2.1]
  have hh := home_lt t.tableSize r.number hw.2.2.1
  obtain ⟨m, hm, hk, hocc⟩ := hch k r hr
  have := Search_loop_found t hw r.number _ hh m hm r (hk ▸ hr) rfl ?_ t.tableSize 0
    (Nat.zero_le _) (by omega)
  · rwa [Nat.add_zero, Nat.mod_eq_of_lt hh] at this
  · intro i hi
    obtain ⟨r', hr'⟩ := table_some t hw _ (probe_lt t.tableSize (home t.tableSize r.number) i hw.2.2.1)
    refine ⟨r', ⟨hocc i hi, hr'⟩, ?_⟩
    intro e
    have := hinj _ _ _ _ ⟨hocc i hi, hr'⟩ hr e
    rw [hk] at this
    have := probe_inj _ _ _ _ hh (by omega) hm this
    omega

theorem Insert_spec (t : HashTable) (hw : t.WF) (course : Course) :
    (∃ j, j < t.tableSize ∧
        t.occupied[(home t.tableSize course.number + j) % t.tableSize]? = some false ∧
        (∀ i, i < j →
          t.occupied[(home t.tableSize course.number + i) % t.tableSize]? = some true) ∧
        t.Insert course = Except.ok
          ({ t with
              table := t.table.set ((home t.tableSize course.number + j) % t.tableSize) course
              occupied := t.occupied.set ((home t.tableSize course.number + j) % t.tableSize) true },
            [])) ∨
    ((∀ k, k < t.tableSize → t.occupied[k]? = some true) ∧
        t.Insert course = Except.ok (t, ["Error: Hash table is full."])) := by
  have hh := home_lt t.tableSize course.number hw.2.2.1
  have hl := Insert_loop_spec t hw _ hh t.tableSize 0 hw.2.2.1 (by omega)
  rw [Nat.add_zero, Nat.mod_eq_of_lt hh] at hl
  rcases hl with ⟨j, _, hj, hloop, hfree, hocc⟩ | ⟨hloop, hocc⟩
  · left
    refine ⟨j, hj, hfree, fun i hi => hocc i (Nat.zero_le _) hi, ?_⟩
    unfold Insert
    simp only [hash_eq t _ hw.2.2.1, hloop]
    have hlt := probe_lt t.tableSize (home t.tableSize course.number) j hw.2.2.1
    rw [if_pos ⟨by rw [hw.1]; exact hlt, by rw [hw.2.1]; exact hlt⟩]
  · right
    refine ⟨?_, ?_⟩
    · intro k hk
      obtain ⟨i, hi, he⟩ := probe_surj _ _ k hh hk
      rw [← he]
      exact hocc i (Nat.zero_le _) hi
    · unfold Insert
      simp only [hash_eq t _ hw.2.2.1, hloop]

theorem WF_put (t : HashTable) (hw : t.WF) (k : Nat) (course : Course) : (t.put k course).WF := by
  obtain ⟨h1, h2, h3, h4⟩ := hw
  exact ⟨by simp [put, h1], by simp [put, h2], h3, h4⟩

theorem occupied_put (t : HashTable) (k x : Nat) (course : Course)
    (h : t.occupied[x]? = some true) : (t.put k course).occupied[x]? = some true := by
  simp only [put, List.getElem?_set]
  split_ifs with h1 h2
  · rfl
  · subst h1
    rw [List.getElem?_eq_none (by omega)] at h
    exact Option.noConfusion h
  · exact h

theorem Holds_put (t : HashTable) (hw : t.WF) (k : Nat) (course : Course)
    (hk : k < t.tableSize) (hfree : t.occupied[k]? = some false) (k' : Nat) (r' : Course) :
    (t.put k course).Holds k' r' ↔ (k' = k ∧ r' = course) ∨ t.Holds k' r' := by
  have hk1 : k < t.table.length := by rw [hw.1]; exact hk
  have hk2 : k < t.occupied.length := by rw [hw.2.1]; exact hk
  unfold Holds
  by_cases e : k = k'
  · subst e
    simp only [put, List.getElem?_set_self hk1, List.getElem?_set_self hk2, hfree]
    constructor
    · rintro ⟨_, h⟩
      exact Or.inl ⟨trivial, (Option.some.inj h).symm⟩
    · rintro (⟨_, h⟩ | ⟨h, _⟩)
      · exact ⟨trivial, by rw [h]⟩
      · exact absurd (Option.some.inj h) (by decide)
  · simp only [put, List.getElem?_set_ne e]
    constructor
    · intro h; exact Or.inr h
    · rintro (⟨h, _⟩ | h)
      · exact absurd h.symm e
      · exact h

theorem Chain_put (t : HashTable) (hw : t.WF) (hch : t.Chain) (course : Course) (j : Nat)
    (hj : j < t.tableSize)
    (hfree : t.occupied[(home t.tableSize course.number + j) % t.tableSize]? = some false)
    (hocc : ∀ i, i < j →
      t.occupied[(home t.tableSize course.number + i) % t.tableSize]? = some true) :
    (t.put ((home t.tableSize course.number + j) % t.tableSize) course).Chain := by
  intro k' r' hh
  rw [Holds_put t hw _ course (probe_lt _ _ _ hw.2.2.1) hfree] at hh
  rcases hh with ⟨h1, h2⟩ | hh
  · subst h1 h2
    exact ⟨j, hj, rfl, fun i hi => occupied_put t _ _ _ (hocc i hi)⟩
  · obtain ⟨m, hm, hk, ho⟩ := hch k' r' hh
    exact ⟨m, hm, hk, fun i hi => occupied_put t _ _ _ (ho i hi)⟩

theorem Inj_put (t : HashTable) (hw : t.WF) (hinj : t.Inj) (course : Course) (k : Nat)
    (hk : k < t.tableSize) (hfree : t.occupied[k]? = some false)
    (hnew : ∀ k' r', t.Holds k' r' → r'.number ≠ course.number) :
    (t.put k course).Inj := by
  intro k₁ k₂ r₁ r₂ h1 h2 e
  rw [Holds_put t hw k course hk hfree] at h1 h2
  rcases h1 with ⟨a1, b1⟩ | h1 <;> rcases h2 with ⟨a2, b2⟩ | h2
  · rw [a1, a2]
  · subst b1
    exact absurd e.symm (hnew _ _ h2)
  · subst b2
    exact absurd e (hnew _ _ h1)
  · exact hinj _ _ _ _ h1 h2 e

theorem count_put (t : HashTable) (hw : t.WF) (course : Course) (k : Nat)
    (hk : k < t.tableSize) (hfree : t.occupied[k]? = some false) :
    (t.put k course).occupied.count true = t.occupied.count true + 1 := by
  have hk2 : k < t.occupied.length := by rw [hw.2.1]; exact hk
  have hv : t.occupied[k] = false := by
    rw [List.getElem?_eq_getElem hk2] at hfree
    exact Option.some.inj hfree
  simp only [put]
  rw [List.count_set true true t.occupied k hk2, hv]
  simp

theorem count_full (t : HashTable) (hw : t.WF)
    (h : ∀ k, k < t.tableSize → t.occupied[k]? = some true) :
    t.occupied.count true = t.tableSize := by
  rw [← hw.2.1, List.count_eq_length]
  intro b hb
  obtain ⟨i, hi, e⟩ := List.getElem_of_mem hb
  have := h i (by rw [← hw.2.1]; exact hi)
  rw [List.getElem?_eq_getElem hi, e] at this
  exact (Option.some.inj this).symm

theorem WF_Construct (c : Nat) (hc1 : 1 ≤ c) (hc2 : c < 2 ^ 32) : (Construct c).WF := by
  refine ⟨by simp [Construct], by simp [Construct], hc1, hc2⟩

theorem not_Holds_Construct (c k : Nat) (r : Course) : ¬ (Construct c).Holds k r := by
  rintro ⟨h, _⟩
  simp only [Construct, List.getElem?_replicate] at h
  split_ifs at h
  exact absurd (Option.some.inj h) (by decide)

theorem insertAll_distinct (rs : List Course) : ∀ (t : HashTable), t.WF → t.Chain → t.Inj →
    (rs.map Course.number).Nodup →
    (∀ k r, t.Holds k r → r.number ∉ rs.map Course.number) →
    t.occupied.count true + rs.length ≤ t.tableSize →
    ∃ t', t.insertAll rs = Except.ok (t', []) ∧ t'.WF ∧ t'.Chain ∧ t'.Inj ∧
      t'.tableSize = t.tableSize ∧
      (∀ k r, t.Holds k r → t'.Holds k r) ∧ (∀ r ∈ rs, ∃ k, t'.Holds k r) := by
  induction rs with
  | nil =>
    intro t hw hch hinj _ _ _
    exact ⟨t, rfl, hw, hch, hinj, rfl, fun _ _ h => h, fun r hr => absurd hr (List.not_mem_nil r)⟩
  | cons c cs ih =>
    intro t hw hch hinj hnd hnew hcount
    simp only [List.map_cons, List.nodup_cons] at hnd
    simp only [List.length_cons] at hcount
    rcases Insert_spec t hw c with ⟨j, hj, hfree, hocc, hins⟩ | ⟨hfull, _⟩
    · have hklt := probe_lt t.tableSize (home t.tableSize c.number) j hw.2.2.1
      have hput := Holds_put t hw _ c hklt hfree
      have hnew' : ∀ k r, t.Holds k r → r.number ≠ c.number := by
        intro k r h e
        exact hnew k r h (by rw [e]; simp)
      obtain ⟨t', h1, h2, h3, h4, h5, h6, h7⟩ :=
        ih (t.put ((home t.tableSize c.number + j) % t.tableSize) c)
          (WF_put t hw _ c) (Chain_put t hw hch c j hj hfree hocc)
          (Inj_put t hw hinj c _ hklt hfree hnew') hnd.2
          (by
            intro k r h
            rw [hput] at h
            rcases h with ⟨_, h⟩ | h
            · rw [h]; exact hnd.1
            · intro hm
              exact hnew k r h (List.mem_cons_of_mem _ hm))
          (by
            rw [count_put t hw c _ hklt hfree]
            show _ ≤ t.tableSize
            omega)
      refine ⟨t', ?_, h2, h3, h4, h5, ?_, ?_⟩
      · simp only [insertAll]
        rw [hins]
        simp only [put] at h1
        simp only [h1, List.nil_append]
      · intro k r h
        exact h6 k r ((hput k r).mpr (Or.inr h))
      · intro r hr
        rcases List.mem_cons.mp hr with hr | hr
        · exact ⟨_, h6 _ _ ((hput _ _).mpr (Or.inl ⟨rfl, hr⟩))⟩
        · exact h7 r hr
    · have := count_full t hw hfull
      omega

theorem insertAll_total (rs : List Course) : ∀ (t : HashTable), t.WF →
    ∃ t' out, t.insertAll rs = Except.ok (t', out) ∧ t'.WF ∧ t'.tableSize = t.tableSize ∧
      (∀ k r, t'.Holds k r → t.Holds k r ∨ r ∈ rs) := by
  induction rs with
  | nil =>
    intro t hw
    exact ⟨t, [], rfl, hw, rfl, fun _ _ h => Or.inl h⟩
  | cons c cs ih =>
    intro t hw
    rcases Insert_spec t hw c with ⟨j, _, hfree, _, hins⟩ | ⟨_, hins⟩
    · have hklt := probe_lt t.tableSize (home t.tableSize c.number) j hw.2.2.1
      have hput := Holds_put t hw _ c hklt hfree
      obtain ⟨t', out, h1, h2, h3, h4⟩ :=
        ih (t.put ((home t.tableSize c.number + j) % t.tableSize) c) (WF_put t hw _ c)
      refine ⟨t', [] ++ out, ?_, h2, h3, ?_⟩
      · simp only [insertAll]
        rw [hins]
        simp only [put] at h1
        simp only [h1]
      · intro k r h
        rcases h4 k r h with h | h
        · rw [hput] at h
          rcases h with ⟨_, h⟩ | h
          · exact Or.inr (h ▸ List.mem_cons_self _ _)
          · exact Or.inl h
        · exact Or.inr (List.mem_cons_of_mem _ h)
    · obtain ⟨t', out, h1, h2, h3, h4⟩ := ih t hw
      refine ⟨t', ["Error: Hash table is full."] ++ out, ?_, h2, h3, ?_⟩
      · simp only [insertAll]
        rw [hins]
        simp only [h1]
      · intro k r h
        rcases h4 k r h with h | h
        · exact Or.inl h
        · exact Or.inr (List.mem_cons_of_mem _ h)

/-! ### `Size` and `ForEach` -/

theorem occupiedFrom_zero (t : HashTable) : t.occupiedFrom 0 t.tableSize = t.occupiedSlots := by
  simp [occupiedFrom, occupiedSlots, List.range_eq_range']

theorem occupiedFrom_succ (t : HashTable) (i n : Nat) :
    t.occupiedFrom i (n + 1) =
      if t.occupied[i]? = some true then i :: t.occupiedFrom (i + 1) n
      else t.occupiedFrom (i + 1) n := by
  simp only [occupiedFrom, List.range'_succ, List.filter_cons]
  by_cases h : t.occupied[i]? = some true <;> simp [h]

theorem Size_loop_spec (t : HashTable) : ∀ (n i acc : Nat), i + n ≤ t.occupied.length →
    Size.loop t n i acc = Except.ok (acc + (t.occupiedFrom i n).length) := by
  intro n
  induction n with
  | zero => intro i acc _; simp [Size.loop, occupiedFrom]
  | succ n ih =>
    intro i acc h
    have hi : i < t.occupied.length := by omega
    rw [occupiedFrom_succ]
    simp only [Size.loop, List.getElem?_eq_getElem hi]
    cases hb : t.occupied[i] with
    | false =>
      simp only [Option.some.injEq, Bool.false_eq_true, if_false]
      exact ih (i + 1) acc (by omega)
    | true =>
      simp only [if_true, List.length_cons]
      rw [ih (i + 1) (acc + 1) (by omega)]
      congr 1
      omega

theorem Size_eq (t : HashTable) (h : t.occupied.length = t.tableSize) :
    t.Size = Except.ok t.occupiedSlots.length := by
  unfold Size
  rw [Size_loop_spec t _ 0 0 (by omega), occupiedFrom_zero, Nat.zero_add]

theorem ForEach_loop_spec {σ : Type} (t : HashTable) (fn : σ → Course → σ) :
    ∀ (n i : Nat) (s : σ), i + n ≤ t.occupied.length → i + n ≤ t.table.length →
    ForEach.loop t fn n i s
      = Except.ok (((t.occupiedFrom i n).filterMap (fun j => t.table[j]?)).foldl fn s) := by
  intro n
  induction n with
  | zero => intro i s _ _; simp [ForEach.loop, occupiedFrom]
  | succ n ih =>
    intro i s h1 h2
    have hi1 : i < t.occupied.length := by omega
    have hi2 : i < t.table.length := by omega
    rw [occupiedFrom_succ]
    simp only [ForEach.loop, List.getElem?_eq_getElem hi1]
    cases hb : t.occupied[i] with
    | false =>
      simp only [Option.some.injEq, Bool.false_eq_true, if_false]
      exact ih (i + 1) s (by omega) (by omega)
    | true =>
      simp only [if_true, List.filterMap_cons, List.getElem?_eq_getElem hi2, List.foldl_cons]
      exact ih (i + 1) (fn s t.table[i]) (by omega) (by omega)

theorem ForEach_eq {σ : Type} (t : HashTable) (hs : t.Sized) (fn : σ → Course → σ) (s : σ) :
    t.ForEach fn s = Except.ok (t.payloads.foldl fn s) := by
  unfold ForEach payloads
  rw [ForEach_loop_spec t fn _ 0 s (by rw [hs.2]; omega) (by rw [hs.1]; omega), occupiedFrom_zero]

theorem length_payloads (t : HashTable) (hs : t.Sized) :
    t.payloads.length = t.occupiedSlots.length := by
  unfold payloads
  have : ∀ (l : List Nat), (∀ j ∈ l, j < t.table.length) →
      (l.filterMap (fun j => t.table[j]?)).length = l.length := by
    intro l
    induction l with
    | nil => intro _; rfl
    | cons x xs ih =>
      intro h
      have hx := h x (List.mem_cons_self _ _)
      simp only [List.filterMap_cons, List.getElem?_eq_getElem hx, List.length_cons]
      rw [ih (fun j hj => h j (List.mem_cons_of_mem _ hj))]
  apply this
  intro j hj
  simp only [occupiedSlots, List.mem_filter, List.mem_range] at hj
  rw [hs.1]
  exact hj.1

theorem length_occupiedFrom (t : HashTable) : ∀ (n i : Nat), i + n = t.occupied.length →
    (t.occupiedFrom i n).length = (t.occupied.drop i).count true := by
  intro n
  induction n with
  | zero =>
    intro i h
    simp [occupiedFrom, List.drop_eq_nil_of_le (show t.occupied.length ≤ i by omega)]
  | succ n ih =>
    intro i h
    have hi : i < t.occupied.length := by omega
    rw [occupiedFrom_succ, List.drop_eq_getElem_cons hi, List.getElem?_eq_getElem hi]
    cases hb : t.occupied[i] with
    | false =>
      simp only [Option.some.injEq, Bool.false_eq_true, if_false]
      rw [ih (i + 1) (by omega)]
      simp
    | true =>
      simp only [if_true, List.length_cons]
      rw [ih (i + 1) (by omega)]
      simp

theorem length_occupiedSlots (t : HashTable) (h : t.occupied.length = t.tableSize) :
    t.occupiedSlots.length = t.occupied.count true := by
  rw [← occupiedFrom_zero, length_occupiedFrom t _ 0 (by omega)]
  simp

theorem occupiedSlots_Construct (n : Nat) : (Construct n).occupiedSlots = [] := by
  unfold occupiedSlots
  rw [List.filter_eq_nil_iff]
  intro j _
  simp only [Construct, List.getElem?_replicate]
  split_ifs <;> simp

theorem mem_occupiedSlots (t : HashTable) (j : Nat) :
    j ∈ t.occupiedSlots ↔ j < t.tableSize ∧ t.occupied[j]? = some true := by
  simp [occupiedSlots, List.mem_filter, List.mem_range]

theorem occupiedSlots_sorted (t : HashTable) : t.occupiedSlots.Pairwise (· < ·) := by
  unfold occupiedSlots
  exact List.Pairwise.filter _ (List.pairwise_lt_range _)

theorem Size_put (t : HashTable) (hw : t.WF) (course : Course) (k : Nat)
    (hk : k < t.tableSize) (hfree : t.occupied[k]? = some false) :
    (t.put k course).Size = Except.ok (t.occupied.count true + 1) := by
  have hw' := WF_put t hw k course
  rw [Size_eq _ hw'.2.1, length_occupiedSlots _ hw'.2.1, count_put t hw course k hk hfree]

/-! ### The payloads as a collection -/

theorem Sized_of_WF (t : HashTable) (hw : t.WF) : t.Sized := ⟨hw.1, hw.2.1⟩

theorem mem_payloads (t : HashTable) (hs : t.Sized) (r : Course) :
    r ∈ t.payloads ↔ ∃ k, t.Holds k r := by
  unfold payloads
  rw [List.mem_filterMap]
  constructor
  · rintro ⟨j, hj, hr⟩
    exact ⟨j, ((mem_occupiedSlots t j).mp hj).2, hr⟩
  · rintro ⟨k, ho, hr⟩
    refine ⟨k, (mem_occupiedSlots t k).mpr ⟨?_, ho⟩, hr⟩
    obtain ⟨hlt, _⟩ := List.getElem?_eq_some_iff.mp ho
    rw [← hs.2]
    exact hlt

theorem nodup_payloads (t : HashTable) (hinj : t.Inj) : t.payloads.Nodup := by
  unfold payloads occupiedSlots
  rw [List.filterMap_filter]
  refine List.Nodup.filterMap ?_ (List.nodup_range _)
  intro a a' b ha ha'
  simp only [Option.mem_def] at ha ha'
  by_cases h1 : t.occupied[a]? = some true
  · by_cases h2 : t.occupied[a']? = some true
    · simp only [h1, h2, decide_True, if_true] at ha ha'
      exact hinj a a' b b ⟨h1, ha⟩ ⟨h2, ha'⟩ rfl
    · simp [h2] at ha'
  · simp [h1] at ha

theorem payloads_insertAll (c : Nat) (rs : List Course) (hc2 : c < 2 ^ 32)
    (hn : rs.length ≤ c) (hd : (rs.map Course.number).Nodup) :
    ∃ t, (Construct c).insertAll rs = Except.ok (t, []) ∧ t.Sized ∧ t.payloads.Perm rs := by
  cases rs with
  | nil =>
    refine ⟨Construct c, rfl, ⟨by simp [Construct], by simp [Construct]⟩, ?_⟩
    unfold payloads
    rw [occupiedSlots_Construct]
    exact List.Perm.refl _
  | cons r rs' =>
    have hc1 : 1 ≤ c := by
      simp only [List.length_cons] at hn
      omega
    have hw := WF_Construct c hc1 hc2
    obtain ⟨t, h1, h2, _, h4, _, _, h7⟩ :=
      insertAll_distinct (r :: rs') (Construct c) hw
        (fun k r h => absurd h (not_Holds_Construct c k r))
        (fun k₁ _ r₁ _ h => absurd h (not_Holds_Construct c k₁ r₁))
        hd
        (fun k r h => absurd h (not_Holds_Construct c k r))
        (by
          have : (Construct c).occupied.count true = 0 := by
            simp [Construct, List.count_replicate]
          rw [this]
          show 0 + (r :: rs').length ≤ c
          omega)
    obtain ⟨t', out, g1, _, _, g4⟩ := insertAll_total (r :: rs') (Construct c) hw
    have ht : t' = t := by
      rw [h1] at g1
      injection g1 with g1
      injection g1 with g1 _
      exact g1.symm
    subst ht
    refine ⟨t', h1, Sized_of_WF t' h2, ?_⟩
    rw [List.perm_ext_iff_of_nodup (nodup_payloads t' h4) (List.Nodup.of_map _ hd)]
    intro a
    rw [mem_payloads t' (Sized_of_WF t' h2)]
    constructor
    · rintro ⟨k, hk⟩
      rcases g4 k a hk with h | h
      · exact absurd h (not_Holds_Construct c k a)
      · exact h
    · intro ha
      exact h7 a ha

theorem count_Construct (c : Nat) : (Construct c).occupied.count true = 0 := by
  simp [Construct, List.count_replicate]

/-! ### Any sequence of `Insert` calls, and the value of `hash` -/

theorem Chain_Construct (c : Nat) : (Construct c).Chain :=
  fun k r h => absurd h (not_Holds_Construct c k r)

theorem Chain_insertAll (rs : List Course) : ∀ (t : HashTable), t.WF → t.Chain →
    ∃ t' out, t.insertAll rs = Except.ok (t', out) ∧ t'.WF ∧ t'.Chain ∧
      t'.tableSize = t.tableSize := by
  induction rs with
  | nil => intro t hw hch; exact ⟨t, [], rfl, hw, hch, rfl⟩
  | cons c cs ih =>
    intro t hw hch
    rcases Insert_spec t hw c with ⟨j, hj, hfree, hocc, hins⟩ | ⟨_, hins⟩
    · obtain ⟨t', out, h1, h2, h3, h4⟩ :=
        ih (t.put ((home t.tableSize c.number + j) % t.tableSize) c) (WF_put t hw _ c)
          (Chain_put t hw hch c j hj hfree hocc)
      refine ⟨t', [] ++ out, ?_, h2, h3, h4⟩
      simp only [insertAll]
      rw [hins]
      simp only [put] at h1
      simp only [h1]
    · obtain ⟨t', out, h1, h2, h3, h4⟩ := ih t hw hch
      refine ⟨t', ["Error: Hash table is full."] ++ out, ?_, h2, h3, h4⟩
      simp only [insertAll]
      rw [hins]
      simp only [h1]

theorem Search_loop_total (t : HashTable) (hw : t.WF) (q : CString) (h : Nat)
    (hh : h < t.tableSize) :
    ∀ (fuel j : Nat), j < t.tableSize → t.tableSize ≤ fuel + j →
      ∃ r, Search.loop t q h fuel ((h + j) % t.tableSize) = Except.ok r := by
  intro fuel
  induction fuel with
  | zero => intro j hj hf; omega
  | succ fuel ih =>
    intro j hj hf
    have hlt := probe_lt t.tableSize h j hw.2.2.1
    rcases occupied_cases t hw _ hlt with ho | ho
    · obtain ⟨r, hr⟩ := table_some t hw _ hlt
      by_cases hq : r.number = q
      · exact ⟨r, by simp only [Search.loop, ho, hr, if_pos hq]⟩
      · simp only [Search.loop, ho, hr, if_neg hq, probe_next t.tableSize h j hw.2.2.2 hh hj]
        by_cases hwrap : (h + (j + 1)) % t.tableSize = h
        · exact ⟨Course.default, by rw [if_pos hwrap]⟩
        · rw [if_neg hwrap]
          have hj' : j + 1 < t.tableSize := by
            have := mt (probe_wrap _ _ _ hh hj).mpr hwrap
            omega
          exact ih (j + 1) hj' (by omega)
    · exact ⟨Course.default, by simp only [Search.loop, ho]⟩

theorem Search_total (t : HashTable) (hw : t.WF) (q : CString) :
    ∃ r, t.Search q = Except.ok r := by
  unfold Search
  simp only [hash_eq t _ hw.2.2.1]
  have hh := home_lt t.tableSize (q.map toupper) hw.2.2.1
  have := Search_loop_total t hw (q.map toupper) _ hh t.tableSize 0 hw.2.2.1 (by omega)
  rwa [Nat.add_zero, Nat.mod_eq_of_lt hh] at this

theorem toUnsigned_wrapInt (x : Int) : toUnsigned (wrapInt x) = toUnsigned x := by
  unfold toUnsigned wrapInt
  congr 1
  omega

theorem toUnsigned_congr (x y : Int) (h : x % 2 ^ 32 = y % 2 ^ 32) :
    toUnsigned x = toUnsigned y := by
  unfold toUnsigned
  rw [h]

theorem hash_sum_foldl (key : CString) : ∀ (s : Int),
    (key.foldl (fun sum ch => wrapInt (sum + charToInt ch)) s) % 2 ^ 32
      = (s + (key.map charToInt).sum) % 2 ^ 32 := by
  induction key with
  | nil => intro s; simp
  | cons ch rest ih =>
    intro s
    simp only [List.foldl_cons, List.map_cons, List.sum_cons]
    rw [ih]
    have : wrapInt (s + charToInt ch) % 2 ^ 32 = (s + charToInt ch) % 2 ^ 32 := by
      unfold wrapInt
      omega
    rw [Int.add_emod, this, ← Int.add_emod, Int.add_assoc]

theorem hash_sum_eq (key : CString) :
    toUnsigned (hash.sum key) = ((key.map charToInt).sum % 2 ^ 32).toNat := by
  unfold toUnsigned hash.sum
  rw [hash_sum_foldl, Int.zero_add]

theorem charToInt_of_lt (ch : CChar) (h : ch.val < 128) : charToInt ch = (ch.val : Int) := by
  unfold charToInt
  rw [if_pos h]

theorem sum_charToInt (key : CString) (h : ∀ ch ∈ key, ch.val < 128) :
    (key.map charToInt).sum = ((key.map (fun ch => ch.val)).sum : Nat) := by
  induction key with
  | nil => rfl
  | cons ch rest ih =>
    simp only [List.map_cons, List.sum_cons, Nat.cast_add]
    rw [ih (fun x hx => h x (List.mem_cons_of_mem _ hx)),
      charToInt_of_lt ch (h ch (List.mem_cons_self _ _))]

/-! ### What `Search` returns, and the length of the probe loops -/

theorem Search_loop_match (t : HashTable) (q : CString) (h : Nat) :
    ∀ (fuel key : Nat) (c : Course), Search.loop t q h fuel key = Except.ok c → c.number ≠ [] →
      ∃ i, t.Holds i c ∧ c.number = q := by
  intro fuel
  induction fuel with
  | zero =>
    intro key c hs _
    exact Except.noConfusion hs
  | succ fuel ih =>
    intro key c hs hne
    unfold Search.loop at hs
    split at hs
    · exact Except.noConfusion hs
    · injection hs with hs
      exact absurd (by rw [← hs]; rfl) hne
    · rename_i ho
      split at hs
      · exact Except.noConfusion hs
      · rename_i r hr
        split at hs
        · rename_i hq
          injection hs with hs
          subst hs
          exact ⟨key, ⟨ho, hr⟩, hq⟩
        · simp only at hs
          split at hs
          · injection hs with hs
            exact absurd (by rw [← hs]; rfl) hne
          · exact ih _ c hs hne

theorem Search_match (t : HashTable) (q : CString) (c : Course)
    (hs : t.Search q = Except.ok c) (hne : c.number ≠ []) :
    ∃ i, t.Holds i c ∧ c.number = ToUpperCopy q := by
  unfold Search at hs
  simp only at hs
  split at hs
  · exact Except.noConfusion hs
  · exact Search_loop_match t _ _ _ _ c hs hne

theorem Insert_loop_stop (t : HashTable) (hw : t.WF) (h : Nat) (hh : h < t.tableSize)
    (m : Nat) (hm : m < t.tableSize)
    (hfree : t.occupied[(h + m) % t.tableSize]? = some false)
    (hpre : ∀ i, i < m → t.occupied[(h + i) % t.tableSize]? = some true) :
    ∀ (fuel j : Nat), j ≤ m → m - j < fuel →
      Insert.loop t h fuel ((h + j) % t.tableSize)
        = Except.ok (some ((h + m) % t.tableSize)) := by
  intro fuel
  induction fuel with
  | zero => intro j _ hf; omega
  | succ fuel ih =>
    intro j hj hf
    by_cases hjm : j = m
    · subst hjm
      simp only [Insert.loop, hfree]
    · have hjc : j < t.tableSize := by omega
      simp only [Insert.loop, hpre j (by omega), probe_next t.tableSize h j hw.2.2.2 hh hjc]
      have hwrap : ¬ (h + (j + 1)) % t.tableSize = h := by
        rw [probe_wrap _ _ _ hh hjc]; omega
      rw [if_neg hwrap]
      exact ih (j + 1) (by omega) (by omega)

theorem Insert_loop_full (t : HashTable) (hw : t.WF) (h : Nat) (hh : h < t.tableSize)
    (hocc : ∀ i, i < t.tableSize → t.occupied[(h + i) % t.tableSize]? = some true) :
    ∀ (fuel j : Nat), j < t.tableSize → t.tableSize - j ≤ fuel →
      Insert.loop t h fuel ((h + j) % t.tableSize) = Except.ok none := by
  intro fuel
  induction fuel with
  | zero => intro j hj hf; omega
  | succ fuel ih =>
    intro j hj hf
    simp only [Insert.loop, hocc j hj, probe_next t.tableSize h j hw.2.2.2 hh hj]
    by_cases hlast : j + 1 = t.tableSize
    · rw [if_pos ((probe_wrap _ _ _ hh hj).mpr hlast)]
    · have hwrap : ¬ (h + (j + 1)) % t.tableSize = h := by
        rw [probe_wrap _ _ _ hh hj]; exact hlast
      rw [if_neg hwrap]
      exact ih (j + 1) (by omega) (by omega)

theorem Search_loop_stop_match (t : HashTable) (hw : t.WF) (q : CString) (h : Nat)
    (hh : h < t.tableSize) (m : Nat) (hm : m < t.tableSize) (r : Course)
    (hr : t.Holds ((h + m) % t.tableSize) r) (hq : r.number = q)
    (hpre : ∀ i, i < m → ∃ r', t.Holds ((h + i) % t.tableSize) r' ∧ r'.number ≠ q) :
    ∀ (fuel j : Nat), j ≤ m → m - j < fuel →
      Search.loop t q h fuel ((h + j) % t.tableSize) = Except.ok r := by
  intro fuel
  induction fuel with
  | zero => intro j _ hf; omega
  | succ fuel ih =>
    intro j hj hf
    by_cases hjm : j = m
    · subst hjm
      simp only [Search.loop, hr.1, hr.2, if_pos hq]
    · obtain ⟨r', hr', hne⟩ := hpre j (by omega)
      have hjc : j < t.tableSize := by omega
      simp only [Search.loop, hr'.1, hr'.2, if_neg hne,
        probe_next t.tableSize h j hw.2.2.2 hh hjc]
      have hwrap : ¬ (h + (j + 1)) % t.tableSize = h := by
        rw [probe_wrap _ _ _ hh hjc]; omega
      rw [if_neg hwrap]
      exact ih (j + 1) (by omega) (by omega)

theorem Search_loop_stop_free (t : HashTable) (hw : t.WF) (q : CString) (h : Nat)
    (hh : h < t.tableSize) (m : Nat) (hm : m < t.tableSize)
    (hfree : t.occupied[(h + m) % t.tableSize]? = some false)
    (hpre : ∀ i, i < m → ∃ r', t.Holds ((h + i) % t.tableSize) r' ∧ r'.number ≠ q) :
    ∀ (fuel j : Nat), j ≤ m → m - j < fuel →
      Search.loop t q h fuel ((h + j) % t.tableSize) = Except.ok Course.default := by
  intro fuel
  induction fuel with
  | zero => intro j _ hf; omega
  | succ fuel ih =>
    intro j hj hf
    by_cases hjm : j = m
    · subst hjm
      simp only [Search.loop, hfree]
    · obtain ⟨r', hr', hne⟩ := hpre j (by omega)
      have hjc : j < t.tableSize := by omega
      simp only [Search.loop, hr'.1, hr'.2, if_neg hne,
        probe_next t.tableSize h j hw.2.2.2 hh hjc]
      have hwrap : ¬ (h + (j + 1)) % t.tableSize = h := by
        rw [probe_wrap _ _ _ hh hjc]; omega
      rw [if_neg hwrap]
      exact ih (j + 1) (by omega) (by omega)

theorem Search_loop_full (t : HashTable) (hw : t.WF) (q : CString) (h : Nat)
    (hh : h < t.tableSize)
    (hocc : ∀ i, i < t.tableSize → ∃ r', t.Holds ((h + i) % t.tableSize) r' ∧ r'.number ≠ q) :
    ∀ (fuel j : Nat), j < t.tableSize → t.tableSize - j ≤ fuel →
      Search.loop t q h fuel ((h + j) % t.tableSize) = Except.ok Course.default := by
  intro fuel
  induction fuel with
  | zero => intro j hj hf; omega
  | succ fuel ih =>
    intro j hj hf
    obtain ⟨r', hr', hne⟩ := hocc j hj
    simp only [Search.loop, hr'.1, hr'.2, if_neg hne,
      probe_next t.tableSize h j hw.2.2.2 hh hj]
    by_cases hlast : j + 1 = t.tableSize
    · rw [if_pos ((probe_wrap _ _ _ hh hj).mpr hlast)]
    · have hwrap : ¬ (h + (j + 1)) % t.tableSize = h := by
        rw [probe_wrap _ _ _ hh hj]; exact hlast
      rw [if_neg hwrap]
      exact ih (j + 1) (by omega) (by omega)

/-- The probe loop of `Insert` from the home slot `h`: it is left after the test
of slot number `m` of the probe path, at most the last of the round. -/
theorem Insert_loop_bound (t : HashTable) (hw : t.WF) (h : Nat) (hh : h < t.tableSize) :
    ∃ m res, m < t.tableSize ∧
      (∀ fuel, m < fuel → Insert.loop t h fuel h = Except.ok res) ∧
      ((res = some ((h + m) % t.tableSize) ∧
          t.occupied[(h + m) % t.tableSize]? = some false ∧
          ∀ i, i < m → t.occupied[(h + i) % t.tableSize]? = some true) ∨
        (res = none ∧ m + 1 = t.tableSize ∧
          ∀ k, k < t.tableSize → t.occupied[k]? = some true)) := by
  have h0 : (h + 0) % t.tableSize = h := by rw [Nat.add_zero, Nat.mod_eq_of_lt hh]
  by_cases hex : ∃ m, m < t.tableSize ∧ t.occupied[(h + m) % t.tableSize]? = some false
  · classical
    have hm := Nat.find_spec hex
    have hmin := fun i (hi : i < Nat.find hex) => Nat.find_min hex hi
    have hpre : ∀ i, i < Nat.find hex → t.occupied[(h + i) % t.tableSize]? = some true := by
      intro i hi
      rcases occupied_cases t hw _ (probe_lt t.tableSize h i hw.2.2.1) with ho | ho
      · exact ho
      · exact absurd ⟨by omega, ho⟩ (hmin i hi)
    refine ⟨Nat.find hex, _, hm.1, ?_, Or.inl ⟨rfl, hm.2, hpre⟩⟩
    intro fuel hf
    have := Insert_loop_stop t hw h hh _ hm.1 hm.2 hpre fuel 0 (Nat.zero_le _) (by omega)
    rwa [h0] at this
  · have hocc : ∀ i, i < t.tableSize → t.occupied[(h + i) % t.tableSize]? = some true := by
      intro i hi
      rcases occupied_cases t hw _ (probe_lt t.tableSize h i hw.2.2.1) with ho | ho
      · exact ho
      · exact absurd ⟨i, hi, ho⟩ hex
    refine ⟨t.tableSize - 1, none, by have := hw.2.2.1; omega, ?_, Or.inr ⟨rfl, ?_, ?_⟩⟩
    · intro fuel hf
      have := Insert_loop_full t hw h hh hocc fuel 0 hw.2.2.1 (by omega)
      rwa [h0] at this
    · have := hw.2.2.1; omega
    · intro k hk
      obtain ⟨i, hi, e⟩ := probe_surj t.tableSize h k hh hk
      rw [← e]
      exact hocc i hi

/-- The probe loop of `Search` from the home slot `h`: it is left after the test
of slot number `m` of the probe path, at most the last of the round. -/
theorem Search_loop_bound (t : HashTable) (hw : t.WF) (q : CString) (h : Nat)
    (hh : h < t.tableSize) :
    ∃ m res, m < t.tableSize ∧
      (∀ fuel, m < fuel → Search.loop t q h fuel h = Except.ok res) ∧
      (∀ i, i < m → ∃ r', t.Holds ((h + i) % t.tableSize) r' ∧ r'.number ≠ q) ∧
      ((t.Holds ((h + m) % t.tableSize) res ∧ res.number = q) ∨
        (res = Course.default ∧ t.occupied[(h + m) % t.tableSize]? = some false) ∨
        (res = Course.default ∧ m + 1 = t.tableSize ∧
          ∃ r', t.Holds ((h + m) % t.tableSize) r' ∧ r'.number ≠ q)) := by
  have h0 : (h + 0) % t.tableSize = h := by rw [Nat.add_zero, Nat.mod_eq_of_lt hh]
  have hslot : ∀ i, i < t.tableSize →
      t.occupied[(h + i) % t.tableSize]? = some false ∨
        (∃ r, t.Holds ((h + i) % t.tableSize) r ∧ r.number = q) ∨
        (∃ r', t.Holds ((h + i) % t.tableSize) r' ∧ r'.number ≠ q) := by
    intro i _
    have hlt := probe_lt t.tableSize h i hw.2.2.1
    rcases occupied_cases t hw _ hlt with ho | ho
    · obtain ⟨r, hr⟩ := table_some t hw _ hlt
      by_cases e : r.number = q
      · exact Or.inr (Or.inl ⟨r, ⟨ho, hr⟩, e⟩)
      · exact Or.inr (Or.inr ⟨r, ⟨ho, hr⟩, e⟩)
    · exact Or.inl ho
  by_cases hex : ∃ m, m < t.tableSize ∧
      (t.occupied[(h + m) % t.tableSize]? = some false ∨
        ∃ r, t.Holds ((h + m) % t.tableSize) r ∧ r.number = q)
  · classical
    have hm := Nat.find_spec hex
    have hmin := fun i (hi : i < Nat.find hex) => Nat.find_min hex hi
    have hpre : ∀ i, i < Nat.find hex →
        ∃ r', t.Holds ((h + i) % t.tableSize) r' ∧ r'.number ≠ q := by
      intro i hi
      have hic : i < t.tableSize := by omega
      rcases hslot i hic with ho | ho | ho
      · exact absurd ⟨hic, Or.inl ho⟩ (hmin i hi)
      · exact absurd ⟨hic, Or.inr ho⟩ (hmin i hi)
      · exact ho
    rcases hm.2 with hfree | ⟨r, hr, e⟩
    · refine ⟨Nat.find hex, Course.default, hm.1, ?_, hpre, Or.inr (Or.inl ⟨rfl, hfree⟩)⟩
      intro fuel hf
      have := Search_loop_stop_free t hw q h hh _ hm.1 hfree hpre fuel 0 (Nat.zero_le _)
        (by omega)
      rwa [h0] at this
    · refine ⟨Nat.find hex, r, hm.1, ?_, hpre, Or.inl ⟨hr, e⟩⟩
      intro fuel hf
      have := Search_loop_stop_match t hw q h hh _ hm.1 r hr e hpre fuel 0 (Nat.zero_le _)
        (by omega)
      rwa [h0] at this
  · have hocc : ∀ i, i < t.tableSize →
        ∃ r', t.Holds ((h + i) % t.tableSize) r' ∧ r'.number ≠ q := by
      intro i hi
      rcases hslot i hi with ho | ho | ho
      · exact absurd ⟨i, hi, Or.inl ho⟩ hex
      · exact absurd ⟨i, hi, Or.inr ho⟩ hex
      · exact ho
    have hc := hw.2.2.1
    refine ⟨t.tableSize - 1, Course.default, by omega, ?_, fun i hi => hocc i (by omega),
      Or.inr (Or.inr ⟨rfl, by omega, hocc _ (by omega)⟩)⟩
    intro fuel hf
    have := Search_loop_full t hw q h hh hocc fuel 0 hc (by omega)
    rwa [h0] at this

/-! ### The tree and the table after the same records -/

theorem Search_ToUpperCopy (t : HashTable) (q : CString) :
    t.Search (ToUpperCopy q) = t.Search q := by
  unfold Search
  have : (ToUpperCopy q).map toupper = q.map toupper := RedBlackTree.ToUpperCopy_ToUpperCopy q
  simp only [this]

theorem Search_agrees (c : Nat) (rs : List Course) (hc1 : 1 ≤ c) (hc2 : c < 2 ^ 32)
    (hn : rs.length ≤ c) (hd : (rs.map Course.number).Nodup)
    (hu : ∀ r ∈ rs, ToUpperCopy r.number = r.number) :
    ∃ t, (Construct c).insertAll rs = Except.ok (t, []) ∧
      ∀ q, t.Search q = Except.ok ((RedBlackTree.insertAll rs).Search q) := by
  have hw := WF_Construct c hc1 hc2
  obtain ⟨t, h1, h2, h3, h4, _, _, h7⟩ :=
    insertAll_distinct rs (Construct c) hw
      (fun k r h => absurd h (not_Holds_Construct c k r))
      (fun k₁ _ r₁ _ h => absurd h (not_Holds_Construct c k₁ r₁))
      hd
      (fun k r h => absurd h (not_Holds_Construct c k r))
      (by
        rw [count_Construct]
        show 0 + rs.length ≤ c
        omega)
  obtain ⟨t', out, g1, _, _, g4⟩ := insertAll_total rs (Construct c) hw
  rw [h1] at g1
  injection g1 with g1
  injection g1 with g1 _
  subst g1
  have hk : rs.map ukey = rs.map Course.number :=
    List.map_congr_left (fun r hr => hu r hr)
  refine ⟨t, h1, ?_⟩
  intro q
  by_cases hex : ∃ r ∈ rs, r.number = ToUpperCopy q
  · obtain ⟨r, hr, e⟩ := hex
    obtain ⟨k, hk'⟩ := h7 r hr
    rw [RedBlackTree.Search_insertAll_of_mem rs (hk ▸ hd) r hr q (by rw [ukey, hu r hr, e]),
      ← Search_ToUpperCopy, ← e]
    exact Search_stored t h2 h3 h4 k r hk' (hu r hr)
  · rw [RedBlackTree.Search_insertAll_of_not_mem rs q
      (fun x hx e => hex ⟨x, hx, by rw [← hu x hx]; exact e⟩)]
    apply Search_absent t h2
    intro k r hr e
    rcases g4 k r hr with h | h
    · exact not_Holds_Construct c k r h
    · exact hex ⟨r, h, e⟩

/-! ### Lookups before and after an `Insert` -/

end HashTable

/-! ## The loader and the benchmark -/

namespace Benchmark

theorem getline_firstField (ch : CChar) (rest : CString) :
    ∃ unread, getline comma (ch :: rest) = some (firstField (ch :: rest), unread) := by
  induction rest generalizing ch with
  | nil =>
    by_cases h : ch = comma
    · exact ⟨[], by simp [getline, firstField, h]⟩
    · exact ⟨[], by simp [getline, firstField, h]⟩
  | cons x xs ih =>
    by_cases h : ch = comma
    · exact ⟨x :: xs, by simp [getline, firstField, h]⟩
    · obtain ⟨unread, hu⟩ := ih x
      refine ⟨unread, ?_⟩
      rw [getline, if_neg h, hu]
      simp [firstField, h]

theorem LoadCourseNumbersOnly_loop_eq (lines : List CString) : ∀ (out : List CString),
    LoadCourseNumbersOnly.loop lines out = out ++ sourceKeys (some lines) := by
  induction lines with
  | nil => intro out; simp [LoadCourseNumbersOnly.loop, sourceKeys]
  | cons line rest ih =>
    intro out
    cases line with
    | nil =>
      simp only [LoadCourseNumbersOnly.loop, if_true]
      rw [ih]
      simp [sourceKeys]
    | cons ch cs =>
      obtain ⟨unread, hu⟩ := getline_firstField ch cs
      simp only [LoadCourseNumbersOnly.loop, hu]
      rw [if_neg (List.cons_ne_nil _ _)]
      by_cases hk : firstField (ch :: cs) = []
      · simp only [hk, ne_eq, not_true_eq_false, if_false]
        rw [ih]
        simp [sourceKeys, hk]
      · simp only [ne_eq, hk, not_false_eq_true, if_true]
        rw [ih]
        simp [sourceKeys, hk]

theorem LoadCourseNumbersOnly_eq (file : FileContent) :
    LoadCourseNumbersOnly file = sourceKeys file := by
  cases file with
  | none => rfl
  | some lines => simp [LoadCourseNumbersOnly, LoadCourseNumbersOnly_loop_eq]

end Benchmark

namespace Benchmark

theorem rfind_zero (s str : CString) : rfind s str 0 = some 0 ↔ str <+: s := by
  have hr : (List.range (0 + 1)).reverse = [0] := rfl
  unfold rfind
  rw [List.prefix_iff_eq_take, hr]
  by_cases h : s.take str.length = str
  · simp [List.find?, h]
  · have h' : ¬ str = s.take str.length := fun e => h e.symm
    simp [List.find?, h, h']

theorem foldl_visit (pfx : CString) (l : List Course) : ∀ (count : Nat),
    l.foldl (MeasurePrefixCountMs.visit pfx) count
      = count + (l.filter (fun r => decide (pfx <+: r.number))).length := by
  induction l with
  | nil => intro count; rfl
  | cons x xs ih =>
    intro count
    simp only [List.foldl_cons, List.filter_cons, ih, MeasurePrefixCountMs.visit, rfind_zero]
    by_cases h : pfx <+: x.number
    · simp [h]; omega
    · simp [h]

theorem length_filter_perm {l₁ l₂ : List Course} (h : l₁.Perm l₂) (p : Course → Bool) :
    (l₁.filter p).length = (l₂.filter p).length := by
  rw [← List.countP_eq_length_filter, ← List.countP_eq_length_filter]
  exact h.countP_eq p

end Benchmark

namespace Benchmark

theorem HashTable_loadCourses_loop (lines : List CString) :
    ∀ (t : HashTable) (n : Nat) (out : List String) (t' : HashTable) (w : List String),
      t.insertAll (loadCourses.courses lines) = Except.ok (t', w) →
      ∃ out', HashTable.loadCourses.loop t lines n out = Except.ok (t', out') := by
  induction lines with
  | nil =>
    intro t n out t' w h
    simp only [loadCourses.courses, List.filterMap_nil, HashTable.insertAll] at h
    injection h with h
    injection h with h _
    exact ⟨out, by rw [HashTable.loadCourses.loop, h]⟩
  | cons line rest ih =>
    intro t n out t' w h
    cases hl : loadCourses.line line with
    | skipped =>
      simp only [loadCourses.courses, List.filterMap_cons, hl] at h
      simp only [HashTable.loadCourses.loop, hl]
      exact ih t _ _ t' w h
    | warned =>
      simp only [loadCourses.courses, List.filterMap_cons, hl] at h
      simp only [HashTable.loadCourses.loop, hl]
      exact ih t _ _ t' w h
    | course c =>
      simp only [loadCourses.courses, List.filterMap_cons, hl, HashTable.insertAll] at h
      simp only [HashTable.loadCourses.loop, hl]
      cases hi : t.Insert c with
      | error e => rw [hi] at h; exact Except.noConfusion h
      | ok p =>
        obtain ⟨t₁, o₁⟩ := p
        rw [hi] at h
        simp only at h ⊢
        cases hr : t₁.insertAll (List.filterMap (fun line =>
            match loadCourses.line line with
            | loadCourses.Outcome.course c => some c
            | _ => none) rest) with
        | error e => rw [hr] at h; exact Except.noConfusion h
        | ok q =>
          obtain ⟨t₂, o₂⟩ := q
          rw [hr] at h
          simp only at h
          injection h with h
          injection h with h _
          subst h
          exact ih t₁ _ _ t₂ o₂ hr

theorem RedBlackTree_loadCourses_loop (lines : List CString) :
    ∀ (t : RedBlackTree) (n : Nat) (out : List String),
      (RedBlackTree.loadCourses.loop t lines n out).1
        = (loadCourses.courses lines).foldl RedBlackTree.Insert t := by
  induction lines with
  | nil => intro t n out; rfl
  | cons line rest ih =>
    intro t n out
    cases hl : loadCourses.line line with
    | skipped => simp only [RedBlackTree.loadCourses.loop, hl, loadCourses.courses,
        List.filterMap_cons]; exact ih t _ _
    | warned => simp only [RedBlackTree.loadCourses.loop, hl, loadCourses.courses,
        List.filterMap_cons]; exact ih t _ _
    | course c => simp only [RedBlackTree.loadCourses.loop, hl, loadCourses.courses,
        List.filterMap_cons, List.foldl_cons]; exact ih _ _ _

end Benchmark

namespace Benchmark

theorem getline_spec (delim : CChar) (s : CString) : ∀ (str unread : CString),
    getline delim s = some (str, unread) →
      delim ∉ str ∧ ((s = str ∧ unread = []) ∨ s = str ++ delim :: unread) := by
  induction s with
  | nil => intro str unread h; simp [getline] at h
  | cons ch rest ih =>
    intro str unread h
    rw [getline] at h
    by_cases hd : ch = delim
    · rw [if_pos hd] at h
      simp only [Option.some.injEq, Prod.mk.injEq] at h
      obtain ⟨h1, h2⟩ := h
      subst h1 h2 hd
      exact ⟨List.not_mem_nil _, Or.inr rfl⟩
    · rw [if_neg hd] at h
      cases hg : getline delim rest with
      | none =>
        rw [hg] at h
        simp only [Option.some.injEq, Prod.mk.injEq] at h
        obtain ⟨h1, h2⟩ := h
        subst h1 h2
        cases rest with
        | nil => exact ⟨by simpa using fun e => hd e.symm, Or.inl ⟨rfl, rfl⟩⟩
        | cons x xs =>
          rw [getline] at hg
          split_ifs at hg
          cases hx : getline delim xs <;> rw [hx] at hg <;> simp at hg
      | some p =>
        obtain ⟨str', unread'⟩ := p
        rw [hg] at h
        simp only [Option.some.injEq, Prod.mk.injEq] at h
        obtain ⟨h1, h2⟩ := h
        subst h1 h2
        obtain ⟨i1, i2⟩ := ih str' unread' hg
        refine ⟨?_, ?_⟩
        · intro hm
          rcases List.mem_cons.mp hm with hm | hm
          · exact hd hm.symm
          · exact i1 hm
        · rcases i2 with ⟨i2, i3⟩ | i2
          · exact Or.inl ⟨by rw [i2], i3⟩
          · exact Or.inr (by rw [i2]; rfl)

theorem line_course (line : CString) (c : Course)
    (h : loadCourses.line line = loadCourses.Outcome.course c) :
    c.number ≠ [] ∧ c.title ≠ [] ∧ comma ∉ c.number ∧ comma ∉ c.title ∧
      (c.number ++ comma :: c.title) <+: line := by
  unfold loadCourses.line at h
  split_ifs at h with h0
  cases h1 : getline comma line with
  | none => rw [h1] at h; exact loadCourses.Outcome.noConfusion h
  | some p =>
    obtain ⟨courseNumber, ss⟩ := p
    rw [h1] at h
    simp only at h
    cases h2 : getline comma ss with
    | none => rw [h2] at h; exact loadCourses.Outcome.noConfusion h
    | some q =>
      obtain ⟨courseName, ss'⟩ := q
      rw [h2] at h
      simp only at h
      split_ifs at h with h3
      simp only [loadCourses.Outcome.course.injEq] at h
      subst h
      simp only [not_or] at h3
      obtain ⟨a1, a2⟩ := getline_spec comma line courseNumber ss h1
      obtain ⟨b1, b2⟩ := getline_spec comma ss courseName ss' h2
      refine ⟨h3.1, h3.2, a1, b1, ?_⟩
      rcases a2 with ⟨_, a3⟩ | a2
      · rw [a3] at h2
        simp [getline] at h2
      · rw [a2]
        rcases b2 with ⟨b2, _⟩ | b2
        · rw [b2]
        · rw [b2]
          exact ⟨comma :: ss', by simp⟩

theorem mem_courses (lines : List CString) (c : Course) :
    c ∈ loadCourses.courses lines ↔
      ∃ line ∈ lines, loadCourses.line line = loadCourses.Outcome.course c := by
  unfold loadCourses.courses
  rw [List.mem_filterMap]
  constructor
  · rintro ⟨line, hl, h⟩
    refine ⟨line, hl, ?_⟩
    cases ho : loadCourses.line line with
    | skipped => rw [ho] at h; simp at h
    | warned => rw [ho] at h; simp at h
    | course c' =>
      rw [ho] at h
      simp only [Option.some.injEq] at h
      rw [h]
  · rintro ⟨line, hl, h⟩
    exact ⟨line, hl, by rw [h]⟩

theorem HashTable_loadCourses_loop_table (lines : List CString) :
    ∀ (t : HashTable) (n : Nat) (out : List String),
      Except.map Prod.fst (HashTable.loadCourses.loop t lines n out)
        = Except.map Prod.fst (t.insertAll (loadCourses.courses lines)) := by
  induction lines with
  | nil => intro t n out; rfl
  | cons line rest ih =>
    intro t n out
    cases hl : loadCourses.line line with
    | skipped =>
      simp only [HashTable.loadCourses.loop, hl, loadCourses.courses, List.filterMap_cons]
      exact ih t _ _
    | warned =>
      simp only [HashTable.loadCourses.loop, hl, loadCourses.courses, List.filterMap_cons]
      exact ih t _ _
    | course c =>
      simp only [HashTable.loadCourses.loop, hl, loadCourses.courses, List.filterMap_cons,
        HashTable.insertAll]
      cases hi : t.Insert c with
      | error e => rfl
      | ok p =>
        obtain ⟨t₁, o₁⟩ := p
        simp only
        have := ih t₁ (n + 1) (out ++ o₁)
        simp only [loadCourses.courses] at this
        rw [this]
        cases t₁.insertAll (List.filterMap (fun line =>
            match loadCourses.line line with
            | loadCourses.Outcome.course c => some c
            | _ => none) rest) with
        | error e => rfl
        | ok q => rfl

end Benchmark

namespace Benchmark

theorem mixedPhase_decisions {G : Type} (coinFlip : G → ℚ × G)
    (indexDist : Nat → Nat → G → Nat × G) (search : CString → Except Fault Course)
    (hitKeys missKeys : List CString) (mixedHitRatio : ℚ)
    (hh : hitKeys ≠ []) (hm : missKeys ≠ [])
    (hin : ∀ b g, (indexDist 0 b g).1 ≤ b) (hs : ∀ key, ∃ c, search key = Except.ok c)
    (n : Nat) (g : G) :
    ∃ tr, mixedPhase coinFlip indexDist search hitKeys missKeys mixedHitRatio n g
        = Except.ok tr ∧
      tr.map Prod.fst = mixedDecisions coinFlip indexDist mixedHitRatio
        (poolSize hitKeys) (poolSize missKeys) n g := by
  induction n generalizing g with
  | zero => exact ⟨[], rfl, rfl⟩
  | succ n ih =>
    have hph : poolSize hitKeys = hitKeys.length := by simp [poolSize, hh]
    have hpm : poolSize missKeys = missKeys.length := by simp [poolSize, hm]
    have lh : 0 < hitKeys.length := List.length_pos.mpr hh
    have lm : 0 < missKeys.length := List.length_pos.mpr hm
    unfold mixedPhase mixedDecisions
    by_cases hx : (coinFlip g).1 < mixedHitRatio
    · have hi := hin (poolSize hitKeys - 1) (coinFlip g).2
      have hlt : (indexDist 0 (poolSize hitKeys - 1) (coinFlip g).2).1 < hitKeys.length := by
        rw [hph] at hi ⊢
        omega
      obtain ⟨c, hc⟩ := hs (hitKeys[(indexDist 0 (poolSize hitKeys - 1) (coinFlip g).2).1])
      obtain ⟨tr, h1, h2⟩ := ih (indexDist 0 (poolSize hitKeys - 1) (coinFlip g).2).2
      refine ⟨(true, c) :: tr, ?_, ?_⟩
      · simp only [hx, if_true, List.getElem?_eq_getElem hlt, hc, h1]
      · simp only [hx, if_true, List.map_cons, h2]
    · have hi := hin (poolSize missKeys - 1) (coinFlip g).2
      have hlt : (indexDist 0 (poolSize missKeys - 1) (coinFlip g).2).1 < missKeys.length := by
        rw [hpm] at hi ⊢
        omega
      obtain ⟨c, hc⟩ := hs (missKeys[(indexDist 0 (poolSize missKeys - 1) (coinFlip g).2).1])
      obtain ⟨tr, h1, h2⟩ := ih (indexDist 0 (poolSize missKeys - 1) (coinFlip g).2).2
      refine ⟨(false, c) :: tr, ?_, ?_⟩
      · simp only [hx, if_false, List.getElem?_eq_getElem hlt, hc, h1]
      · simp only [hx, if_false, List.map_cons, h2]

end Benchmark

namespace Benchmark

theorem length_mixedDecisions {G : Type} (coinFlip : G → ℚ × G)
    (indexDist : Nat → Nat → G → Nat × G) (mixedHitRatio : ℚ) (hitPoolSize missPoolSize : Nat)
    (n : Nat) (g : G) :
    (mixedDecisions coinFlip indexDist mixedHitRatio hitPoolSize missPoolSize n g).length
      = n := by
  induction n generalizing g with
  | zero => rfl
  | succ n ih =>
    unfold mixedDecisions
    split <;> simp [ih]

end Benchmark

/-! ## The red-black tree: round trip, invariants, order, size -/

/-- C1: after any sequence of `Insert` calls on an empty tree, `Search(q)`
returns exactly the record passed to the last `Insert` whose key equals `q`
case-insensitively: if the sequence is `pre`, then `r`, then `post`, the key of
`r` equals `q` up to case and no key of `post` does, the result is `r`. -/
theorem rbt_search_returns_last_insert (pre post : List Course) (r : Course) (q : CString)
    (hr : ToUpperCopy r.number = ToUpperCopy q)
    (hpost : ∀ x ∈ post, ToUpperCopy x.number ≠ ToUpperCopy q) :
    (RedBlackTree.insertAll (pre ++ r :: post)).Search q = r := by
  induction post using List.reverseRecOn with
  | nil =>
    have hr' : ukey r = ToUpperCopy q := hr
    rw [RedBlackTree.Search_insertAll_append, if_pos hr']
  | append_singleton post x ih =>
    have hx : ¬ ukey x = ToUpperCopy q := hpost x (by simp)
    rw [show pre ++ r :: (post ++ [x]) = (pre ++ r :: post) ++ [x] by simp,
      RedBlackTree.Search_insertAll_append, if_neg hx]
    exact ih (fun y hy => hpost y (by simp [hy]))

/-- Witness of C1: a record inserted under "cs101" is replaced by a later one
under "CS101", another key follows, and the query "Cs101" finds the later one. -/
theorem rbt_search_returns_last_insert_witness :
    (RedBlackTree.insertAll ([mk "cs101" "old"] ++ mk "CS101" "new" :: [mk "CS200" "other"])).Search
      (lit "Cs101") = mk "CS101" "new" :=
  rbt_search_returns_last_insert [mk "cs101" "old"] [mk "CS200" "other"] (mk "CS101" "new")
    (lit "Cs101") (by decide) (by decide)

/-- C3: after any sequence of `Insert` calls on an empty tree, duplicates
included, no RED node has a RED parent. -/
theorem rbt_no_red_red (cs : List Course) :
    noRedRed (RedBlackTree.insertAll cs).root = true :=
  (RedBlackTree.Valid_insertAll cs).2.1

/-- C4: after any sequence of `Insert` calls on an empty tree, all paths from
the root to a null child contain the same number of BLACK nodes: there is one
number `h` that the BLACK count of every such path equals. -/
theorem rbt_black_counts_equal (cs : List Course) :
    ∃ h, ∀ a ∈ blackCounts (RedBlackTree.insertAll cs).root, a = h := by
  obtain ⟨_, _, h, hb⟩ := RedBlackTree.Valid_insertAll cs
  exact ⟨h, RedBlackTree.blackCounts_of_Balanced _ h hb⟩

/-- C6: after any non-empty sequence of `Insert` calls on an empty tree the
root exists and is BLACK. -/
theorem rbt_root_black (cs : List Course) (h : cs ≠ []) :
    ∃ d l r, (RedBlackTree.insertAll cs).root = RBTNode.node d Color.BLACK l r := by
  obtain ⟨hr, _, _⟩ := RedBlackTree.Valid_insertAll cs
  have hne : (RedBlackTree.insertAll cs).root ≠ RBTNode.nil := by
    induction cs using List.reverseRecOn with
    | nil => exact absurd rfl h
    | append_singleton cs c _ =>
      rw [RedBlackTree.insertAll_append]
      exact RedBlackTree.Insert_root_ne_nil _ _ (RedBlackTree.Sorted_insertAll cs)
  cases ht : (RedBlackTree.insertAll cs).root with
  | nil => exact absurd ht hne
  | node d c l r =>
    rw [ht] at hr
    cases c with
    | RED => simp [RedBlackTree.isRed] at hr
    | BLACK => exact ⟨d, l, r, rfl⟩

/-- Witness of C6: three inserts, the last a duplicate up to case. -/
theorem rbt_root_black_witness :
    ∃ d l r, (RedBlackTree.insertAll [mk "CS200" "a", mk "CS050" "b", mk "cs200" "c"]).root
      = RBTNode.node d Color.BLACK l r :=
  rbt_root_black [mk "CS200" "a", mk "CS050" "b", mk "cs200" "c"] (by decide)

/-- C7: for a tree reached by `Insert` calls and a record `r`: if a stored key
equals the key of `r` case-insensitively, `Insert(r)` leaves `Size()`
unchanged, otherwise it increases `Size()` by one; and `Size()` is the number
of case-insensitively distinct keys inserted. -/
theorem rbt_size_insert (cs : List Course) (r : Course) :
    ((∃ x ∈ (RedBlackTree.insertAll cs).visited, ToUpperCopy x.number = ToUpperCopy r.number) →
        ((RedBlackTree.insertAll cs).Insert r).Size = (RedBlackTree.insertAll cs).Size) ∧
      ((¬ ∃ x ∈ (RedBlackTree.insertAll cs).visited,
            ToUpperCopy x.number = ToUpperCopy r.number) →
        ((RedBlackTree.insertAll cs).Insert r).Size = (RedBlackTree.insertAll cs).Size + 1) ∧
      (RedBlackTree.insertAll cs).Size
        = ((cs.map (fun c => ToUpperCopy c.number)).dedup).length := by
  have hs := RedBlackTree.Sorted_insertAll cs
  refine ⟨?_, ?_, RedBlackTree.Size_insertAll cs⟩
  · intro h
    rw [RedBlackTree.visited_eq_inorder] at h
    rw [RedBlackTree.Size, RedBlackTree.Size, RedBlackTree.CountNodes_eq_length,
      RedBlackTree.CountNodes_eq_length, RedBlackTree.inorder_Insert _ _ hs]
    exact RedBlackTree.length_upsert_of_mem r _ hs h
  · intro h
    rw [RedBlackTree.visited_eq_inorder] at h
    rw [RedBlackTree.Size, RedBlackTree.Size, RedBlackTree.CountNodes_eq_length,
      RedBlackTree.CountNodes_eq_length, RedBlackTree.inorder_Insert _ _ hs]
    exact RedBlackTree.length_upsert_of_not_mem r _ (fun x hx e => h ⟨x, hx, e⟩)

/-- C8: for every tree, in particular every tree reached by `Insert` calls, and
every key `k`, `Search(k)`, `Search(upper(k))` and `Search(lower(k))` return the
same record. -/
theorem rbt_search_case_insensitive (t : RedBlackTree) (k : CString) :
    t.Search k = t.Search (ToUpperCopy k) ∧ t.Search (ToUpperCopy k) = t.Search (ToLowerCopy k) := by
  unfold RedBlackTree.Search
  rw [RedBlackTree.ToUpperCopy_ToUpperCopy, RedBlackTree.ToUpperCopy_ToLowerCopy]
  exact ⟨rfl, rfl⟩

/-- C9: after any sequence of `Insert` calls on an empty tree, a query `q` that
equals no inserted key case-insensitively gets the default record, whose key
and title are empty and which has no prerequisites; every `Search` on the empty
tree gets it. -/
theorem rbt_search_absent (cs : List Course) (q : CString)
    (hq : ∀ x ∈ cs, ToUpperCopy x.number ≠ ToUpperCopy q) :
    (RedBlackTree.insertAll cs).Search q = Course.default ∧
      RedBlackTree.empty.Search q = Course.default ∧
      Course.default = { number := [], title := [], prerequisites := [] } := by
  refine ⟨?_, rfl, rfl⟩
  induction cs using List.reverseRecOn with
  | nil => rfl
  | append_singleton cs c ih =>
    have hc : ¬ ukey c = ToUpperCopy q := hq c (by simp)
    rw [RedBlackTree.Search_insertAll_append, if_neg hc]
    exact ih (fun x hx => hq x (by simp [hx]))

/-- Witness of C9: two records are stored and a third key is looked up. -/
theorem rbt_search_absent_witness :
    (RedBlackTree.insertAll [mk "CS200" "a", mk "CS050" "b"]).Search (lit "cs101") = Course.default ∧
      RedBlackTree.empty.Search (lit "cs101") = Course.default ∧
      Course.default = { number := [], title := [], prerequisites := [] } :=
  rbt_search_absent [mk "CS200" "a", mk "CS050" "b"] (lit "cs101") (by decide)

/-! ## The hash table: round trip and failed lookups -/

/-- C2: for a capacity `c ≥ 1` (an `unsigned int`) and at most `c` records with
pairwise distinct keys that are already uppercase, inserting them in order into
a fresh table of capacity `c` succeeds without a diagnostic, and `Search(k)` for
each inserted key `k` returns exactly the record inserted with that key. -/
theorem hashtable_round_trip (c : Nat) (rs : List Course) (hc1 : 1 ≤ c) (hc2 : c < 2 ^ 32)
    (hn : rs.length ≤ c) (hd : (rs.map Course.number).Nodup)
    (hu : ∀ r ∈ rs, ToUpperCopy r.number = r.number) :
    ∃ t, (HashTable.Construct c).insertAll rs = Except.ok (t, []) ∧
      ∀ r ∈ rs, t.Search r.number = Except.ok r := by
  have hw := HashTable.WF_Construct c hc1 hc2
  obtain ⟨t, h1, h2, h3, h4, _, _, h7⟩ :=
    HashTable.insertAll_distinct rs (HashTable.Construct c) hw
      (fun k r h => absurd h (HashTable.not_Holds_Construct c k r))
      (fun k₁ _ r₁ _ h => absurd h (HashTable.not_Holds_Construct c k₁ r₁))
      hd
      (fun k r h => absurd h (HashTable.not_Holds_Construct c k r))
      (by
        have : (HashTable.Construct c).occupied.count true = 0 := by
          simp [HashTable.Construct, List.count_replicate]
        rw [this]
        show 0 + rs.length ≤ c
        omega)
  refine ⟨t, h1, ?_⟩
  intro r hr
  obtain ⟨k, hk⟩ := h7 r hr
  exact HashTable.Search_stored t h2 h3 h4 k r hk (hu r hr)

/-- Witness of C2: the colliding keys "AB" and "BA" and a third key fill a
table of capacity 3. -/
theorem hashtable_round_trip_witness :
    ∃ t, (HashTable.Construct 3).insertAll [mk "AB" "x", mk "BA" "y", mk "C1" "z"]
        = Except.ok (t, []) ∧
      ∀ r ∈ [mk "AB" "x", mk "BA" "y", mk "C1" "z"], t.Search r.number = Except.ok r :=
  hashtable_round_trip 3 [mk "AB" "x", mk "BA" "y", mk "C1" "z"] (by decide) (by decide)
    (by decide) (by decide) (by decide)

/-- C10: in a table of capacity `c ≥ 1` (an `unsigned int`) reached by `Insert`
calls, full or not, `Search(q)` returns the default record, whose key is empty,
whenever no occupied slot stores a key equal to `upper(q)`; so when the inserted
keys are uppercase and none ends in "_MISS", `Search(k + "_MISS")` returns the
default record for every inserted key `k`. -/
theorem hashtable_search_absent (c : Nat) (rs : List Course) (hc1 : 1 ≤ c) (hc2 : c < 2 ^ 32) :
    ∃ t out, (HashTable.Construct c).insertAll rs = Except.ok (t, out) ∧
      (∀ q, (∀ (k : Nat) (r : Course), t.occupied[k]? = some true → t.table[k]? = some r →
            r.number ≠ ToUpperCopy q) →
          t.Search q = Except.ok Course.default) ∧
      ((∀ r ∈ rs, ToUpperCopy r.number = r.number ∧ ¬ lit "_MISS" <:+ r.number) →
          ∀ r ∈ rs, t.Search (r.number ++ lit "_MISS") = Except.ok Course.default) ∧
      Course.default.number = [] := by
  have hw := HashTable.WF_Construct c hc1 hc2
  obtain ⟨t, out, h1, h2, _, h4⟩ := HashTable.insertAll_total rs (HashTable.Construct c) hw
  refine ⟨t, out, h1, ?_, ?_, rfl⟩
  · intro q hq
    exact HashTable.Search_absent t h2 q (fun k r h => hq k r h.1 h.2)
  · intro hrs r hr
    apply HashTable.Search_absent t h2
    intro k r' hh
    have hr' : r' ∈ rs := by
      rcases h4 k r' hh with h | h
      · exact absurd h (HashTable.not_Holds_Construct c k r')
      · exact h
    have hup : ToUpperCopy (r.number ++ lit "_MISS") = r.number ++ lit "_MISS" := by
      have e : ToUpperCopy (lit "_MISS") = lit "_MISS" := by decide
      unfold ToUpperCopy at e ⊢
      rw [List.map_append, e]
      exact congrArg (· ++ lit "_MISS") (hrs r hr).1
    rw [hup]
    intro e
    exact (hrs r' hr').2 ⟨r.number, e.symm⟩

/-- Witness of C10: a table of capacity 2 is filled, a third insert is dropped,
and the lookups still end. -/
theorem hashtable_search_absent_witness :
    ∃ t out, (HashTable.Construct 2).insertAll [mk "AB" "x", mk "BA" "y", mk "C1" "z"]
        = Except.ok (t, out) ∧
      (∀ q, (∀ (k : Nat) (r : Course), t.occupied[k]? = some true → t.table[k]? = some r →
            r.number ≠ ToUpperCopy q) →
          t.Search q = Except.ok Course.default) ∧
      ((∀ r ∈ [mk "AB" "x", mk "BA" "y", mk "C1" "z"],
            ToUpperCopy r.number = r.number ∧ ¬ lit "_MISS" <:+ r.number) →
          ∀ r ∈ [mk "AB" "x", mk "BA" "y", mk "C1" "z"],
            t.Search (r.number ++ lit "_MISS") = Except.ok Course.default) ∧
      Course.default.number = [] :=
  hashtable_search_absent 2 [mk "AB" "x", mk "BA" "y", mk "C1" "z"] (by decide) (by decide)

/-! ## The hash table: size, full table, resize, traversal -/

/-- C11: in a table of capacity at least 1 (vectors of `tableSize` entries,
`tableSize` an `unsigned int`) with an unoccupied slot, `Insert(r)` succeeds
without a diagnostic and `Size()` grows by exactly one, whatever keys are
stored: the record goes into a slot that was free, and every record stored
before, one with the same key included, stays in its slot. -/
theorem hashtable_insert_size (t : HashTable) (r : Course) (hw : t.WF)
    (hfree : ∃ k, k < t.tableSize ∧ t.occupied[k]? = some false) :
    ∃ t' n, t.Insert r = Except.ok (t', []) ∧ t.Size = Except.ok n ∧
      t'.Size = Except.ok (n + 1) ∧
      (∀ k r', t.Holds k r' → t'.Holds k r') ∧
      ∃ k, t.occupied[k]? = some false ∧ t'.Holds k r := by
  rcases HashTable.Insert_spec t hw r with ⟨j, _, hf, _, hins⟩ | ⟨hfull, _⟩
  · have hklt := HashTable.probe_lt t.tableSize (HashTable.home t.tableSize r.number) j hw.2.2.1
    have hput := HashTable.Holds_put t hw _ r hklt hf
    refine ⟨_, t.occupied.count true, hins, ?_, HashTable.Size_put t hw r _ hklt hf, ?_, ?_⟩
    · rw [HashTable.Size_eq t hw.2.1, HashTable.length_occupiedSlots t hw.2.1]
    · intro k r' h
      exact (hput k r').mpr (Or.inr h)
    · exact ⟨_, hf, (hput _ r).mpr (Or.inl ⟨rfl, rfl⟩)⟩
  · obtain ⟨k, hk, hf⟩ := hfree
    rw [hfull k hk] at hf
    exact absurd (Option.some.inj hf) (by decide)

/-- Witness of C11: the key "AB" is stored in its home slot 2 of a table of
capacity 3 and a second record with the key "AB" is inserted. -/
theorem hashtable_insert_size_witness :
    ∃ t' n,
      HashTable.Insert
          { table := [Course.default, Course.default, mk "AB" "old"]
            occupied := [false, false, true]
            tableSize := 3 } (mk "AB" "new") = Except.ok (t', []) ∧
        HashTable.Size
          { table := [Course.default, Course.default, mk "AB" "old"]
            occupied := [false, false, true]
            tableSize := 3 } = Except.ok n ∧
        t'.Size = Except.ok (n + 1) ∧
        (∀ k r', HashTable.Holds
            { table := [Course.default, Course.default, mk "AB" "old"]
              occupied := [false, false, true]
              tableSize := 3 } k r' → t'.Holds k r') ∧
        ∃ k, ([false, false, true] : List Bool)[k]? = some false ∧ t'.Holds k (mk "AB" "new") :=
  hashtable_insert_size
    { table := [Course.default, Course.default, mk "AB" "old"]
      occupied := [false, false, true]
      tableSize := 3 } (mk "AB" "new") ⟨by decide, by decide, by decide, by decide⟩
    ⟨0, by decide, by decide⟩

/-- C13: in a table of capacity at least 1 in which every slot is occupied,
`Insert(r)` writes the diagnostic and changes nothing: the payloads, the
occupancy flags, `Capacity()` and `Size()` are as before the call. -/
theorem hashtable_insert_full (t : HashTable) (r : Course) (hw : t.WF)
    (hfull : ∀ k, k < t.tableSize → t.occupied[k]? = some true) :
    ∃ t', t.Insert r = Except.ok (t', ["Error: Hash table is full."]) ∧
      t'.table = t.table ∧ t'.occupied = t.occupied ∧
      t'.Capacity = t.Capacity ∧ t'.Size = t.Size := by
  rcases HashTable.Insert_spec t hw r with ⟨j, _, hf, _, _⟩ | ⟨_, hins⟩
  · have hklt := HashTable.probe_lt t.tableSize (HashTable.home t.tableSize r.number) j hw.2.2.1
    rw [hfull _ hklt] at hf
    exact absurd (Option.some.inj hf) (by decide)
  · exact ⟨t, hins, rfl, rfl, rfl, rfl⟩

/-- Witness of C13: a full table of capacity 2. -/
theorem hashtable_insert_full_witness :
    ∃ t',
      HashTable.Insert
          { table := [mk "AB" "x", mk "BA" "y"], occupied := [true, true], tableSize := 2 }
          (mk "C1" "z") = Except.ok (t', ["Error: Hash table is full."]) ∧
        t'.table = [mk "AB" "x", mk "BA" "y"] ∧ t'.occupied = [true, true] ∧
        t'.Capacity = 2 ∧
        t'.Size = HashTable.Size
          { table := [mk "AB" "x", mk "BA" "y"], occupied := [true, true], tableSize := 2 } :=
  hashtable_insert_full
    { table := [mk "AB" "x", mk "BA" "y"], occupied := [true, true], tableSize := 2 }
    (mk "C1" "z") ⟨by decide, by decide, by decide, by decide⟩ (by decide)

/-- C14: whatever the state of the table and whatever `n`, after `Resize(n)`
`Size()` is 0, `Capacity()` is `n`, and each of the `n` slots is unoccupied and
holds a default record. -/
theorem hashtable_resize (t : HashTable) (n : Nat) :
    (t.Resize n).Size = Except.ok 0 ∧ (t.Resize n).Capacity = n ∧
      (t.Resize n).occupied = List.replicate n false ∧
      (t.Resize n).table = List.replicate n Course.default := by
  refine ⟨?_, rfl, rfl, rfl⟩
  have h := HashTable.Size_eq (HashTable.Construct n) (by simp [HashTable.Construct])
  rw [HashTable.occupiedSlots_Construct] at h
  exact h

/-- C16: in a table whose vectors have `tableSize` entries, `ForEach(visit)`
calls `visit` on the payloads of the occupied slots, one call per occupied slot
and none for another slot, in strictly ascending order of the slot index; the
number of calls is `Size()`. -/
theorem hashtable_foreach_visits {σ : Type} (t : HashTable) (fn : σ → Course → σ) (s : σ)
    (hs : t.table.length = t.tableSize ∧ t.occupied.length = t.tableSize) :
    t.ForEach fn s = Except.ok
        ((((List.range t.tableSize).filter (fun j => t.occupied[j]? = some true)).filterMap
          (fun j => t.table[j]?)).foldl fn s) ∧
      t.ForEach (fun acc c => acc ++ [c]) [] = Except.ok t.payloads ∧
      t.payloads.length = t.occupiedSlots.length ∧
      t.occupiedSlots.Pairwise (· < ·) ∧
      (∀ j, j ∈ t.occupiedSlots ↔ j < t.tableSize ∧ t.occupied[j]? = some true) ∧
      t.Size = Except.ok t.payloads.length := by
  refine ⟨HashTable.ForEach_eq t hs fn s, ?_, HashTable.length_payloads t hs,
    HashTable.occupiedSlots_sorted t, HashTable.mem_occupiedSlots t, ?_⟩
  · rw [HashTable.ForEach_eq t hs]
    have : ∀ (l acc : List Course), l.foldl (fun acc c => acc ++ [c]) acc = acc ++ l := by
      intro l
      induction l with
      | nil => simp
      | cons x xs ih => intro acc; simp [ih]
    rw [this]
    rfl
  · rw [HashTable.Size_eq t hs.2, HashTable.length_payloads t hs]

/-- Witness of C16: slots 0 and 2 of a table of capacity 3 are occupied and the
callback counts its calls. -/
theorem hashtable_foreach_visits_witness :
    HashTable.ForEach
        { table := [mk "C1" "z", Course.default, mk "AB" "x"]
          occupied := [true, false, true]
          tableSize := 3 } (fun (n : Nat) _ => n + 1) 0 = Except.ok 2 :=
  (hashtable_foreach_visits
    { table := [mk "C1" "z", Course.default, mk "AB" "x"]
      occupied := [true, false, true]
      tableSize := 3 } (fun (n : Nat) _ => n + 1) 0 (by decide)).1

/-- C15: whatever the state of the tree, `Clear()` deletes each of its nodes
once and leaves the empty tree: `Size()` is 0, `ForEach` calls its callback for
nothing, every `Search` returns the default record, and every sequence of
`Insert` calls gives the tree it gives on a freshly constructed tree. -/
theorem rbt_clear (t : RedBlackTree) :
    (RedBlackTree.Destroy t.root).length = t.Size ∧
      t.Clear = RedBlackTree.empty ∧ t.Clear.Size = 0 ∧ t.Clear.visited = [] ∧
      (∀ (fn : Nat → Course → Nat) (s : Nat), t.Clear.ForEach fn s = s) ∧
      (∀ q, t.Clear.Search q = Course.default) ∧
      (∀ cs : List Course, cs.foldl RedBlackTree.Insert t.Clear = RedBlackTree.insertAll cs) :=
  ⟨RedBlackTree.length_Destroy t.root, rfl, rfl, rfl, fun _ _ => rfl, fun _ => rfl, fun _ => rfl⟩

/-! ## The benchmark: range count and key pools -/

/-- C17: for a list `L` of records with pairwise case-insensitively distinct
keys and every string `p`, the count `MeasurePrefixCountMs` computes over
`ForEach` of the tree built by inserting `L` is the number of records of `L`
whose key has `p` as a literal prefix; so is the count over `ForEach` of a hash
table of capacity `c ≥ length(L)` (an `unsigned int`) built by inserting `L`,
which takes every record without a diagnostic. -/
theorem range_count_matches (p : CString) (L : List Course) (c : Nat)
    (hd : (L.map (fun r => ToUpperCopy r.number)).Nodup) (hn : L.length ≤ c)
    (hc2 : c < 2 ^ 32) :
    Benchmark.MeasurePrefixCountMs (fun fn s => (RedBlackTree.insertAll L).ForEach fn s) p
        = (L.filter (fun r => decide (p <+: r.number))).length ∧
      ∃ t, (HashTable.Construct c).insertAll L = Except.ok (t, []) ∧
        Benchmark.MeasurePrefixCountMs (fun fn s => t.ForEach fn s) p
          = Except.ok (L.filter (fun r => decide (p <+: r.number))).length := by
  constructor
  · unfold Benchmark.MeasurePrefixCountMs RedBlackTree.ForEach
    beta_reduce
    rw [RedBlackTree.InOrderApply_eq_foldl, Benchmark.foldl_visit, Nat.zero_add]
    exact Benchmark.length_filter_perm (RedBlackTree.perm_insertAll L hd) _
  · have hd' : (L.map Course.number).Nodup := by
      have : L.map (fun r => ToUpperCopy r.number)
          = (L.map Course.number).map ToUpperCopy := by simp
      rw [this] at hd
      exact List.Nodup.of_map _ hd
    obtain ⟨t, h1, h2, h3⟩ := HashTable.payloads_insertAll c L hc2 hn hd'
    refine ⟨t, h1, ?_⟩
    unfold Benchmark.MeasurePrefixCountMs
    beta_reduce
    rw [HashTable.ForEach_eq t h2, Benchmark.foldl_visit, Nat.zero_add,
      Benchmark.length_filter_perm h3]

/-- Witness of C17: three records, two keys equal up to a suffix, in a table of
capacity 3; two of the keys start with "CS1". -/
theorem range_count_matches_witness :
    Benchmark.MeasurePrefixCountMs
        (fun fn s => (RedBlackTree.insertAll
          [mk "CS200" "a", mk "CS101" "b", mk "CS10" "c"]).ForEach fn s) (lit "CS1")
        = ([mk "CS200" "a", mk "CS101" "b", mk "CS10" "c"].filter
            (fun r => decide (lit "CS1" <+: r.number))).length ∧
      ∃ t, (HashTable.Construct 3).insertAll [mk "CS200" "a", mk "CS101" "b", mk "CS10" "c"]
          = Except.ok (t, []) ∧
        Benchmark.MeasurePrefixCountMs (fun fn s => t.ForEach fn s) (lit "CS1")
          = Except.ok ([mk "CS200" "a", mk "CS101" "b", mk "CS10" "c"].filter
              (fun r => decide (lit "CS1" <+: r.number))).length :=
  range_count_matches (lit "CS1") [mk "CS200" "a", mk "CS101" "b", mk "CS10" "c"] 3
    (by decide) (by decide) (by decide)

/-- C18: for every source and every number of trials, the hit-key pool of the
benchmark is the first `min(searchTrials, available)` keys read from the
source, in source order, the keys read being the first comma-separated fields
of the non-empty lines whose first field is not empty and `available` their
number. -/
theorem hit_pool_is_source_start (file : FileContent) (searchTrials : Nat) :
    Benchmark.hitKeys file searchTrials
        = (sourceKeys file).take (min searchTrials (sourceKeys file).length) ∧
      Benchmark.LoadCourseNumbersOnly file = sourceKeys file := by
  refine ⟨?_, Benchmark.LoadCourseNumbersOnly_eq file⟩
  unfold Benchmark.hitKeys
  rw [Benchmark.LoadCourseNumbersOnly_eq]
  simp only
  split_ifs with h
  · rw [Nat.min_eq_left (by omega)]
  · by_cases he : sourceKeys file = []
    · simp [he]
    · have : (sourceKeys file).length ≤ searchTrials := by
        by_contra hc
        exact h ⟨he, by omega⟩
      rw [Nat.min_eq_right this, List.take_length]

/-- C19: a key of the miss pool can be stored in the container built from the
same source. With the lines "CS101,Intro" and "CS101_MISS,Other" and one trial
the hit pool is "CS101", the miss pool is "CS101_MISS", and `Search` of that
key returns the record of the second line, not the default record, in the tree
and in the hash table of capacity 10007. -/
theorem miss_key_can_be_stored :
    Benchmark.missKeys (Benchmark.hitKeys (some [lit "CS101,Intro", lit "CS101_MISS,Other"]) 1)
        = [lit "CS101_MISS"] ∧
      (RedBlackTree.empty.loadCourses "courses.csv"
          (some [lit "CS101,Intro", lit "CS101_MISS,Other"])).1.Search (lit "CS101_MISS")
        = mk "CS101_MISS" "Other" ∧
      (∃ t out, (HashTable.Construct 10007).loadCourses "courses.csv"
            (some [lit "CS101,Intro", lit "CS101_MISS,Other"]) = Except.ok (t, out) ∧
          t.Search (lit "CS101_MISS") = Except.ok (mk "CS101_MISS" "Other")) ∧
      mk "CS101_MISS" "Other" ≠ Course.default := by
  refine ⟨by decide, by decide, ?_, by decide⟩
  have hcs : loadCourses.courses [lit "CS101,Intro", lit "CS101_MISS,Other"]
      = [mk "CS101" "Intro", mk "CS101_MISS" "Other"] := by decide
  have hw := HashTable.WF_Construct 10007 (by decide) (by decide)
  obtain ⟨t, h1, h2, h3, h4, _, _, h7⟩ :=
    HashTable.insertAll_distinct [mk "CS101" "Intro", mk "CS101_MISS" "Other"]
      (HashTable.Construct 10007) hw
      (fun k r h => absurd h (HashTable.not_Holds_Construct _ k r))
      (fun k₁ _ r₁ _ h => absurd h (HashTable.not_Holds_Construct _ k₁ r₁))
      (by decide)
      (fun k r h => absurd h (HashTable.not_Holds_Construct _ k r))
      (by
        rw [HashTable.count_Construct]
        show 0 + 2 ≤ 10007
        omega)
  obtain ⟨out', ho⟩ := Benchmark.HashTable_loadCourses_loop
    [lit "CS101,Intro", lit "CS101_MISS,Other"] (HashTable.Construct 10007) 0 [] t []
    (by rw [hcs]; exact h1)
  obtain ⟨k, hk⟩ := h7 (mk "CS101_MISS" "Other") (by simp)
  refine ⟨t, out' ++ ["Courses loaded successfully (HashTable)."], ?_, ?_⟩
  · simp only [HashTable.loadCourses, ho]
  · exact HashTable.Search_stored t h2 h3 h4 k _ hk (by decide)

/-- C20: with a source that cannot be opened the key pools are empty, and for
every positive number of trials the loop of the hit phase, and that of the miss
phase, indexes element 0 of its empty pool in its first trial, whatever the
generator delivers: an access out of range. -/
theorem empty_pool_is_indexed (search : CString → Except Fault Course) (rng : Nat → Nat)
    (n : Nat) :
    Benchmark.hitKeys none (n + 1) = [] ∧
      Benchmark.missKeys (Benchmark.hitKeys none (n + 1)) = [] ∧
      Benchmark.searchPhase search (Benchmark.hitKeys none (n + 1)) rng (n + 1) 0
        = Except.error Fault.outOfRange ∧
      Benchmark.searchPhase search (Benchmark.missKeys (Benchmark.hitKeys none (n + 1))) rng
          (n + 1) 0
        = Except.error Fault.outOfRange :=
  ⟨rfl, rfl, rfl, rfl⟩

/-! ## The loader -/

/-- C21: for every sequence of source lines, the records `loadCourses` passes
to `Insert`, in the overload for the tree and in that for the hash table, are
the records the loop body makes of the lines it does not skip, and each has a
non-empty key and a non-empty title, which are the first two comma-separated
fields of its line; a line without such fields is passed to no `Insert`. -/
theorem loader_inserts_valid_records (lines : List CString) :
    (∀ c ∈ loadCourses.courses lines, c.number ≠ [] ∧ c.title ≠ []) ∧
      (∀ c, c ∈ loadCourses.courses lines ↔
        ∃ line ∈ lines, loadCourses.line line = loadCourses.Outcome.course c) ∧
      (∀ line c, loadCourses.line line = loadCourses.Outcome.course c →
        c.number ≠ [] ∧ c.title ≠ [] ∧ comma ∉ c.number ∧ comma ∉ c.title ∧
          (c.number ++ comma :: c.title) <+: line) ∧
      (∀ (tree : RedBlackTree) (n : Nat) (out : List String),
        (RedBlackTree.loadCourses.loop tree lines n out).1
          = (loadCourses.courses lines).foldl RedBlackTree.Insert tree) ∧
      (∀ (t : HashTable) (n : Nat) (out : List String),
        Except.map Prod.fst (HashTable.loadCourses.loop t lines n out)
          = Except.map Prod.fst (t.insertAll (loadCourses.courses lines))) := by
  refine ⟨?_, Benchmark.mem_courses lines, Benchmark.line_course,
    Benchmark.RedBlackTree_loadCourses_loop lines,
    Benchmark.HashTable_loadCourses_loop_table lines⟩
  intro c hc
  obtain ⟨line, _, hl⟩ := (Benchmark.mem_courses lines c).mp hc
  obtain ⟨h1, h2, _⟩ := Benchmark.line_course line c hl
  exact ⟨h1, h2⟩

/-! ## The hash table: comparison of keys, probe paths, `hash` -/

/-- C22: `Search` of `HashTable` uppercases the query but compares it with the
stored key as it is. In a table of capacity 1 holding a record with the key
"cs101", `Search("cs101")` and `Search("CS101")` return the default record,
although the stored key equals the query case-insensitively. -/
theorem hashtable_search_misses_lowercase_key :
    ∃ t, (HashTable.Construct 1).insertAll [mk "cs101" "Intro"] = Except.ok (t, []) ∧
      t.occupied[0]? = some true ∧ t.table[0]? = some (mk "cs101" "Intro") ∧
      ToUpperCopy (mk "cs101" "Intro").number = ToUpperCopy (lit "cs101") ∧
      t.hash (ToUpperCopy (lit "cs101")) = Except.ok 0 ∧
      t.Search (lit "cs101") = Except.ok Course.default ∧
      t.Search (lit "CS101") = Except.ok Course.default :=
  ⟨{ table := [mk "cs101" "Intro"], occupied := [true], tableSize := 1 },
    by decide, by decide, by decide, by decide, by decide, by decide, by decide⟩

/-- C23: in a table reached from `Construct(c)`, `1 ≤ c` (an `unsigned int`),
by any sequence of `Insert` calls, every occupied slot `i` storing a record
with key `k` lies `m < c` steps after `hash(k)` on the cyclic probe path, and
all slots of the path from `hash(k)` up to and including `i` are occupied. -/
theorem hashtable_probe_chain (c : Nat) (rs : List Course) (hc1 : 1 ≤ c) (hc2 : c < 2 ^ 32) :
    ∃ t out, (HashTable.Construct c).insertAll rs = Except.ok (t, out) ∧
      ∀ (i : Nat) (r : Course), t.occupied[i]? = some true → t.table[i]? = some r →
        ∃ h m, t.hash r.number = Except.ok h ∧ m < c ∧ i = (h + m) % c ∧
          ∀ j, j ≤ m → t.occupied[(h + j) % c]? = some true := by
  obtain ⟨t, out, h1, h2, h3, h4⟩ :=
    HashTable.Chain_insertAll rs (HashTable.Construct c) (HashTable.WF_Construct c hc1 hc2)
      (HashTable.Chain_Construct c)
  have hts : t.tableSize = c := h4
  refine ⟨t, out, h1, ?_⟩
  intro i r ho hr
  obtain ⟨m, hm, hi, hocc⟩ := h3 i r ⟨ho, hr⟩
  rw [hts] at hm hi hocc
  refine ⟨HashTable.home c r.number, m, ?_, hm, hi, ?_⟩
  · rw [HashTable.hash_eq t _ h2.2.2.1, hts]
  · intro j hj
    by_cases hjm : j = m
    · rw [hjm, ← hi]; exact ho
    · exact hocc j (by omega)

/-- Witness of C23: a table of capacity 2 after three inserts, two of them with
colliding keys and the third dropped. -/
theorem hashtable_probe_chain_witness :
    ∃ t out, (HashTable.Construct 2).insertAll [mk "AB" "x", mk "BA" "y", mk "C1" "z"]
        = Except.ok (t, out) ∧
      ∀ (i : Nat) (r : Course), t.occupied[i]? = some true → t.table[i]? = some r →
        ∃ h m, t.hash r.number = Except.ok h ∧ m < 2 ∧ i = (h + m) % 2 ∧
          ∀ j, j ≤ m → t.occupied[(h + j) % 2]? = some true :=
  hashtable_probe_chain 2 [mk "AB" "x", mk "BA" "y", mk "C1" "z"] (by decide) (by decide)

/-- C24, as stated, fails: for the key of the two bytes C3 A9 ("é" in UTF-8)
and capacity 10007, `hash` returns 2776, which is neither the sum of the byte
values modulo the capacity (364) nor the sum of the signed `char` values, -148,
reduced modulo the capacity (9859). -/
theorem hashtable_hash_not_code_sum :
    (HashTable.Construct 10007).hash [195, 169] = Except.ok 2776 ∧
      (([195, 169] : CString).map (fun ch => ch.val)).sum % 10007 = 364 ∧
      ((([195, 169] : CString).map HashTable.charToInt).sum % 10007).toNat = 9859 ∧
      (HashTable.Construct 10007).hash [195, 169]
        ≠ Except.ok ((([195, 169] : CString).map (fun ch => ch.val)).sum % 10007) ∧
      (HashTable.Construct 10007).hash [195, 169]
        ≠ Except.ok ((([195, 169] : CString).map HashTable.charToInt).sum % 10007).toNat := by
  have h : (HashTable.Construct 10007).hash [195, 169] = Except.ok 2776 := by
    unfold HashTable.hash
    rw [if_neg (by decide), HashTable.hash_sum_eq]
    decide
  refine ⟨h, by decide, by decide, ?_, ?_⟩
  · rw [h]; decide
  · rw [h]; decide

/-- C24, amended: for every table of capacity at least 1 and every key,
`hash(key)` is the sum of the values of the key's characters as signed `char`s,
taken on the key as given, reduced modulo 2^32 and then modulo the capacity; for
a key of 7-bit characters whose codes sum to less than 2^32 this is the sum of
the character codes modulo the capacity. -/
theorem hashtable_hash_value (t : HashTable) (key : CString) (hc : 1 ≤ t.tableSize) :
    t.hash key
        = Except.ok (((key.map HashTable.charToInt).sum % 2 ^ 32).toNat % t.tableSize) ∧
      ((∀ ch ∈ key, ch.val < 128) → (key.map (fun ch => ch.val)).sum < 2 ^ 32 →
        t.hash key = Except.ok ((key.map (fun ch => ch.val)).sum % t.tableSize)) := by
  have h1 : t.hash key
      = Except.ok (((key.map HashTable.charToInt).sum % 2 ^ 32).toNat % t.tableSize) := by
    rw [HashTable.hash_eq t key hc, HashTable.home, HashTable.hash_sum_eq]
  refine ⟨h1, ?_⟩
  intro ha hs
  rw [h1, HashTable.sum_charToInt key ha]
  congr 2
  have : ((((key.map (fun ch => ch.val)).sum : Nat) : Int) % 2 ^ 32)
      = (((key.map (fun ch => ch.val)).sum : Nat) : Int) := by
    omega
  rw [this]
  exact Int.toNat_natCast _

/-- Witness of the amended C24: the key "CS101" in a table of capacity 10007. -/
theorem hashtable_hash_value_witness :
    (HashTable.Construct 10007).hash (lit "CS101")
        = Except.ok ((((lit "CS101").map HashTable.charToInt).sum % 2 ^ 32).toNat % 10007) ∧
      ((∀ ch ∈ lit "CS101", ch.val < 128) →
        ((lit "CS101").map (fun ch => ch.val)).sum < 2 ^ 32 →
        (HashTable.Construct 10007).hash (lit "CS101")
          = Except.ok (((lit "CS101").map (fun ch => ch.val)).sum % 10007)) :=
  hashtable_hash_value (HashTable.Construct 10007) (lit "CS101") (by decide)

/-- C25: in a table with `tableSize ≥ 1` (an `unsigned int`) whose vectors have
`tableSize` entries, `hash(key)` is an index below `tableSize`, and `Insert` and
`Search` return normally: no index they read or write is out of range. -/
theorem hashtable_indices_in_range (t : HashTable) (key : CString) (r : Course) (hw : t.WF) :
    (∃ h, t.hash key = Except.ok h ∧ h < t.tableSize) ∧
      (∃ t' out, t.Insert r = Except.ok (t', out) ∧ t'.WF) ∧
      (∃ c, t.Search key = Except.ok c) ∧
      t.Insert r ≠ Except.error Fault.outOfRange ∧
      t.Search key ≠ Except.error Fault.outOfRange := by
  have hi : ∃ t' out, t.Insert r = Except.ok (t', out) ∧ t'.WF := by
    rcases HashTable.Insert_spec t hw r with ⟨j, _, _, _, hins⟩ | ⟨_, hins⟩
    · exact ⟨_, _, hins, HashTable.WF_put t hw _ r⟩
    · exact ⟨_, _, hins, hw⟩
  have hs := HashTable.Search_total t hw key
  refine ⟨⟨_, HashTable.hash_eq t key hw.2.2.1, HashTable.home_lt _ _ hw.2.2.1⟩, hi, hs, ?_, ?_⟩
  · obtain ⟨t', out, h, _⟩ := hi
    rw [h]
    exact fun e => Except.noConfusion e
  · obtain ⟨c, h⟩ := hs
    rw [h]
    exact fun e => Except.noConfusion e

/-- Witness of C25: a full table of capacity 2. -/
theorem hashtable_indices_in_range_witness :
    (∃ h, HashTable.hash
          { table := [mk "AB" "x", mk "BA" "y"], occupied := [true, true], tableSize := 2 }
          (lit "C1") = Except.ok h ∧ h < 2) ∧
      (∃ t' out, HashTable.Insert
          { table := [mk "AB" "x", mk "BA" "y"], occupied := [true, true], tableSize := 2 }
          (mk "C1" "z") = Except.ok (t', out) ∧ t'.WF) ∧
      (∃ c, HashTable.Search
          { table := [mk "AB" "x", mk "BA" "y"], occupied := [true, true], tableSize := 2 }
          (lit "C1") = Except.ok c) ∧
      HashTable.Insert
          { table := [mk "AB" "x", mk "BA" "y"], occupied := [true, true], tableSize := 2 }
          (mk "C1" "z") ≠ Except.error Fault.outOfRange ∧
      HashTable.Search
          { table := [mk "AB" "x", mk "BA" "y"], occupied := [true, true], tableSize := 2 }
          (lit "C1") ≠ Except.error Fault.outOfRange :=
  hashtable_indices_in_range
    { table := [mk "AB" "x", mk "BA" "y"], occupied := [true, true], tableSize := 2 }
    (lit "C1") (mk "C1" "z") ⟨by decide, by decide, by decide, by decide⟩

/-! ## The red-black tree: replacement, rotations, termination -/

/-- C26: in a tree reached by `Insert` calls, `Insert(r)` of a record whose key
equals a stored key case-insensitively changes only the payload of the node
with that key: the links and the colours of all nodes are as before, and in
the in-order sequence of payloads the record with that key is replaced by `r`
and every other record is kept. -/
theorem rbt_insert_stored_key (cs : List Course) (r : Course)
    (h : ∃ x ∈ (RedBlackTree.insertAll cs).visited,
      ToUpperCopy x.number = ToUpperCopy r.number) :
    shape ((RedBlackTree.insertAll cs).Insert r).root = shape (RedBlackTree.insertAll cs).root ∧
      ((RedBlackTree.insertAll cs).Insert r).visited
        = (RedBlackTree.insertAll cs).visited.map
            (fun x => if ToUpperCopy x.number = ToUpperCopy r.number then r else x) ∧
      ((RedBlackTree.insertAll cs).Insert r).Size = (RedBlackTree.insertAll cs).Size := by
  have hs := RedBlackTree.Sorted_insertAll cs
  rw [RedBlackTree.visited_eq_inorder] at h
  refine ⟨RedBlackTree.Insert_stored_key _ r hs h, ?_, ?_⟩
  · rw [RedBlackTree.visited_eq_inorder, RedBlackTree.visited_eq_inorder,
      RedBlackTree.inorder_Insert _ _ hs]
    exact RedBlackTree.upsert_eq_map r _ hs h
  · rw [RedBlackTree.Size, RedBlackTree.Size, RedBlackTree.CountNodes_eq_length,
      RedBlackTree.CountNodes_eq_length, RedBlackTree.inorder_Insert _ _ hs]
    exact RedBlackTree.length_upsert_of_mem r _ hs h

/-- Witness of C26: three records are stored and the record with the key
"CS050" is inserted again under "cs050". -/
theorem rbt_insert_stored_key_witness :
    shape ((RedBlackTree.insertAll [mk "CS200" "a", mk "CS050" "b", mk "CS101" "c"]).Insert
        (mk "cs050" "d")).root
        = shape (RedBlackTree.insertAll [mk "CS200" "a", mk "CS050" "b", mk "CS101" "c"]).root ∧
      ((RedBlackTree.insertAll [mk "CS200" "a", mk "CS050" "b", mk "CS101" "c"]).Insert
        (mk "cs050" "d")).visited
        = (RedBlackTree.insertAll [mk "CS200" "a", mk "CS050" "b", mk "CS101" "c"]).visited.map
            (fun x => if ToUpperCopy x.number = ToUpperCopy (mk "cs050" "d").number
              then mk "cs050" "d" else x) ∧
      ((RedBlackTree.insertAll [mk "CS200" "a", mk "CS050" "b", mk "CS101" "c"]).Insert
        (mk "cs050" "d")).Size
        = (RedBlackTree.insertAll [mk "CS200" "a", mk "CS050" "b", mk "CS101" "c"]).Size :=
  rbt_insert_stored_key [mk "CS200" "a", mk "CS050" "b", mk "CS101" "c"] (mk "cs050" "d")
    ⟨mk "CS050" "b", by decide, by decide⟩

/-- C27: for every well-formed tree in memory and every node `pivot` of it with
a right child, `LeftRotate(pivot)` dereferences no null pointer and leaves a
well-formed tree in which the former right child stands in the place of the
pivot: `root` points to it when the pivot had no parent, and otherwise the
pointer of the former parent of the pivot that led to the pivot leads to it.
The tree it leaves is the one the rotation on subtrees gives, and the in-order
sequence of the records of the whole tree is as before. `RightRotate` is the
mirror image for a pivot with a left child. -/
theorem rbt_rotations
    (m : Memory) (path : List LFrame) (a b : Nat) (pd cd : Course) (pc cc : Color)
    (x y z : Layout)
    (n : Memory) (ancestors : List LFrame) (p c : Nat) (dp dc : Course) (kp kc : Color)
    (u v w : Layout)
    (hl : m.Represents
      (Layout.zipUp (Layout.node a pd pc x (Layout.node b cd cc y z)) path))
    (hr : n.Represents
      (Layout.zipUp (Layout.node p dp kp (Layout.node c dc kc u v) w) ancestors)) :
    (∃ m2, m.LeftRotate a = some m2 ∧
      m2.Represents (Layout.zipUp (Layout.node b cd cc (Layout.node a pd pc x y) z) path) ∧
      (Layout.zipUp (Layout.node b cd cc (Layout.node a pd pc x y) z) path).tree
        = zipUp (RedBlackTree.LeftRotate (Layout.node a pd pc x (Layout.node b cd cc y z)).tree)
            (path.map LFrame.frame) ∧
      inorder (Layout.zipUp (Layout.node b cd cc (Layout.node a pd pc x y) z) path).tree
        = inorder (Layout.zipUp (Layout.node a pd pc x (Layout.node b cd cc y z)) path).tree ∧
      (path = [] → m.root = some a ∧ m2.root = some b) ∧
      (∀ f up, path = f :: up → ∃ c c2, m.cell f.addr = some c ∧ f.child c = some a ∧
        m2.cell f.addr = some c2 ∧ f.child c2 = some b)) ∧
    (∃ n2, n.RightRotate p = some n2 ∧
      n2.Represents
        (Layout.zipUp (Layout.node c dc kc u (Layout.node p dp kp v w)) ancestors) ∧
      (Layout.zipUp (Layout.node c dc kc u (Layout.node p dp kp v w)) ancestors).tree
        = zipUp (RedBlackTree.RightRotate (Layout.node p dp kp (Layout.node c dc kc u v) w).tree)
            (ancestors.map LFrame.frame) ∧
      inorder (Layout.zipUp (Layout.node c dc kc u (Layout.node p dp kp v w)) ancestors).tree
        = inorder
            (Layout.zipUp (Layout.node p dp kp (Layout.node c dc kc u v) w) ancestors).tree ∧
      (ancestors = [] → n.root = some p ∧ n2.root = some c) ∧
      (∀ f up, ancestors = f :: up → ∃ e e2, n.cell f.addr = some e ∧ f.child e = some p ∧
        n2.cell f.addr = some e2 ∧ f.child e2 = some c)) :=
  ⟨LeftRotate_refines m path a b pd cd pc cc x y z hl,
    RightRotate_refines n ancestors p c dp dc kp kc u v w hr⟩

/-- Witness of C27: a root at address 0 with the pivot at address 1 as its right
child and the child of the pivot at address 2, for `LeftRotate`; the mirror
image for `RightRotate`. After the rotation the root at address 0 points to the
node at address 2. -/
theorem rbt_rotations_witness :
    (∃ m2, (Memory.ofList
        [(0, Cell.mk (mk "CS100" "a") Color.BLACK none none (some 1)),
         (1, Cell.mk (mk "CS200" "b") Color.RED (some 0) none (some 2)),
         (2, Cell.mk (mk "CS300" "c") Color.RED (some 1) none none)] (some 0)).LeftRotate 1
        = some m2 ∧
      (m2.cell 0).map Cell.right = some (some 2) ∧
      m2.Represents
        (Layout.zipUp (Layout.node 2 (mk "CS300" "c") Color.RED
            (Layout.node 1 (mk "CS200" "b") Color.RED Layout.nil Layout.nil) Layout.nil)
          [LFrame.mk 0 (mk "CS100" "a") Color.BLACK Side.right Layout.nil])) ∧
    (∃ n2, (Memory.ofList
        [(0, Cell.mk (mk "CS300" "c") Color.BLACK none (some 1) none),
         (1, Cell.mk (mk "CS200" "b") Color.RED (some 0) (some 2) none),
         (2, Cell.mk (mk "CS100" "a") Color.RED (some 1) none none)] (some 0)).RightRotate 1
        = some n2 ∧
      (n2.cell 0).map Cell.left = some (some 2) ∧
      n2.Represents
        (Layout.zipUp (Layout.node 2 (mk "CS100" "a") Color.RED Layout.nil
            (Layout.node 1 (mk "CS200" "b") Color.RED Layout.nil Layout.nil))
          [LFrame.mk 0 (mk "CS300" "c") Color.BLACK Side.left Layout.nil])) := by
  obtain ⟨⟨m2, h1, h2, _, _, _, h3⟩, ⟨n2, k1, k2, _, _, _, k3⟩⟩ :=
    rbt_rotations
      (Memory.ofList
        [(0, Cell.mk (mk "CS100" "a") Color.BLACK none none (some 1)),
         (1, Cell.mk (mk "CS200" "b") Color.RED (some 0) none (some 2)),
         (2, Cell.mk (mk "CS300" "c") Color.RED (some 1) none none)] (some 0))
      [LFrame.mk 0 (mk "CS100" "a") Color.BLACK Side.right Layout.nil] 1 2
      (mk "CS200" "b") (mk "CS300" "c") Color.RED Color.RED Layout.nil Layout.nil Layout.nil
      (Memory.ofList
        [(0, Cell.mk (mk "CS300" "c") Color.BLACK none (some 1) none),
         (1, Cell.mk (mk "CS200" "b") Color.RED (some 0) (some 2) none),
         (2, Cell.mk (mk "CS100" "a") Color.RED (some 1) none none)] (some 0))
      [LFrame.mk 0 (mk "CS300" "c") Color.BLACK Side.left Layout.nil] 1 2
      (mk "CS200" "b") (mk "CS100" "a") Color.RED Color.RED Layout.nil Layout.nil Layout.nil
      ⟨by decide, by decide, by decide⟩ ⟨by decide, by decide, by decide⟩
  obtain ⟨c, c2, _, _, hc, hc2⟩ := h3 _ _ rfl
  obtain ⟨e, e2, _, _, he, he2⟩ := k3 _ _ rfl
  refine ⟨⟨m2, h1, ?_, h2⟩, ⟨n2, k1, ?_, k2⟩⟩
  · rw [hc]
    exact congrArg some hc2
  · rw [he]
    exact congrArg some he2

/-- C28: for every tree, in particular every tree reached by `Insert` calls,
and every record, `Insert` terminates: with a bound above the height of the
tree on the number of tests of each loop condition, the descent and the loop
of `InsertFixup` both come to their end and `Insert` returns its result. Each
pass through the body of the fixup loop either leaves the loop, or recolours
and moves the repair point two levels up, or rotates and leaves the repair
point with a BLACK parent one level up, after which the loop is left. -/
theorem rbt_insert_terminates (t : RedBlackTree) (course : Course) :
    (∀ fuel, height t.root < fuel →
        RedBlackTree.Insert.run fuel t course = some (t.Insert course)) ∧
      (∀ fuel path, height t.root < fuel →
        RedBlackTree.Insert.descendN course fuel t.root path
          = some (RedBlackTree.Insert.descend course t.root path)) ∧
      (∀ fuel n path, path.length < fuel →
        RedBlackTree.InsertFixup.run fuel n path = some (RedBlackTree.InsertFixup.loop n path)) ∧
      (∀ n path n' path', RedBlackTree.InsertFixup.step n path = some (n', path') →
        path'.length + 2 = path.length ∨
          (path'.length + 1 = path.length ∧ blackTop path' ∧
            RedBlackTree.InsertFixup.step n' path' = none)) := by
  refine ⟨fun fuel h => RedBlackTree.Insert_run_eq fuel t course h,
    fun fuel path h => RedBlackTree.descendN_eq_descend course fuel t.root path h,
    RedBlackTree.run_eq_loop, ?_⟩
  intro n path n' path' h
  rcases RedBlackTree.step_spec n path with ⟨h1, _⟩ | ⟨n₁, path₁, h1, _, h3⟩
  · rw [h1] at h
    exact Option.noConfusion h
  · rw [h1] at h
    simp only [Option.some.injEq, Prod.mk.injEq] at h
    obtain ⟨e1, e2⟩ := h
    subst e1 e2
    exact h3

/-! ## The benchmark: hit lookups and the mixed phase -/

/-- C29: a key of the hit pool need not be stored in the container built from
the same source. With the single line "CS101", a key without a title, and one
trial, the hit pool is "CS101" while `loadCourses` skips the line; the lookup
of the hit phase returns the default record, in the tree and in the hash table
of capacity 10007. -/
theorem hit_key_can_be_absent (rng : Nat → Nat) :
    Benchmark.hitKeys (some [lit "CS101"]) 1 = [lit "CS101"] ∧
      loadCourses.courses [lit "CS101"] = [] ∧
      (RedBlackTree.empty.loadCourses "courses.csv" (some [lit "CS101"])).1.Search (lit "CS101")
        = Course.default ∧
      Benchmark.searchPhase
          (fun key => Except.ok
            ((RedBlackTree.empty.loadCourses "courses.csv" (some [lit "CS101"])).1.Search key))
          (Benchmark.hitKeys (some [lit "CS101"]) 1) rng 1 0
        = Except.ok [Course.default] ∧
      (∃ t out, (HashTable.Construct 10007).loadCourses "courses.csv" (some [lit "CS101"])
            = Except.ok (t, out) ∧
          t.Search (lit "CS101") = Except.ok Course.default ∧
          Benchmark.searchPhase t.Search (Benchmark.hitKeys (some [lit "CS101"]) 1) rng 1 0
            = Except.ok [Course.default]) := by
  have hk : Benchmark.hitKeys (some [lit "CS101"]) 1 = [lit "CS101"] := by decide
  have hcs : loadCourses.courses [lit "CS101"] = [] := by decide
  have ht : (RedBlackTree.empty.loadCourses "courses.csv" (some [lit "CS101"])).1.Search
      (lit "CS101") = Course.default := by decide
  have hw := HashTable.WF_Construct 10007 (by decide) (by decide)
  have hs : (HashTable.Construct 10007).Search (lit "CS101") = Except.ok Course.default :=
    HashTable.Search_absent _ hw _ (fun k r h => absurd h (HashTable.not_Holds_Construct _ k r))
  obtain ⟨out', ho⟩ := Benchmark.HashTable_loadCourses_loop [lit "CS101"]
    (HashTable.Construct 10007) 0 [] (HashTable.Construct 10007) []
    (by rw [hcs]; rfl)
  refine ⟨hk, hcs, ht, ?_, HashTable.Construct 10007,
    out' ++ ["Courses loaded successfully (HashTable)."], ?_, hs, ?_⟩
  · rw [hk]
    have h1 : rng 0 % 1 = 0 := Nat.mod_one _
    simp [Benchmark.searchPhase, Benchmark.uniformInt, Benchmark.poolSize, h1, ht]
  · simp only [HashTable.loadCourses, ho]
  · rw [hk]
    have h1 : rng 0 % 1 = 0 := Nat.mod_one _
    simp [Benchmark.searchPhase, Benchmark.uniformInt, Benchmark.poolSize, h1, hs]

/-- C30, as stated, fails: the pool index of a trial is drawn from `rngMixed`,
the generator of the decision values, and the draw moves that generator on.
With a generator whose outputs are 0, 0, 2^31, 0, ..., distributions that take
one output for a value, and the ratio 1/4, the decisions of two trials are hit,
miss. Were the index drawn from a generator of its own, leaving `rngMixed` as
it is, they would be hit, hit. -/
theorem mixed_index_draw_moves_generator :
    (Benchmark.mixedPhase (Benchmark.streamCoin (fun k => if k = 2 then 2 ^ 31 else 0))
        (Benchmark.streamIndex (fun k => if k = 2 then 2 ^ 31 else 0))
        (fun _ => Except.ok Course.default) [lit "CS101"] [lit "CS101_MISS"] (1 / 4) 2 0).map
        (List.map Prod.fst)
      = Except.ok [true, false] ∧
    (Benchmark.mixedPhase (Benchmark.streamCoin (fun k => if k = 2 then 2 ^ 31 else 0))
        (fun a _ g => (a, g))
        (fun _ => Except.ok Course.default) [lit "CS101"] [lit "CS101_MISS"] (1 / 4) 2 0).map
        (List.map Prod.fst)
      = Except.ok [true, true] := by
  constructor <;>
    norm_num [Benchmark.mixedPhase, Benchmark.streamCoin, Benchmark.streamIndex,
      Benchmark.uniformInt, Benchmark.poolSize, Except.map]

/-- C30, amended: in the mixed phase the decision value and the pool index of
the branch taken are drawn from the one generator `rngMixed`. With non-empty
pools, index distributions that stay in their range and lookups that return,
the loop returns after its `n` trials, and its sequence of hit/miss decisions
is a function of the ratio, the generator, the distributions and the sizes of
the two pools: it depends neither on the keys in the pools nor on what the
lookups return. -/
theorem mixed_decisions {G : Type} (coinFlip : G → ℚ × G)
    (indexDist : Nat → Nat → G → Nat × G) (search : CString → Except Fault Course)
    (hitKeys missKeys : List CString) (mixedHitRatio : ℚ) (n : Nat) (g : G)
    (hh : hitKeys ≠ []) (hm : missKeys ≠ [])
    (hin : ∀ b g, (indexDist 0 b g).1 ≤ b) (hs : ∀ key, ∃ c, search key = Except.ok c) :
    ∃ tr, Benchmark.mixedPhase coinFlip indexDist search hitKeys missKeys mixedHitRatio n g
        = Except.ok tr ∧
      tr.length = n ∧
      tr.map Prod.fst = Benchmark.mixedDecisions coinFlip indexDist mixedHitRatio
        (Benchmark.poolSize hitKeys) (Benchmark.poolSize missKeys) n g := by
  obtain ⟨tr, h1, h2⟩ := Benchmark.mixedPhase_decisions coinFlip indexDist search hitKeys
    missKeys mixedHitRatio hh hm hin hs n g
  refine ⟨tr, h1, ?_, h2⟩
  have := congrArg List.length h2
  rw [List.length_map, Benchmark.length_mixedDecisions] at this
  exact this

/-- Witness of C30, amended: two trials on a generator given by its outputs,
with the pools of one key each and lookups in the tree built from one line. -/
theorem mixed_decisions_witness :
    ∃ tr, Benchmark.mixedPhase (Benchmark.streamCoin (fun k => if k = 2 then 2 ^ 31 else 0))
        (Benchmark.streamIndex (fun k => if k = 2 then 2 ^ 31 else 0))
        (fun key => Except.ok
          ((RedBlackTree.empty.loadCourses "courses.csv" (some [lit "CS101,Intro"])).1.Search key))
        [lit "CS101"] [lit "CS101_MISS"] (1 / 4) 2 0 = Except.ok tr ∧
      tr.length = 2 ∧
      tr.map Prod.fst = Benchmark.mixedDecisions
        (Benchmark.streamCoin (fun k => if k = 2 then 2 ^ 31 else 0))
        (Benchmark.streamIndex (fun k => if k = 2 then 2 ^ 31 else 0)) (1 / 4)
        (Benchmark.poolSize [lit "CS101"]) (Benchmark.poolSize [lit "CS101_MISS"]) 2 0 :=
  mixed_decisions _ _ _ [lit "CS101"] [lit "CS101_MISS"] (1 / 4) 2 0 (by decide) (by decide)
    (fun b g => by
      simp only [Benchmark.streamIndex, Benchmark.uniformInt, Nat.zero_add, Nat.sub_zero]
      exact Nat.le_of_lt_succ (Nat.mod_lt _ (Nat.succ_pos b)))
    (fun _ => ⟨_, rfl⟩)

/-! ## The loader: lines skipped without a warning -/

/-- C31: `loadCourses` skips a non-empty line that has no second field, such as
"CS101" or "CS101,", without a warning: the second `getline` fails and the loop
goes on to the next line. Only a line with two fields of which one is empty,
such as ",Intro", is warned about. With the lines "CS101" and "CS200,Data" both
overloads insert the record of the second line and write nothing but the
closing message. -/
theorem loader_skips_without_warning :
    loadCourses.line (lit "CS101") = loadCourses.Outcome.skipped ∧
      loadCourses.line (lit "CS101,") = loadCourses.Outcome.skipped ∧
      loadCourses.line (lit ",Intro") = loadCourses.Outcome.warned ∧
      RedBlackTree.empty.loadCourses "courses.csv" (some [lit "CS101", lit "CS200,Data"])
        = (RedBlackTree.empty.Insert (mk "CS200" "Data"),
            ["Courses loaded successfully (RBT)."]) ∧
      (HashTable.Construct 3).loadCourses "courses.csv" (some [lit "CS101", lit "CS200,Data"])
        = Except.ok ((HashTable.Construct 3).put 2 (mk "CS200" "Data"),
            ["Courses loaded successfully (HashTable)."]) := by
  refine ⟨by decide, by decide, by decide, by decide, by decide⟩

/-! ## The hash table: exact comparison, length of the probe loops -/

/-- C32: for every state of the table and every query `q`, a record with a
non-empty key that `Search(q)` returns is the payload of an occupied slot, and
its stored key equals `upper(q)` byte for byte; so a record whose key contains
a lowercase ASCII letter is returned by no call of `Search`. -/
theorem hashtable_search_exact_match (t : HashTable) (q : CString) :
    (∀ c, t.Search q = Except.ok c → c.number ≠ [] →
      ∃ i : Nat, t.occupied[i]? = some true ∧ t.table[i]? = some c ∧ c.number = ToUpperCopy q) ∧
    (∀ r, (∃ ch ∈ r.number, 97 ≤ ch.val ∧ ch.val ≤ 122) → t.Search q ≠ Except.ok r) := by
  constructor
  · intro c hs hne
    obtain ⟨i, ⟨h1, h2⟩, h3⟩ := HashTable.Search_match t q c hs hne
    exact ⟨i, h1, h2, h3⟩
  · rintro r ⟨ch, hch, hl⟩ hs
    have hne : r.number ≠ [] := List.ne_nil_of_mem hch
    obtain ⟨i, _, h3⟩ := HashTable.Search_match t q r hs hne
    rw [h3] at hch
    exact RedBlackTree.ToUpperCopy_no_lower q ch hch hl

/-- Witness of C32: a table holding records with the keys "cs101" and "CS200";
`Search("cs200")` returns the second and not the first. -/
theorem hashtable_search_exact_match_witness :
    (∃ i : Nat, (HashTable.mk [mk "cs101" "Intro", mk "CS200" "Data"] [true, true] 2).occupied[i]?
          = some true ∧
        (HashTable.mk [mk "cs101" "Intro", mk "CS200" "Data"] [true, true] 2).table[i]?
          = some (mk "CS200" "Data") ∧
        (mk "CS200" "Data").number = ToUpperCopy (lit "cs200")) ∧
      (HashTable.mk [mk "cs101" "Intro", mk "CS200" "Data"] [true, true] 2).Search (lit "cs200")
        ≠ Except.ok (mk "cs101" "Intro") :=
  ⟨(hashtable_search_exact_match
      (HashTable.mk [mk "cs101" "Intro", mk "CS200" "Data"] [true, true] 2) (lit "cs200")).1
      (mk "CS200" "Data") (by decide) (by decide),
    (hashtable_search_exact_match
      (HashTable.mk [mk "cs101" "Intro", mk "CS200" "Data"] [true, true] 2) (lit "cs200")).2
      (mk "cs101" "Intro") ⟨99, by decide, by decide⟩⟩

/-- C33: in a table of capacity `c ≥ 1` (an `unsigned int`, both vectors of `c`
entries), the probe loop of `Insert` is left after the test of slot number `m`
on the probe path from the home slot, `m < c`, so `m + 1 ≤ c` tests of
`occupied[key]` suffice, any larger bound giving the same result: either slot
`m` is the first unoccupied one, or every slot is occupied and `m + 1 = c`, one
full wrap. The probe loop of `Search` is left likewise after the test of slot
`m < c`: at a match, at the first unoccupied slot, or after one full wrap over
occupied slots with other keys. `Insert` and `Search` return. -/
theorem hashtable_probe_loops_terminate (t : HashTable) (r : Course) (q : CString)
    (hw : t.WF) :
    (∃ h m res, t.hash r.number = Except.ok h ∧ m < t.tableSize ∧
      (∀ fuel, m < fuel → HashTable.Insert.loop t h fuel h = Except.ok res) ∧
      ((res = some ((h + m) % t.tableSize) ∧
          t.occupied[(h + m) % t.tableSize]? = some false ∧
          ∀ i, i < m → t.occupied[(h + i) % t.tableSize]? = some true) ∨
        (res = none ∧ m + 1 = t.tableSize ∧
          ∀ k, k < t.tableSize → t.occupied[k]? = some true))) ∧
    (∃ h m res, t.hash (ToUpperCopy q) = Except.ok h ∧ m < t.tableSize ∧
      (∀ fuel, m < fuel → HashTable.Search.loop t (ToUpperCopy q) h fuel h = Except.ok res) ∧
      t.Search q = Except.ok res ∧
      (∀ i, i < m → ∃ r', t.Holds ((h + i) % t.tableSize) r' ∧ r'.number ≠ ToUpperCopy q) ∧
      ((t.Holds ((h + m) % t.tableSize) res ∧ res.number = ToUpperCopy q) ∨
        (res = Course.default ∧ t.occupied[(h + m) % t.tableSize]? = some false) ∨
        (res = Course.default ∧ m + 1 = t.tableSize ∧
          ∃ r', t.Holds ((h + m) % t.tableSize) r' ∧ r'.number ≠ ToUpperCopy q))) ∧
    (∃ t' out, t.Insert r = Except.ok (t', out)) := by
  have hc := hw.2.2.1
  refine ⟨?_, ?_, ?_⟩
  · obtain ⟨m, res, h1, h2, h3⟩ :=
      HashTable.Insert_loop_bound t hw _ (HashTable.home_lt t.tableSize r.number hc)
    exact ⟨_, m, res, HashTable.hash_eq t _ hc, h1, h2, h3⟩
  · obtain ⟨m, res, h1, h2, h3, h4⟩ :=
      HashTable.Search_loop_bound t hw (ToUpperCopy q) _
        (HashTable.home_lt t.tableSize (ToUpperCopy q) hc)
    refine ⟨_, m, res, HashTable.hash_eq t _ hc, h1, h2, ?_, h3, h4⟩
    unfold HashTable.Search
    have e : q.map toupper = ToUpperCopy q := rfl
    simp only [e, HashTable.hash_eq t _ hc]
    exact h2 _ h1
  · rcases HashTable.Insert_spec t hw r with ⟨j, _, _, _, hins⟩ | ⟨_, hins⟩
    · exact ⟨_, _, hins⟩
    · exact ⟨_, _, hins⟩

/-- Witness of C33: a full table of capacity 2, in which both loops wrap. -/
theorem hashtable_probe_loops_terminate_witness :
    (∃ h m res,
        HashTable.hash (HashTable.mk [mk "AB" "x", mk "BA" "y"] [true, true] 2)
          (mk "C1" "z").number = Except.ok h ∧ m < 2 ∧
        ∀ fuel, m < fuel →
          HashTable.Insert.loop (HashTable.mk [mk "AB" "x", mk "BA" "y"] [true, true] 2)
            h fuel h = Except.ok res) ∧
      (∃ res, HashTable.Search (HashTable.mk [mk "AB" "x", mk "BA" "y"] [true, true] 2)
        (lit "C1") = Except.ok res) := by
  obtain ⟨⟨h, m, res, a, b, c, _⟩, ⟨_, _, res2, _, _, _, d, _⟩, _⟩ :=
    hashtable_probe_loops_terminate
      (HashTable.mk [mk "AB" "x", mk "BA" "y"] [true, true] 2) (mk "C1" "z") (lit "C1")
      ⟨by decide, by decide, by decide, by decide⟩
  exact ⟨⟨h, m, res, a, b, c⟩, ⟨res2, d⟩⟩

/-! ## The height of the tree -/

/-- C34: after any sequence of `Insert` calls on an empty tree, with `h` the
number of nodes on the longest path from the root to a null child,
`2 ^ ⌈h / 2⌉ ≤ Size() + 1`, and `h` is at most twice the binary logarithm of
`Size() + 1`, rounded down. -/
theorem rbt_height_bound (cs : List Course) :
    2 ^ ((height (RedBlackTree.insertAll cs).root + 1) / 2)
        ≤ (RedBlackTree.insertAll cs).Size + 1 ∧
      height (RedBlackTree.insertAll cs).root
        ≤ 2 * Nat.log 2 ((RedBlackTree.insertAll cs).Size + 1) := by
  have h := RedBlackTree.height_bound _ (RedBlackTree.Valid_insertAll cs)
  refine ⟨h, ?_⟩
  have h2 : (height (RedBlackTree.insertAll cs).root + 1) / 2
      ≤ Nat.log 2 ((RedBlackTree.insertAll cs).Size + 1) :=
    Nat.le_log_of_pow_le (by decide) h
  omega

/-! ## The two containers after the same records -/

/-- C35, as stated, fails for the capacity 0, which is at least the length of
the empty list: `Search` on a table of no buckets takes a remainder by zero in
`hash`, while `Search` on the empty tree returns the default record. -/
theorem containers_differ_at_capacity_zero :
    ([] : List Course).length ≤ 0 ∧
      (HashTable.Construct 0).insertAll [] = Except.ok (HashTable.Construct 0, []) ∧
      (HashTable.Construct 0).Search (lit "CS101") = Except.error Fault.divisionByZero ∧
      (RedBlackTree.insertAll []).Search (lit "CS101") = Course.default := by
  decide

/-- C35, amended: for records with pairwise distinct keys that are already
uppercase and a capacity `c` (an `unsigned int`) with `c ≥ 1` and at least the
number of records, inserting the records in order into a fresh table of
capacity `c` succeeds without a diagnostic, and for every query `q` the table
returns what the tree built by inserting the same records in order returns. -/
theorem containers_agree (c : Nat) (rs : List Course) (hc1 : 1 ≤ c) (hc2 : c < 2 ^ 32)
    (hn : rs.length ≤ c) (hd : (rs.map Course.number).Nodup)
    (hu : ∀ r ∈ rs, ToUpperCopy r.number = r.number) :
    ∃ t, (HashTable.Construct c).insertAll rs = Except.ok (t, []) ∧
      ∀ q, t.Search q = Except.ok ((RedBlackTree.insertAll rs).Search q) :=
  HashTable.Search_agrees c rs hc1 hc2 hn hd hu

/-- Witness of C35, amended: two records in a table of capacity 3. -/
theorem containers_agree_witness :
    ∃ t, (HashTable.Construct 3).insertAll [mk "CS200" "a", mk "CS101" "b"] = Except.ok (t, []) ∧
      ∀ q, t.Search q
        = Except.ok ((RedBlackTree.insertAll [mk "CS200" "a", mk "CS101" "b"]).Search q) :=
  containers_agree 3 [mk "CS200" "a", mk "CS101" "b"] (by decide) (by decide) (by decide)
    (by decide) (by decide)

end Advising
